import Mathlib

/-!
Verification development for the PyShorthand repository.

The repository defines a line-oriented shorthand for describing code
structure.  Its core (tokenizer, tag model, parser, formatter, living in
`pyshort.core` and `pyshort.formatter`) is exercised by the unit tests and
the debug scripts of the repository; the decompiler (`py2short.py`) and the
ecosystem explorer (`tools.py`) are ordinary Python modules embedded here
directly.  Core definitions that have no Python source in the tree are
modelled from the design document, as indicated in their doc comments.
-/

namespace PyShort

/-- Characters of a string. -/
def chars (s : String) : List Char := s.data

/-- String from characters. -/
def str (cs : List Char) : String := String.mk cs

/-- The single-quote character, written by code point to keep source plain. -/
def qch : Char := Char.ofNat 39

/-- Take the longest leading run of characters not in `stops`; return it with
the remainder. -/
def takeWhileNotC (stops : List Char) : List Char → List Char × List Char
  | [] => ([], [])
  | c :: rest =>
    if c ∈ stops then ([], c :: rest)
    else
      let (a, b) := takeWhileNotC stops rest
      (c :: a, b)

/-- Content before the first occurrence of `stop`, together with the
remainder after it; `none` when `stop` does not occur. -/
def takeUntilChar (stop : Char) : List Char → Option (List Char × List Char)
  | [] => none
  | c :: rest =>
    if c = stop then some ([], rest)
    else (takeUntilChar stop rest).map (fun p => (c :: p.1, p.2))

/-- Split on a separator character (never returns an empty list). -/
def splitChar (sep : Char) : List Char → List (List Char)
  | [] => [[]]
  | c :: rest =>
    let r := splitChar sep rest
    if c = sep then [] :: r
    else
      match r with
      | [] => [[c]]
      | p :: ps => (c :: p) :: ps

/-- Join character lists with a separator character. -/
def joinChar (sep : Char) : List (List Char) → List Char
  | [] => []
  | p :: ps => p ++ (if ps.isEmpty then [] else sep :: joinChar sep ps)

/-- Does `cs` start with `pre`? -/
def listHasLead (pre cs : List Char) : Bool :=
  match pre, cs with
  | [], _ => true
  | _ :: _, [] => false
  | p :: ps, c :: rest => p = c && listHasLead ps rest

/-- Drop the first `n` characters. -/
def listDrop : Nat → List Char → List Char
  | 0, cs => cs
  | _ + 1, [] => []
  | n + 1, _ :: rest => listDrop n rest

/-- Remove leading spaces. -/
def trimL : List Char → List Char
  | [] => []
  | c :: rest => if c = ' ' then trimL rest else c :: rest

/-- Remove trailing spaces. -/
def trimR (cs : List Char) : List Char := (trimL cs.reverse).reverse

/-- Remove spaces at both ends. -/
def trimC (cs : List Char) : List Char := trimR (trimL cs)

/-- Prepend a character to the first piece of a split. -/
def consFirst (c : Char) : List (List Char) → List (List Char)
  | [] => [[c]]
  | p :: ps => (c :: p) :: ps

/-- Split into maximal space-free words, dropping all spaces. -/
def splitWords : List Char → List (List Char)
  | [] => []
  | c :: rest =>
    if c = ' ' then splitWords rest
    else
      match rest with
      | [] => [[c]]
      | c2 :: _ =>
        if c2 = ' ' then [c] :: splitWords rest
        else consFirst c (splitWords rest)

/-- Remainder after the first occurrence of `pat` (as a contiguous block). -/
def findSub (pat : List Char) : List Char → Option (List Char)
  | [] => none
  | c :: rest =>
    if listHasLead pat (c :: rest) then some (listDrop pat.length (c :: rest))
    else findSub pat rest

/-- Identifier character: letter, digit or underscore (section 4.1 of the
design document restricts identifiers to these). -/
def isIdentCh (c : Char) : Bool := c.isAlpha || c.isDigit || c = '_'

/-- Non-empty run of identifier characters. -/
def identL (cs : List Char) : Bool := !cs.isEmpty && cs.all isIdentCh

/-- Non-empty identifier string. -/
def identStr (s : String) : Bool := identL (chars s)

/-! ## Tag model

Modelled from the spec: the `Tag` value of the missing
`pyshort/core/ast_nodes.py` (only its unit tests are in the tree).  Fields
and invariants follow section 3 of the design document.
-/

/-- Tag variant. -/
inductive TagType where
  | operation
  | complexity
  | decorator
  | httpRoute
  | custom
deriving DecidableEq, Repr

/-- A bracketed annotation. -/
structure Tag where
  base : String
  qualifiers : List String := []
  tagType : TagType
  httpMethod : Option String := none
  httpPath : Option String := none
deriving DecidableEq, Repr

/-- Balanced-parenthesis check: depth never negative, zero at the end. -/
def parenBalanced : List Char → Nat → Bool
  | [], d => d = 0
  | '(' :: rest, d => parenBalanced rest (d + 1)
  | ')' :: rest, d => d ≠ 0 && parenBalanced rest (d - 1)
  | _ :: rest, d => parenBalanced rest d

/-- Does the character list match `O(` + non-empty balanced expression + `)`? -/
def isComplexityL (cs : List Char) : Bool :=
  match cs with
  | 'O' :: '(' :: rest =>
    match rest.getLast? with
    | some ')' => !rest.dropLast.isEmpty && parenBalanced rest.dropLast 0
    | _ => false
  | _ => false

/-- Does the string match the `O(...)` pattern of the design document? -/
def isComplexityPattern (s : String) : Bool := isComplexityL (chars s)

/-- The recognized HTTP methods, in source order (case-sensitive). -/
def httpMethods : List String := ["GET", "POST", "PUT", "DELETE", "PATCH"]

/-- Modelled from the spec: the recognized decorator vocabulary.  The design
document and the unit tests list Prop, Static, Class, Abstract, Cached and
RateLimit. -/
def decoratorVocab : List String :=
  ["Prop", "Static", "Class", "Abstract", "Cached", "RateLimit"]

/-- Does the string start with a slash? -/
def leadSlash (s : String) : Bool :=
  match chars s with
  | [] => false
  | c :: _ => c = '/'

/-- Error message for an HTTP path that lacks its leading slash (the quotes
around the slash are part of the message). -/
def msgSlash : String := "must start with " ++ str [qch, '/', qch]

/-- Error message for an HTTP route missing one of its two parts. -/
def msgBoth : String := "must have both http_method and http_path"

/-- Error message for an unknown HTTP method. -/
def msgMethod : String := "Invalid HTTP method"

/-- Error message for a malformed complexity base. -/
def msgComplexity : String := "Invalid complexity notation"

/-- Modelled from the spec: validating construction of a `Tag`
(the `__post_init__` checks of the missing `pyshort/core/ast_nodes.py`),
following the invariants of section 3 of the design document and the
messages pinned by `tests/unit/test_ast_nodes_v14.py`:
a complexity tag must match `O(...)`; an HTTP route must carry both a
method (one of the five keywords, case-sensitively) and a slash-led path;
a decorator whose base is outside the recognized vocabulary silently
downgrades to a custom tag. -/
def Tag.make (base : String) (qualifiers : List String) (tagType : TagType)
    (httpMethod httpPath : Option String) : Except String Tag :=
  match tagType with
  | .complexity =>
    if isComplexityPattern base then
      .ok ⟨base, qualifiers, .complexity, httpMethod, httpPath⟩
    else .error msgComplexity
  | .httpRoute =>
    match httpMethod, httpPath with
    | some m, some p =>
      if m ∈ httpMethods then
        if leadSlash p then .ok ⟨base, qualifiers, .httpRoute, some m, some p⟩
        else .error msgSlash
      else .error msgMethod
    | _, _ => .error msgBoth
  | .decorator =>
    if base ∈ decoratorVocab then
      .ok ⟨base, qualifiers, .decorator, httpMethod, httpPath⟩
    else .ok ⟨base, qualifiers, .custom, httpMethod, httpPath⟩
  | t => .ok ⟨base, qualifiers, t, httpMethod, httpPath⟩

/-- Derived property: the first qualifier (or the base, for a pure
complexity tag) matching the `O(...)` pattern. -/
def Tag.complexity (t : Tag) : Option String :=
  if t.tagType = TagType.complexity then
    if isComplexityPattern t.base then some t.base else none
  else t.qualifiers.find? (fun q => isComplexityPattern q)

/-- Derived property: is this an operation tag? -/
def Tag.is_operation (t : Tag) : Bool := t.tagType = TagType.operation

/-- Derived property: is this a complexity tag? -/
def Tag.is_complexity (t : Tag) : Bool := t.tagType = TagType.complexity

/-- Derived property: is this a decorator tag? -/
def Tag.is_decorator (t : Tag) : Bool := t.tagType = TagType.decorator

/-- Derived property: is this an HTTP route tag? -/
def Tag.is_http_route (t : Tag) : Bool := t.tagType = TagType.httpRoute

/-- Derived property: IO tag. -/
def Tag.is_io (t : Tag) : Bool := t.base = "IO"

/-- Derived property: synchronisation tag. -/
def Tag.is_sync (t : Tag) : Bool := t.base = "Sync"

/-- Modelled from the spec and the unit tests: the textual rendering of a
tag (the `__str__` of the missing `pyshort/core/ast_nodes.py`).  For all
variants except HTTP routes it is `[` + base + `:`-joined qualifiers + `]`.
For an HTTP route the unit tests `test_http_route_get` and
`test_http_route_post_with_params` pin the form `[GET /users]`: method and
path joined with a single space (the design document instead describes a
form with no separator; the tests are the repository's own record of the
implemented behaviour, so this definition follows them). -/
def tagStr (t : Tag) : String :=
  match t.tagType with
  | .httpRoute =>
    "[" ++ t.httpMethod.getD "" ++ " " ++ t.httpPath.getD "" ++ "]"
  | _ =>
    "[" ++ t.base ++ str ((t.qualifiers.map (fun q => ':' :: chars q)).flatten) ++ "]"

/-! ## Tag parsing (section 4.2 of the design document) -/

/-- Content up to the first closing bracket, with the remainder after it;
`none` when the tag is unterminated. -/
def splitTagContent : List Char → Option (List Char × List Char)
  | [] => none
  | c :: rest =>
    if c = ']' then some ([], rest)
    else (splitTagContent rest).map (fun p => (c :: p.1, p.2))

/-- Try one HTTP method keyword against a fragment: the keyword must be
immediately followed by a slash-led path. -/
def routeTry (m : String) (cs : List Char) : Option (String × String) :=
  if listHasLead (chars m) cs then
    match listDrop (chars m).length cs with
    | [] => none
    | c :: rest => if c = '/' then some (m, str (c :: rest)) else none
  else none

/-- Modelled from the spec: route recognition, step 3 of section 4.2 — the
first fragment begins with one of the fixed HTTP method keywords
immediately followed by a `/`-prefixed path. -/
def routeSplit (cs : List Char) : Option (String × String) :=
  match routeTry "GET" cs with
  | some r => some r
  | none =>
    match routeTry "POST" cs with
    | some r => some r
    | none =>
      match routeTry "PUT" cs with
      | some r => some r
      | none =>
        match routeTry "DELETE" cs with
        | some r => some r
        | none => routeTry "PATCH" cs

/-- Modelled from the spec: classification of the colon-separated fragments
of a tag, in the priority order of section 4.2 (complexity, then HTTP
route, then decorator, then operation).  A complexity or route tag ignores
any extra fragments; a decorator or operation tag keeps them as qualifiers
in order. -/
def classifyFrags : List String → Except String Tag
  | [] => .error "Empty tag"
  | f :: rest =>
    if isComplexityPattern f then Tag.make f [] .complexity none none
    else
      match routeSplit (chars f) with
      | some (m, p) => Tag.make f [] .httpRoute (some m) (some p)
      | none =>
        if f ∈ decoratorVocab then Tag.make f rest .decorator none none
        else Tag.make f rest .operation none none

/-- Modelled from the spec: `parse_tag` of the missing
`pyshort/core/parser.py` (section 4.2): collect everything up to the
matching close bracket (`Unterminated tag` when the input ends first,
`Empty tag` when the bracket pair is immediately empty), split the content
on colons and classify.  Returns the tag and the unconsumed remainder. -/
def parseTag (cs : List Char) : Except String (Tag × List Char) :=
  match cs with
  | '[' :: rest =>
    match splitTagContent rest with
    | none => .error "Unterminated tag"
    | some (content, rem) =>
      if content.isEmpty then .error "Empty tag"
      else (classifyFrags ((splitChar ':' content).map str)).map (fun t => (t, rem))
  | _ => .error "Expected tag"

/-- `parse_tag` on raw text. -/
def parseTagText (s : String) : Except String (Tag × String) :=
  (parseTag (chars s)).map (fun p => (p.1, str p.2))

/-! ## Document model (section 3 of the design document)

Modelled from the spec: the AST produced by the missing
`pyshort/core/parser.py`.  A document holds metadata, ordered entities,
ordered module-level functions and ordered diagnostics; an entity holds
ordered dependencies and ordered state variables; a type specification is a
base type with optional shape dimensions and optional placement. -/

/-- Type specification: base type, optional shape, optional placement. -/
structure TypeSpec where
  baseType : String
  shape : Option (List String) := none
  placement : Option String := none
deriving DecidableEq, Repr

/-- The sentinel type used when a type is wholly unresolvable. -/
def unknownTS : TypeSpec := ⟨"Unknown", none, none⟩

/-- A named, typed state variable of an entity. -/
structure StateVar where
  name : String
  typeSpec : TypeSpec
deriving DecidableEq, Repr

/-- An entity: name, ordered dependencies, ordered state variables. -/
structure Entity where
  name : String
  dependencies : List String
  state : List StateVar
deriving DecidableEq, Repr

/-- A function parameter. -/
structure Param where
  name : String
  typeSpec : TypeSpec
deriving DecidableEq, Repr

/-- A module-level function with its tags in source order. -/
structure Func where
  name : String
  params : List Param
  returnType : TypeSpec
  tags : List Tag
deriving DecidableEq, Repr

/-- Document metadata: module name, optional role. -/
structure Metadata where
  moduleName : String
  role : Option String := none
deriving DecidableEq, Repr

/-- Diagnostic severity. -/
inductive Severity where
  | error
  | warning
deriving DecidableEq, Repr

/-- A recoverable parse-time observation. -/
structure Diagnostic where
  severity : Severity
  line : Nat
  message : String
deriving DecidableEq, Repr

/-- The complete parsed representation of one source file. -/
structure Document where
  metadata : Metadata
  entities : List Entity
  functions : List Func
  diagnostics : List Diagnostic
deriving DecidableEq, Repr

/-- A hard parse failure with its source line. -/
structure ParseErr where
  line : Nat
  message : String
deriving DecidableEq, Repr

/-! ## Parser (sections 4.1 and 4.3 of the design document)

Modelled from the spec: the missing `pyshort/core/tokenizer.py` and
`pyshort/core/parser.py`.  The grammar is line-oriented, so tokenization
and indentation tracking reduce to splitting the text on newlines and
classifying the leading whitespace of each line; identifiers are letters,
digits and underscores.  Hard failures: missing metadata header,
unterminated tag, empty tag, tag-invariant violations.  Recoverable
conditions (warnings): unrecognized content and unresolvable types, the
latter defaulting to the `Unknown` sentinel. -/

/-- Marker before a dependency name. -/
def depMarker : List Char := ['◊', ' ', '[', 'R', 'e', 'f', ':']

/-- Marker opening an entity header. -/
def entMarker : List Char := ['[', 'C', ':']

/-- Marker opening a function line. -/
def funMarker : List Char := ['F', ':']

/-- Marker introducing the module name. -/
def metaMarker : List Char := ['[', 'M', ':']

/-- Marker introducing the role. -/
def roleMarker : List Char := ['[', 'R', 'o', 'l', 'e', ':']

/-- Warning message for unrecognized content. -/
def msgUnrec : String := "Unrecognized content"

/-- Warning message for a malformed function line. -/
def msgBadFun : String := "Malformed function line"

/-- Warning message for a type defaulting to the sentinel. -/
def msgUnresolved : String := "Unresolved type defaults to Unknown"

/-- Hard error message for a document without a metadata header. -/
def msgNoMeta : String := "Missing module metadata header"

/-- Is the line blank (spaces only)? -/
def isBlankL (cs : List Char) : Bool := cs.all (fun c => c = ' ')

/-- Is the line a comment-only line (`#` or `//` after indentation)? -/
def isCommentL (cs : List Char) : Bool :=
  listHasLead ['#'] (trimL cs) || listHasLead ['/', '/'] (trimL cs)

/-- Parse a type specification: base type, then optional bracketed shape,
then optional `@` placement; all parts are identifiers.  `none` marks a
wholly-unresolvable specification. -/
def tsParse (cs : List Char) : Option TypeSpec :=
  match takeWhileNotC ['[', '@'] cs with
  | (b, r) =>
    if identL b then
      match r with
      | [] => some ⟨str b, none, none⟩
      | c :: r2 =>
        if c = '@' then
          if identL r2 then some ⟨str b, none, some (str r2)⟩ else none
        else if c = '[' then
          match takeUntilChar ']' r2 with
          | none => none
          | some (content, after) =>
            let ds := splitChar ',' content
            if ds.all identL then
              match after with
              | [] => some ⟨str b, some (ds.map str), none⟩
              | a :: p =>
                if a = '@' then
                  if identL p then some ⟨str b, some (ds.map str), some (str p)⟩
                  else none
                else none
            else none
        else none
    else none

/-- Parser state while folding over the lines. -/
structure EntAcc where
  name : String
  deps : List String
  svs : List StateVar
deriving DecidableEq, Repr

/-- Parser state: closed entities, the open entity if any, functions and
diagnostics collected so far. -/
structure PState where
  ents : List Entity
  cur : Option EntAcc
  funcs : List Func
  diags : List Diagnostic
deriving DecidableEq, Repr

/-- Close the open entity block, if any. -/
def closeCur (st : PState) : PState :=
  match st.cur with
  | none => st
  | some a => { st with ents := st.ents ++ [⟨a.name, a.deps, a.svs⟩], cur := none }

/-- Record a warning diagnostic. -/
def addDiag (st : PState) (ln : Nat) (msg : String) : PState :=
  { st with diags := st.diags ++ [⟨.warning, ln, msg⟩] }

/-- Process one (already trimmed) line inside an entity block: a dependency
line, a state-variable line, or unrecognized content recorded as a warning. -/
def procBody (ln : Nat) (t : List Char) (acc : EntAcc) (st : PState) : PState :=
  if listHasLead depMarker t then
    match takeUntilChar ']' (listDrop 7 t) with
    | some (n, _) =>
      if identL n then
        { st with cur := some { acc with deps := acc.deps ++ [str n] } }
      else addDiag st ln msgUnrec
    | none => addDiag st ln msgUnrec
  else
    match splitWords t with
    | [n, sep, w] =>
      if (sep = ['∈'] || sep = ['i', 'n']) && identL n then
        match tsParse w with
        | some ts =>
          { st with cur := some { acc with svs := acc.svs ++ [⟨str n, ts⟩] } }
        | none =>
          { addDiag st ln msgUnresolved with
              cur := some { acc with svs := acc.svs ++ [⟨str n, unknownTS⟩] } }
      else addDiag st ln msgUnrec
    | _ => addDiag st ln msgUnrec

/-- Recognize the arrow introducing a return type (Unicode or ASCII). -/
def arrowLead (cs : List Char) : Option (List Char) :=
  match cs with
  | [] => none
  | c :: rest =>
    if c = '→' then some rest
    else if c = '-' then
      match rest with
      | [] => none
      | c2 :: r2 => if c2 = '>' then some r2 else none
    else none

/-- Split parameter text on commas outside brackets (bracket depth is
clamped at zero). -/
def splitTopComma : List Char → Nat → List (List Char)
  | [], _ => [[]]
  | c :: rest, d =>
    if c = ',' && d = 0 then [] :: splitTopComma rest 0
    else if c = '[' then consFirst c (splitTopComma rest (d + 1))
    else if c = ']' then consFirst c (splitTopComma rest (d - 1))
    else consFirst c (splitTopComma rest d)

/-- Parse one `name: type` parameter piece; the returned flag records that
the type was unresolvable and defaulted to the sentinel. -/
def pieceParse (cs : List Char) : Option (Param × Bool) :=
  match takeUntilChar ':' cs with
  | none => none
  | some (nraw, rest) =>
    let n := trimC nraw
    let w := trimC rest
    if identL n && !w.isEmpty && w.all (fun c => c ≠ ' ') then
      match tsParse w with
      | some ts => some (⟨str n, ts⟩, false)
      | none => some (⟨str n, unknownTS⟩, true)
    else none

/-- Parse the comma-separated parameter list. -/
def paramsParse (cs : List Char) : Option (List Param × Bool) :=
  if (trimC cs).isEmpty then some ([], false)
  else
    (splitTopComma cs 0).foldr
      (fun pc acc =>
        match acc, pieceParse pc with
        | some (ps, d), some (p, d2) => some (p :: ps, d || d2)
        | _, _ => none)
      (some ([], false))

/-- Fueled loop collecting the bracketed tags at the end of a function
line; the fuel is instantiated with the length of the input, which bounds
the recursion depth. -/
def parseTagsF : Nat → List Char → Except String (List Tag)
  | 0, _ => .ok []
  | _ + 1, [] => .ok []
  | fuel + 1, c :: rest =>
    if c = ' ' then parseTagsF fuel rest
    else if c = '[' then
      match splitTagContent rest with
      | none => .error "Unterminated tag"
      | some (content, rem) =>
        if content.isEmpty then .error "Empty tag"
        else
          match classifyFrags ((splitChar ':' content).map str) with
          | .error e => .error e
          | .ok t => (parseTagsF fuel rem).map (fun ts => t :: ts)
    else .ok []

/-- Collect the bracketed tags of a function line, left to right. -/
def parseTags (cs : List Char) : Except String (List Tag) :=
  parseTagsF cs.length cs

/-- Process a function line `F:name(params) → type [tag] ...`.  Structural
defects are recoverable warnings; tag failures are hard errors. -/
def procFun (ln : Nat) (cs : List Char) (st : PState) : Except ParseErr PState :=
  match takeWhileNotC ['('] (listDrop 2 cs) with
  | (nm, r1) =>
    match r1 with
    | [] => .ok (addDiag st ln msgBadFun)
    | _ :: r2 =>
      if identL nm then
        match takeUntilChar ')' r2 with
        | some (pcs, r3) =>
          match paramsParse pcs with
          | some (ps, pdiag) =>
            match arrowLead (trimL r3) with
            | some r4 =>
              match takeWhileNotC [' '] (trimL r4) with
              | (rw, r5) =>
                if rw.isEmpty then .ok (addDiag st ln msgBadFun)
                else
                  match parseTags r5 with
                  | .error e => .error ⟨ln, e⟩
                  | .ok tags =>
                    match tsParse rw with
                    | some ts =>
                      .ok { (if pdiag then addDiag st ln msgUnresolved else st)
                              with funcs := st.funcs ++ [⟨str nm, ps, ts, tags⟩] }
                    | none =>
                      .ok { addDiag (if pdiag then addDiag st ln msgUnresolved else st)
                              ln msgUnresolved
                              with funcs := st.funcs ++ [⟨str nm, ps, unknownTS, tags⟩] }
            | none => .ok (addDiag st ln msgBadFun)
          | none => .ok (addDiag st ln msgBadFun)
        | none => .ok (addDiag st ln msgBadFun)
      else .ok (addDiag st ln msgBadFun)

/-- Process one line of the document body. -/
def procLine (ln : Nat) (cs : List Char) (st : PState) : Except ParseErr PState :=
  if isBlankL cs then .ok st
  else if isCommentL cs then .ok st
  else
    match cs with
    | [] => .ok st
    | c :: _ =>
      if c = ' ' then
        match st.cur with
        | some acc => .ok (procBody ln (trimL cs) acc st)
        | none => .ok (addDiag st ln msgUnrec)
      else
        let st1 := closeCur st
        if listHasLead entMarker cs then
          match takeUntilChar ']' (listDrop 3 cs) with
          | some (n, _) =>
            if identL n then .ok { st1 with cur := some ⟨str n, [], []⟩ }
            else .ok (addDiag st1 ln msgUnrec)
          | none => .ok (addDiag st1 ln msgUnrec)
        else if listHasLead funMarker cs then procFun ln cs st1
        else .ok (addDiag st1 ln msgUnrec)

/-- Fold the body lines through the parser state. -/
def procLines : List (List Char) → Nat → PState → Except ParseErr PState
  | [], _, st => .ok st
  | l :: ls, ln, st =>
    match procLine ln l st with
    | .error e => .error e
    | .ok st2 => procLines ls (ln + 1) st2

/-- Extract the metadata of a comment line: module name after `[M:`, then
an optional role after `[Role:` in the remainder. -/
def metaParse (cs : List Char) : Option Metadata :=
  match findSub metaMarker cs with
  | none => none
  | some r1 =>
    match takeUntilChar ']' r1 with
    | none => none
    | some (n, r2) =>
      if identL n then
        some ⟨str n,
          match findSub roleMarker r2 with
          | none => none
          | some r3 =>
            match takeUntilChar ']' r3 with
            | some (rn, _) => if identL rn then some (str rn) else none
            | none => none⟩
      else none

/-- Find the metadata header: the first non-blank line must be a comment
line carrying `[M:<name>]`; anything else is a hard failure. -/
def findMeta : List (List Char) → Nat →
    Except ParseErr (Metadata × List (List Char) × Nat)
  | [], ln => .error ⟨ln, msgNoMeta⟩
  | l :: ls, ln =>
    if isBlankL l then findMeta ls (ln + 1)
    else if isCommentL l then
      match metaParse l with
      | some md => .ok (md, ls, ln + 1)
      | none => .error ⟨ln, msgNoMeta⟩
    else .error ⟨ln, msgNoMeta⟩

/-- Modelled from the spec: the `parse` entry point (section 6) of the
missing `pyshort/core/parser.py`: split into lines, require the metadata
header, then fold the remaining lines through the block state machine. -/
def parse (t : String) : Except ParseErr Document :=
  match findMeta (splitChar '\n' (chars t)) 1 with
  | .error e => .error e
  | .ok (md, rest, ln) =>
    match procLines rest ln ⟨[], none, [], []⟩ with
    | .error e => .error e
    | .ok st =>
      .ok ⟨md, (closeCur st).ents, (closeCur st).funcs, (closeCur st).diags⟩

/-! ## Formatter (section 4.4 of the design document)

Modelled from the spec: the missing `pyshort/formatter` package.  The
formatter re-serializes metadata, then each entity (dependencies first,
then state variables in the order selected by `sort_state_by`), then
functions with their tags in original order.  `align_types` pads the
state-variable names of an entity block so the membership symbols align;
`prefer_unicode = false` replaces the reserved Unicode symbols by their
ASCII spellings.  Tags are emitted in the canonical form of section 6
(an HTTP route is method and path concatenated with no separator). -/

/-- How state variables are ordered on output: `location` keeps original
source order, `name` sorts lexically by variable name, `none` keeps input
order unchanged. -/
inductive SortBy where
  | location
  | name
  | none
deriving DecidableEq, Repr

/-- Formatting configuration (section 4.4). -/
structure FormatConfig where
  indent : Nat := 2
  alignTypes : Bool := true
  preferUnicode : Bool := true
  sortStateBy : SortBy := .location
  maxLineLength : Nat := 100
deriving DecidableEq, Repr

/-- Lexicographic comparison of character lists by code point. -/
def charsLe : List Char → List Char → Bool
  | [], _ => true
  | _ :: _, [] => false
  | a :: xs, b :: ys =>
    if a.toNat < b.toNat then true
    else if b.toNat < a.toNat then false
    else charsLe xs ys

/-- Lexical order on state-variable names. -/
def svLe (a b : StateVar) : Bool := charsLe (chars a.name) (chars b.name)

/-- Insert into a name-sorted list of state variables. -/
def insertSV (a : StateVar) : List StateVar → List StateVar
  | [] => [a]
  | b :: l => if svLe a b then a :: b :: l else b :: insertSV a l

/-- Stable insertion sort by state-variable name. -/
def sortSV : List StateVar → List StateVar
  | [] => []
  | a :: l => insertSV a (sortSV l)

/-- Order the state variables as the configuration requests. -/
def sortState (c : FormatConfig) (svs : List StateVar) : List StateVar :=
  match c.sortStateBy with
  | .name => sortSV svs
  | _ => svs

/-- The membership symbol in the configured symbol set. -/
def sepC (c : FormatConfig) : List Char :=
  if c.preferUnicode then ['∈'] else ['i', 'n']

/-- The arrow symbol in the configured symbol set. -/
def arrowC (c : FormatConfig) : List Char :=
  if c.preferUnicode then ['→'] else ['-', '>']

/-- Serialize a type specification. -/
def tsPrint (t : TypeSpec) : List Char :=
  chars t.baseType ++
    (match t.shape with
     | none => []
     | some ds => '[' :: (joinChar ',' (ds.map chars) ++ [']'])) ++
    (match t.placement with
     | none => []
     | some p => '@' :: chars p)

/-- The canonical bracket content of a tag (section 6): method and path
for an HTTP route, otherwise base and colon-joined qualifiers. -/
def tagContent (t : Tag) : List Char :=
  match t.tagType with
  | .httpRoute => chars (t.httpMethod.getD "") ++ chars (t.httpPath.getD "")
  | _ => chars t.base ++ (t.qualifiers.map (fun q => ':' :: chars q)).flatten

/-- The canonical bracketed form of a tag. -/
def tagPrintC (t : Tag) : List Char := '[' :: (tagContent t ++ [']'])

/-- Widest state-variable name, for alignment. -/
def maxNameLen (svs : List StateVar) : Nat :=
  svs.foldr (fun sv acc => max (chars sv.name).length acc) 0

/-- One state-variable line, padded to the alignment width. -/
def svLine (c : FormatConfig) (w : Nat) (sv : StateVar) : List Char :=
  List.replicate c.indent ' ' ++ chars sv.name ++
    List.replicate (w - (chars sv.name).length) ' ' ++
    ' ' :: (sepC c ++ ' ' :: tsPrint sv.typeSpec)

/-- One dependency line. -/
def depLine (c : FormatConfig) (n : String) : List Char :=
  List.replicate c.indent ' ' ++ depMarker ++ chars n ++ [']']

/-- The lines of one entity block: header, dependencies, state variables
(ordered and aligned per the configuration). -/
def entityLines (c : FormatConfig) (e : Entity) : List (List Char) :=
  (entMarker ++ chars e.name ++ [']']) ::
    (e.dependencies.map (depLine c) ++
      (sortState c e.state).map
        (svLine c (if c.alignTypes then maxNameLen (sortState c e.state) else 0)))

/-- One serialized parameter. -/
def paramPrint (p : Param) : List Char :=
  chars p.name ++ ':' :: ' ' :: tsPrint p.typeSpec

/-- Comma-joined parameters. -/
def joinParams : List Param → List Char
  | [] => []
  | [p] => paramPrint p
  | p :: ps => paramPrint p ++ ',' :: ' ' :: joinParams ps

/-- One function line with its tags in original order. -/
def funcLineC (c : FormatConfig) (f : Func) : List Char :=
  funMarker ++ chars f.name ++ '(' :: (joinParams f.params ++ [')'] ++
    ' ' :: (arrowC c ++ ' ' :: (tsPrint f.returnType ++
      (f.tags.map (fun t => ' ' :: tagPrintC t)).flatten)))

/-- The metadata comment line. -/
def metaLineC (md : Metadata) : List Char :=
  '#' :: ' ' :: (metaMarker ++ chars md.moduleName ++ [']'] ++
    (match md.role with
     | none => []
     | some r => ' ' :: (roleMarker ++ chars r ++ [']'])))

/-- All lines of the serialized document: metadata, a blank line before
each entity block, a blank line before the function block. -/
def docLines (D : Document) (c : FormatConfig) : List (List Char) :=
  metaLineC D.metadata ::
    ((D.entities.map (fun e => [] :: entityLines c e)).flatten ++
      (if D.functions.isEmpty then []
       else [] :: D.functions.map (funcLineC c)))

/-- Modelled from the spec: the `format` entry point on a parsed document. -/
def formatDoc (D : Document) (c : FormatConfig) : String :=
  str (joinChar '\n' (docLines D c))

/-- Modelled from the spec: `format` on raw text parses first and
propagates the failure. -/
def formatText (s : String) (c : FormatConfig) : Except ParseErr String :=
  (parse s).map (fun D => formatDoc D c)

/-- The structural equality of the round-trip contract: entities,
functions and metadata agree (diagnostics and cosmetic form aside). -/
def structEq (a b : Document) : Bool :=
  a.metadata = b.metadata && a.entities = b.entities && a.functions = b.functions

/-- The document recovered by re-parsing formatted output: state variables
appear in the configured order and no diagnostics remain. -/
def roundDoc (c : FormatConfig) (D : Document) : Document :=
  ⟨D.metadata, D.entities.map (fun e => { e with state := sortState c e.state }),
    D.functions, []⟩

/-! ## Well-formedness invariants established by the parser

These predicates capture exactly the shape of data the parser can
produce; they are what makes formatted output re-parse to the same
document. -/

/-- A raw tag fragment: no colon, no close bracket, no newline. -/
def fragOkL (cs : List Char) : Bool :=
  cs.all (fun c => c ≠ ':' && c ≠ ']' && c ≠ '\n')

/-- A raw tag fragment as a string. -/
def fragOk (s : String) : Bool := fragOkL (chars s)

/-- Type specifications the parser produces: identifier base, non-empty
identifier dimensions, identifier placement. -/
def wfTS (t : TypeSpec) : Bool :=
  identStr t.baseType &&
    (match t.shape with
     | none => true
     | some ds => !ds.isEmpty && ds.all identStr) &&
    (match t.placement with
     | none => true
     | some p => identStr p)

/-- Tags the parser produces: each variant re-classifies to itself from
its canonical bracket content. -/
def wfTag (t : Tag) : Bool :=
  match t.tagType with
  | .operation =>
    fragOk t.base && t.qualifiers.all fragOk &&
      !isComplexityPattern t.base && (routeSplit (chars t.base)).isNone &&
      !(decide (t.base ∈ decoratorVocab)) &&
      !(t.base = "" && t.qualifiers.isEmpty) &&
      t.httpMethod.isNone && t.httpPath.isNone
  | .decorator =>
    decide (t.base ∈ decoratorVocab) && t.qualifiers.all fragOk &&
      t.httpMethod.isNone && t.httpPath.isNone
  | .complexity =>
    fragOk t.base && isComplexityPattern t.base && t.qualifiers.isEmpty &&
      t.httpMethod.isNone && t.httpPath.isNone
  | .httpRoute =>
    match t.httpMethod, t.httpPath with
    | some m, some p =>
      decide (m ∈ httpMethods) && leadSlash p && fragOk p &&
        t.qualifiers.isEmpty && decide (t.base = m ++ p)
    | _, _ => false
  | .custom => false

/-- Parameters the parser produces. -/
def wfParam (p : Param) : Bool := identStr p.name && wfTS p.typeSpec

/-- Functions the parser produces. -/
def wfFunc (f : Func) : Bool :=
  identStr f.name && f.params.all wfParam && wfTS f.returnType &&
    f.tags.all wfTag

/-- State variables the parser produces. -/
def wfSV (sv : StateVar) : Bool := identStr sv.name && wfTS sv.typeSpec

/-- Entities the parser produces. -/
def wfEntity (e : Entity) : Bool :=
  identStr e.name && e.dependencies.all identStr && e.state.all wfSV

/-- Documents the parser produces. -/
def wfDoc (D : Document) : Bool :=
  identStr D.metadata.moduleName &&
    (match D.metadata.role with
     | none => true
     | some r => identStr r) &&
    D.entities.all wfEntity && D.functions.all wfFunc

/-! ## Proof-support definitions for the round-trip argument -/

/-- The serialized tag region at the end of a function line. -/
def tagsPrint (tags : List Tag) : List Char :=
  (tags.map (fun t => ' ' :: tagPrintC t)).flatten

/-- Prepend characters onto the first piece of a split (the first piece
always exists). -/
def consAll (xs : List Char) : List (List Char) → List (List Char)
  | [] => [xs]
  | p :: ps => (xs ++ p) :: ps

/-- The open entity accumulator the parser holds after reading a
formatted entity block. -/
def entAcc (c : FormatConfig) (e : Entity) : EntAcc :=
  ⟨e.name, e.dependencies, sortState c e.state⟩

/-- The entity as it reappears after a round trip. -/
def roundEnt (c : FormatConfig) (e : Entity) : Entity :=
  ⟨e.name, e.dependencies, sortState c e.state⟩

/-- Well-formedness of the open entity accumulator. -/
def wfAcc (a : EntAcc) : Bool :=
  identStr a.name && a.deps.all identStr && a.svs.all wfSV

/-- Well-formedness of the whole parser state. -/
def wfSt (st : PState) : Bool :=
  st.ents.all wfEntity &&
    (match st.cur with
     | none => true
     | some a => wfAcc a) &&
    st.funcs.all wfFunc

/-- Parser state after the entity chunks of a formatted document. -/
def afterEnts (c : FormatConfig) : List Entity → PState → PState
  | [], st => st
  | e :: es, st => afterEnts c es { closeCur st with cur := some (entAcc c e) }

/-! ## Python AST embedding

A shallow embedding of the fragment of the Python `ast` module used by
`src/pyshort/decompiler/py2short.py` and `src/pyshort/ecosystem/tools.py`.
Constant values carry just enough structure for the `isinstance` tests the
code performs; note that Python booleans are instances of `int`, which the
embedding mirrors where it matters. -/

/-- A Python constant value. -/
inductive PyConst where
  | intC (n : Int)
  | floatC
  | strC (s : String)
  | boolC (b : Bool)
  | noneC
  | otherC
deriving DecidableEq, Repr

/-- A Python expression node. -/
inductive PyExpr where
  | nameE (id : String)
  | constE (c : PyConst)
  | subscriptE (value : PyExpr) (slice : PyExpr)
  | attrE (value : PyExpr) (attr : String)
  | callE (func : PyExpr) (args : List PyExpr)
  | listE (elts : List PyExpr)
  | dictE
  | otherE

/-- A function argument with its optional annotation. -/
structure PyArg where
  arg : String
  annot : Option PyExpr := none

/-- A Python statement node (the shapes the embedded code inspects; other
statements collapse to `otherS`). -/
inductive PyStmt where
  | exprS (e : PyExpr)
  | assignS (targets : List PyExpr) (value : PyExpr)
  | annAssignS (target : PyExpr) (annot : PyExpr)
  | functionDefS (name : String) (args : List PyArg) (body : List PyStmt)
      (returns : Option PyExpr)
  | asyncFunctionDefS (name : String) (args : List PyArg) (body : List PyStmt)
      (returns : Option PyExpr)
  | classDefS (name : String) (bases : List PyExpr) (body : List PyStmt)
  | ifS (test : PyExpr) (body : List PyStmt) (orelse : List PyStmt)
  | otherS

/-- A Python module. -/
structure PyModule where
  body : List PyStmt

/-- Is `pat` a contiguous substring (the Python `in` operator on strings)? -/
def containsSub (hay pat : String) : Bool := (findSub (chars pat) (chars hay)).isSome

/-- ASCII lowercase of a string (`str.lower` for the ASCII names the code
inspects). -/
def lowerStr (s : String) : String := str ((chars s).map Char.toLower)

/-- Does the string start with an underscore? -/
def leadUnderscore (s : String) : Bool := listHasLead ['_'] (chars s)

mutual

/-- All statement nodes of a subtree, the node itself first (`ast.walk`
enumerates breadth-first; the embedded properties do not depend on the
visit order, so a preorder enumeration is used). -/
def stmtWalk : PyStmt → List PyStmt
  | .exprS e => [.exprS e]
  | .assignS t v => [.assignS t v]
  | .annAssignS t a => [.annAssignS t a]
  | .functionDefS n a b r => .functionDefS n a b r :: stmtWalkL b
  | .asyncFunctionDefS n a b r => .asyncFunctionDefS n a b r :: stmtWalkL b
  | .classDefS n bs b => .classDefS n bs b :: stmtWalkL b
  | .ifS t b o => .ifS t b o :: (stmtWalkL b ++ stmtWalkL o)
  | .otherS => [.otherS]

/-- Walk of a statement list, preserving order. -/
def stmtWalkL : List PyStmt → List PyStmt
  | [] => []
  | s :: ss => stmtWalk s ++ stmtWalkL ss

end

/-! ## Embedding of src/pyshort/decompiler/py2short.py -/

/-- `_map_python_type`: the fixed rename table; unrecognized names pass
through unchanged as opaque names. -/
def mapPythonType (t : String) : String :=
  if t = "int" then "i32"
  else if t = "float" then "f32"
  else if t = "str" then "str"
  else if t = "bool" then "bool"
  else if t = "list" then "list"
  else if t = "dict" then "dict"
  else if t = "tuple" then "tuple"
  else t

/-- `_get_attribute_name`: dotted name of an attribute chain; a terminal
that is neither a name nor an attribute contributes nothing. -/
def attrNameParts : PyExpr → List String → List String
  | .attrE v a, acc => attrNameParts v (a :: acc)
  | .nameE i, acc => i :: acc
  | _, acc => acc

/-- `_get_attribute_name` on an attribute node `value.attr`. -/
def getAttrName (v : PyExpr) (a : String) : String :=
  String.intercalate "." (attrNameParts v [a])

/-- `_get_name`: name of a simple or dotted expression, else the sentinel. -/
def getName : PyExpr → String
  | .nameE i => i
  | .attrE v a => getAttrName v a
  | _ => "Unknown"

/-- `_convert_type_annotation`: simple names map through the rename table;
`List`/`list` subscripts become `list`; tensor-like subscripts and
attributes become placed tensor types; everything else returns the
`Unknown` sentinel (the code never raises here). -/
def convertAnnot : PyExpr → String
  | .nameE id => mapPythonType id
  | .subscriptE v _ =>
    let base := getName v
    if base = "List" || base = "list" then "list"
    else if containsSub base "Tensor" || containsSub (lowerStr base) "tensor" then
      "f32[N]@GPU"
    else "Unknown"
  | .attrE v a =>
    let full := getAttrName v a
    if containsSub full "Tensor" then "f32[N]@GPU"
    else if containsSub full "ndarray" then "f32[N]@CPU"
    else "Unknown"
  | _ => "Unknown"

/-- `_infer_type`: classify an assignment value.  A boolean constant takes
the `i32` branch because Python booleans are instances of `int`, making
the later `bool` branch unreachable; unclassifiable values return the
`Unknown` sentinel. -/
def inferType : PyExpr → String
  | .constE (.intC _) => "i32"
  | .constE (.boolC _) => "i32"
  | .constE .floatC => "f32"
  | .constE (.strC _) => "str"
  | .listE _ => "list"
  | .dictE => "dict"
  | .callE f _ =>
    let n := getName f
    if containsSub n "zeros" || containsSub n "ones" || containsSub n "randn" then
      "f32[N]@GPU"
    else if containsSub n "array" then "f32[N]@CPU"
    else if containsSub n "Linear" then "Linear"
    else if containsSub n "Conv" then "Conv"
    else if containsSub n "LayerNorm" || containsSub n "BatchNorm" then "Norm"
    else if containsSub n "ModuleList" then "ModuleList"
    else if containsSub n "Embedding" then "Embedding"
    else if containsSub n "Dropout" then "Dropout"
    else if containsSub n "Attention" then "Attention"
    else "Unknown"
  | _ => "Unknown"

/-- Python `str.strip`: drop whitespace at both ends. -/
def stripStr (s : String) : String :=
  str ((((chars s).dropWhile Char.isWhitespace).reverse.dropWhile
    Char.isWhitespace).reverse)

/-- The text before the first newline (`split` on newline, first piece). -/
def pyFirstLine (s : String) : String :=
  str ((chars s).takeWhile (fun c => c ≠ '\n'))

/-- `pathlib.Path(...).stem`: last path component without its final
suffix (no suffix is dropped when the dot is leading or trailing). -/
def stemOf (name : List Char) : List Char :=
  match takeUntilChar '.' name.reverse with
  | some (extRev, beforeRev) =>
    if !extRev.isEmpty && !beforeRev.isEmpty then beforeRev.reverse else name
  | none => name

/-- `_extract_module_name`: first line of the module docstring (cut at the
first dot, else at fifty characters), falling back to the stem of the
source file name, else `UnnamedModule`. -/
def extractModuleName (tree : PyModule) (sourceFile : Option String) : String :=
  match tree.body with
  | PyStmt.exprS (PyExpr.constE (PyConst.strC doc)) :: _ =>
    let fl := pyFirstLine (stripStr doc)
    if containsSub fl "." then str ((chars fl).takeWhile (fun c => c ≠ '.'))
    else str ((chars fl).take 50)
  | _ =>
    match sourceFile with
    | some sf =>
      str (stemOf (((splitChar '/' (chars sf)).filter
        (fun p => !p.isEmpty)).getLastD []))
    | none => "UnnamedModule"

/-- `_generate_function_signature`. -/
def genFuncSig (ind : String) (name : String) (args : List PyArg)
    (returns : Option PyExpr) : String :=
  let ps := (args.filter (fun a => a.arg ≠ "self")).map (fun a =>
    match a.annot with
    | some ann => a.arg ++ ": " ++ convertAnnot ann
    | none => a.arg)
  ind ++ "F:" ++ name ++ "(" ++ String.intercalate ", " ps ++ ") → " ++
    (match returns with
     | some r => convertAnnot r
     | none => "Unknown")

/-- `_extract_state_variables`: class-level annotated assignments first,
then `self.attr` assignments found anywhere inside `__init__`; a new
attribute is skipped when its name is a substring of an already collected
line. -/
def extractStateVars (cbody : List PyStmt) : List String :=
  let annVars := cbody.filterMap (fun st =>
    match st with
    | .annAssignS tgt ann => some (getName tgt ++ " ∈ " ++ convertAnnot ann)
    | _ => none)
  match cbody.find? (fun st =>
    match st with
    | .functionDefS n _ _ _ => n = "__init__"
    | _ => false) with
  | none => annVars
  | some ini =>
    (stmtWalk ini).foldl (fun acc node =>
      match node with
      | .assignS tgts value =>
        tgts.foldl (fun acc2 tgt =>
          match tgt with
          | .attrE (.nameE sv) attr =>
            if sv = "self" then
              if acc2.any (fun line => containsSub line attr) then acc2
              else acc2 ++ [attr ++ " ∈ " ++ inferType value]
            else acc2
          | _ => acc2) acc
      | .annAssignS (.attrE (.nameE sv) attr) ann =>
        if sv = "self" then
          if acc.any (fun line => containsSub line attr) then acc
          else acc ++ [attr ++ " ∈ " ++ convertAnnot ann]
        else acc
      | _ => acc) annVars

/-- `_generate_entity`: header, state variables (or a placeholder
comment), then the public method signatures as comments. -/
def genEntity (name : String) (cbody : List PyStmt) : List String :=
  let svs := extractStateVars cbody
  let methods := cbody.filterMap (fun st =>
    match st with
    | .functionDefS n a _ r => some (n, a, r)
    | _ => none)
  ("[C:" ++ name ++ "]") ::
    (if svs.isEmpty then ["  # No typed attributes found"]
     else svs.map (fun v => "  " ++ v)) ++
    (if methods.isEmpty then []
     else "" :: "  # Methods:" ::
       (methods.filterMap (fun m =>
         if leadUnderscore m.1 && m.1 ≠ "__init__" then none
         else some (genFuncSig "  # " m.1 m.2.1 m.2.2))))

/-- The lines assembled by `PyShorthandGenerator.generate`: metadata
header, blank line, entities each followed by a blank line, then the
module-level function block. -/
def genLines (tree : PyModule) (sourceFile : Option String) : List String :=
  let moduleName := extractModuleName tree sourceFile
  let classes := tree.body.filterMap (fun st =>
    match st with
    | .classDefS n _ b => some (n, b)
    | _ => none)
  let funcs := tree.body.filterMap (fun st =>
    match st with
    | .functionDefS n a _ r => some (n, a, r)
    | _ => none)
  ("# [M:" ++ moduleName ++ "] [Role:Core]") :: "" ::
    ((classes.map (fun cb => genEntity cb.1 cb.2 ++ [""])).flatten ++
      (if funcs.isEmpty then []
       else "# Module-level functions" ::
         (funcs.map (fun m => genFuncSig "" m.1 m.2.1 m.2.2) ++ [""])))

/-- `PyShorthandGenerator.generate`: the assembled lines joined with
newlines. -/
def generate (tree : PyModule) (sourceFile : Option String) : String :=
  str (joinChar '\n' ((genLines tree sourceFile).map chars))

/-! ## Embedding of src/pyshort/ecosystem/tools.py -/

/-- A node yielded by walking a module: a statement or an expression. -/
inductive PyNode where
  | stmtN (s : PyStmt)
  | exprN (e : PyExpr)

mutual

/-- All expression nodes of an expression subtree, the node itself first. -/
def exprWalk : PyExpr → List PyExpr
  | .nameE i => [.nameE i]
  | .constE c => [.constE c]
  | .subscriptE v s => .subscriptE v s :: (exprWalk v ++ exprWalk s)
  | .attrE v a => .attrE v a :: exprWalk v
  | .callE f args => .callE f args :: (exprWalk f ++ exprWalkL args)
  | .listE es => .listE es :: exprWalkL es
  | .dictE => [.dictE]
  | .otherE => [.otherE]

/-- Walk of an expression list, preserving order. -/
def exprWalkL : List PyExpr → List PyExpr
  | [] => []
  | e :: es => exprWalk e ++ exprWalkL es

end

/-- The direct child expressions of a statement. -/
def stmtChildExprs : PyStmt → List PyExpr
  | .exprS e => [e]
  | .assignS ts v => ts ++ [v]
  | .annAssignS t a => [t, a]
  | .functionDefS _ args _ ret => args.filterMap (fun a => a.annot) ++ ret.toList
  | .asyncFunctionDefS _ args _ ret => args.filterMap (fun a => a.annot) ++ ret.toList
  | .classDefS _ bases _ => bases
  | .ifS t _ _ => [t]
  | .otherS => []

/-- All nodes of a module (statements and expressions), as `ast.walk`
yields them (visit order is irrelevant to the embedded properties). -/
def moduleWalk (m : PyModule) : List PyNode :=
  let stmts := (m.body.map stmtWalk).flatten
  stmts.map PyNode.stmtN ++
    ((stmts.map stmtChildExprs).flatten.map exprWalk).flatten.map PyNode.exprN

mutual

/-- A plain rendering of an expression, standing in for `ast.unparse`
(only substring membership of class names matters to the embedded
claims; constants are abbreviated). -/
def unparseE : PyExpr → String
  | .nameE i => i
  | .constE (.intC n) => toString n
  | .constE .floatC => "0.0"
  | .constE (.strC s) => s
  | .constE (.boolC b) => if b then "True" else "False"
  | .constE .noneC => "None"
  | .constE .otherC => "..."
  | .subscriptE v s => unparseE v ++ "[" ++ unparseE s ++ "]"
  | .attrE v a => unparseE v ++ "." ++ a
  | .callE f args =>
    unparseE f ++ "(" ++ String.intercalate ", " (unparseL args) ++ ")"
  | .listE es => "[" ++ String.intercalate ", " (unparseL es) ++ "]"
  | .dictE => "\x7b\x7d"
  | .otherE => "..."

/-- Renderings of an expression list, in order. -/
def unparseL : List PyExpr → List String
  | [] => []
  | e :: es => unparseE e :: unparseL es

end

/-- `_contains_symbol`: substring test on the unparsed node. -/
def containsSymbol (e : PyExpr) (symbol : String) : Bool :=
  containsSub (unparseE e) symbol

/-- `_is_class_instantiation`: substring test on the unparsed callee. -/
def isClassInstantiation (f : PyExpr) (className : String) : Bool :=
  containsSub (unparseE f) className

/-- `_find_parent_context`: the source returns `None` unconditionally
(parent tracking is left as a TODO in the code). -/
def findParentContext (tree : PyModule) (targetNode : PyNode) : Option String :=
  none

/-- The `(state variable)` usage entries contributed by one class-body
item: the targets of an assignment whose value mentions the symbol. -/
def classItemUsages (symbol cname : String) (item : PyStmt) : List String :=
  match item with
  | .assignS tgts value =>
    if containsSymbol value symbol then
      tgts.filterMap (fun tgt =>
        match tgt with
        | .attrE _ a => some (cname ++ "." ++ a ++ " (state variable)")
        | .nameE i => some (cname ++ "." ++ i ++ " (state variable)")
        | _ => none)
    else []
  | _ => []

/-- One step of the `search_usage` walk: a class definition contributes
its attribute-assignment entries; a call instantiating the symbol would
contribute an `(instantiation)` entry only when a parent context is
found. -/
def usageStep (tree : PyModule) (symbol : String) (usages : List String)
    (node : PyNode) : List String :=
  let u1 :=
    match node with
    | .stmtN (.classDefS cname _ cbody) =>
      usages ++ (cbody.map (classItemUsages symbol cname)).flatten
    | _ => usages
  match node with
  | .exprN (.callE f _) =>
    if isClassInstantiation f symbol then
      match findParentContext tree node with
      | some parent => u1 ++ [parent ++ " (instantiation)"]
      | none => u1
    else u1
  | _ => u1

/-- `search_usage` restricted to one parsed module. -/
def searchUsageTree (tree : PyModule) (symbol : String) : List String :=
  (moduleWalk tree).foldl (usageStep tree symbol) []

/-- Example module for the usage-search theorems: a class with a
`LayerNorm` state variable and a method instantiating `SomeClass`. -/
def exampleUsageModule : PyModule :=
  ⟨[.classDefS "MyClass" []
    [.assignS [.attrE (.nameE "self") "ln_1"] (.callE (.nameE "LayerNorm") []),
     .functionDefS "my_method" [⟨"self", none⟩]
       [.assignS [.nameE "x"] (.callE (.nameE "SomeClass") [])] none]]⟩

/-- `CodebaseExplorer.search_usage`: the per-file results in file order. -/
def searchUsage (trees : List PyModule) (symbol : String) : List String :=
  (trees.map (fun tree => searchUsageTree tree symbol)).flatten

/-- Does `s` end with `suffix`? -/
def strEndsWith (s suffix : String) : Bool :=
  listHasLead (chars suffix).reverse (chars s).reverse

/-- The recognized annotation shapes of `_convert_type_annotation` (the
branches of the source that return something other than the sentinel). -/
def annotRecognized (a : PyExpr) : Bool :=
  match a with
  | .nameE _ => true
  | .subscriptE v _ =>
    let base := getName v
    base = "List" || base = "list" ||
      containsSub base "Tensor" || containsSub (lowerStr base) "tensor"
  | .attrE v at1 =>
    let full := getAttrName v at1
    containsSub full "Tensor" || containsSub full "ndarray"
  | _ => false

/-- The assignment-value shapes `_infer_type` classifies (the branches of
the source that return something other than the sentinel). -/
def inferRecognized (v : PyExpr) : Bool :=
  match v with
  | .constE (.intC _) => true
  | .constE (.boolC _) => true
  | .constE .floatC => true
  | .constE (.strC _) => true
  | .listE _ => true
  | .dictE => true
  | .callE f _ =>
    let n := getName f
    containsSub n "zeros" || containsSub n "ones" || containsSub n "randn" ||
      containsSub n "array" || containsSub n "Linear" || containsSub n "Conv" ||
      containsSub n "LayerNorm" || containsSub n "BatchNorm" ||
      containsSub n "ModuleList" || containsSub n "Embedding" ||
      containsSub n "Dropout" || containsSub n "Attention"
  | _ => false

/-- The keys of the `_map_python_type` rename table. -/
def pyTypeKeys : List String :=
  ["int", "float", "str", "bool", "list", "dict", "tuple"]

/-! ## Basic facts about tag parsing -/

@[simp] theorem chars_str (cs : List Char) : chars (str cs) = cs := rfl

@[simp] theorem str_chars (s : String) : str (chars s) = s := rfl

theorem str_append_chars (a b : List Char) : str (a ++ b) = str a ++ str b := rfl

/-! ## Character-list utility lemmas -/

theorem identL_mem {cs : List Char} (h : identL cs = true) {c : Char}
    (hc : c ∈ cs) : isIdentCh c = true := by
  unfold identL at h
  exact List.all_eq_true.mp (Bool.and_elim_right h) c hc

theorem identL_not_mem {cs : List Char} (h : identL cs = true) {d : Char}
    (hd : isIdentCh d = false) : d ∉ cs := by
  intro hmem
  rw [identL_mem h hmem] at hd
  cases hd

theorem identL_ne_nil {cs : List Char} (h : identL cs = true) : cs ≠ [] := by
  unfold identL at h
  have := Bool.and_elim_left h
  simpa using this

theorem takeWhileNotC_all {stops xs} (h : ∀ c ∈ xs, c ∉ stops) :
    takeWhileNotC stops xs = (xs, []) := by
  induction xs with
  | nil => rfl
  | cons c rest ih =>
    have hc : c ∉ stops := h c (List.mem_cons_self c rest)
    simp [takeWhileNotC, hc, ih (fun d hd => h d (List.mem_cons_of_mem c hd))]

theorem takeWhileNotC_append_stop {stops xs} (h : ∀ c ∈ xs, c ∉ stops)
    {c : Char} (hc : c ∈ stops) (r : List Char) :
    takeWhileNotC stops (xs ++ c :: r) = (xs, c :: r) := by
  induction xs with
  | nil => simp [takeWhileNotC, hc]
  | cons a rest ih =>
    have ha : a ∉ stops := h a (List.mem_cons_self a rest)
    simp [takeWhileNotC, ha, ih (fun d hd => h d (List.mem_cons_of_mem a hd))]

theorem takeUntilChar_append {stop : Char} {xs : List Char} (h : stop ∉ xs)
    (r : List Char) : takeUntilChar stop (xs ++ stop :: r) = some (xs, r) := by
  induction xs with
  | nil => simp [takeUntilChar]
  | cons a rest ih =>
    have ha : ¬ a = stop := fun hh => h (hh ▸ List.mem_cons_self a rest)
    simp [takeUntilChar, ha, ih (fun hm => h (List.mem_cons_of_mem a hm))]

theorem listHasLead_append (p r : List Char) : listHasLead p (p ++ r) = true := by
  induction p with
  | nil => rfl
  | cons a rest ih => simp [listHasLead, ih]

theorem listDrop_append (p r : List Char) : listDrop p.length (p ++ r) = r := by
  induction p with
  | nil => rfl
  | cons a rest ih => simpa [listDrop] using ih

theorem listHasLead_decomp {p cs : List Char} (h : listHasLead p cs = true) :
    cs = p ++ listDrop p.length cs := by
  induction p generalizing cs with
  | nil => rfl
  | cons a rest ih =>
    cases cs with
    | nil => simp [listHasLead] at h
    | cons c rest2 =>
      simp only [listHasLead, Bool.and_eq_true, decide_eq_true_eq] at h
      obtain ⟨rfl, h2⟩ := h
      simpa [listDrop] using ih h2

theorem splitChar_ne_nil (sep : Char) (cs : List Char) : splitChar sep cs ≠ [] := by
  cases cs with
  | nil => simp [splitChar]
  | cons c rest =>
    simp only [splitChar]
    by_cases hc : c = sep
    · simp [hc]
    · simp only [hc, if_false]
      match h : splitChar sep rest with
      | [] => simp
      | p :: ps => simp

theorem splitChar_no_sep {sep : Char} {p : List Char} (h : sep ∉ p) :
    splitChar sep p = [p] := by
  induction p with
  | nil => rfl
  | cons c rest ih =>
    have hc : ¬ c = sep := fun hh => h (hh ▸ List.mem_cons_self c rest)
    have h2 := ih (fun hm => h (List.mem_cons_of_mem c hm))
    simp [splitChar, hc, h2]

theorem splitChar_append_sep {sep : Char} {p : List Char} (h : sep ∉ p)
    (rest : List Char) :
    splitChar sep (p ++ sep :: rest) = p :: splitChar sep rest := by
  induction p with
  | nil => simp [splitChar]
  | cons c p2 ih =>
    have hc : ¬ c = sep := fun hh => h (hh ▸ List.mem_cons_self c p2)
    have h2 := ih (fun hm => h (List.mem_cons_of_mem c hm))
    rw [List.cons_append]
    simp only [splitChar, hc, if_false]
    rw [h2]

theorem splitChar_join {sep : Char} {ps : List (List Char)} (hne : ps ≠ [])
    (h : ∀ p ∈ ps, sep ∉ p) : splitChar sep (joinChar sep ps) = ps := by
  induction ps with
  | nil => cases hne rfl
  | cons p rest ih =>
    cases rest with
    | nil =>
      simp only [joinChar, List.isEmpty_nil, if_true, List.append_nil]
      exact splitChar_no_sep (h p (List.mem_cons_self p []))
    | cons q rest2 =>
      have hjoin : joinChar sep (p :: q :: rest2) =
          p ++ sep :: joinChar sep (q :: rest2) := by
        simp [joinChar]
      rw [hjoin, splitChar_append_sep (h p (List.mem_cons_self p _))]
      rw [ih (by simp) (fun r hr => h r (List.mem_cons_of_mem p hr))]

theorem mem_joinChar {sep : Char} {ps : List (List Char)} {c : Char}
    (h : c ∈ joinChar sep ps) : c = sep ∨ ∃ p ∈ ps, c ∈ p := by
  induction ps with
  | nil => cases h
  | cons p rest ih =>
    cases rest with
    | nil =>
      simp only [joinChar, List.isEmpty_nil, if_true, List.append_nil] at h
      exact Or.inr ⟨p, List.mem_cons_self p [], h⟩
    | cons q rest2 =>
      have hjoin : joinChar sep (p :: q :: rest2) =
          p ++ sep :: joinChar sep (q :: rest2) := by
        simp [joinChar]
      rw [hjoin] at h
      rcases List.mem_append.mp h with h1 | h2
      · exact Or.inr ⟨p, List.mem_cons_self p _, h1⟩
      · rcases List.mem_cons.mp h2 with h3 | h4
        · exact Or.inl h3
        · rcases ih h4 with h5 | ⟨r, hr, hcr⟩
          · exact Or.inl h5
          · exact Or.inr ⟨r, List.mem_cons_of_mem p hr, hcr⟩

theorem trimL_space (xs : List Char) : trimL (' ' :: xs) = trimL xs := by
  simp [trimL]

theorem trimL_replicate (k : Nat) (xs : List Char) :
    trimL (List.replicate k ' ' ++ xs) = trimL xs := by
  induction k with
  | zero => rfl
  | succ n ih => simpa [List.replicate_succ, trimL] using ih

theorem trimL_noHead {xs : List Char} (h : xs.head? ≠ some ' ') :
    trimL xs = xs := by
  cases xs with
  | nil => rfl
  | cons c rest =>
    have hc : ¬ c = ' ' := fun hh => h (by simp [hh])
    simp [trimL, hc]

theorem trimR_noLast {xs : List Char} (h : xs.getLast? ≠ some ' ') :
    trimR xs = xs := by
  unfold trimR
  rw [trimL_noHead, List.reverse_reverse]
  rw [List.head?_reverse]
  exact h

theorem trimC_eq_self {xs : List Char} (h1 : xs.head? ≠ some ' ')
    (h2 : xs.getLast? ≠ some ' ') : trimC xs = xs := by
  unfold trimC
  rw [trimL_noHead h1, trimR_noLast h2]

theorem trimC_space_lead (xs : List Char) : trimC (' ' :: xs) = trimC xs := by
  unfold trimC
  rw [trimL_space]

theorem splitWords_space (xs : List Char) :
    splitWords (' ' :: xs) = splitWords xs := by
  simp [splitWords]

theorem splitWords_replicate (k : Nat) (xs : List Char) :
    splitWords (List.replicate k ' ' ++ xs) = splitWords xs := by
  induction k with
  | zero => rfl
  | succ n ih => simpa [List.replicate_succ, splitWords] using ih

theorem splitWords_cons (c : Char) (rest : List Char) :
    splitWords (c :: rest) =
      if c = ' ' then splitWords rest
      else
        match rest with
        | [] => [[c]]
        | c2 :: _ =>
          if c2 = ' ' then [c] :: splitWords rest
          else consFirst c (splitWords rest) := rfl

theorem splitWords_single {w : List Char} (h1 : w ≠ [])
    (h2 : ∀ c ∈ w, c ≠ ' ') : splitWords w = [w] := by
  induction w with
  | nil => cases h1 rfl
  | cons c rest ih =>
    have hc : ¬ c = ' ' := h2 c (List.mem_cons_self c rest)
    cases rest with
    | nil => simp [splitWords_cons, hc]
    | cons c2 rest2 =>
      have hc2 : ¬ c2 = ' ' := h2 c2 (by simp)
      have h3 := ih (by simp) (fun d hd => h2 d (List.mem_cons_of_mem c hd))
      rw [splitWords_cons, if_neg hc]
      simp only [hc2, if_false, h3, consFirst]

theorem splitWords_word {w : List Char} (h1 : w ≠ [])
    (h2 : ∀ c ∈ w, c ≠ ' ') (xs : List Char) :
    splitWords (w ++ ' ' :: xs) = w :: splitWords xs := by
  induction w with
  | nil => cases h1 rfl
  | cons c rest ih =>
    have hc : ¬ c = ' ' := h2 c (List.mem_cons_self c rest)
    cases rest with
    | nil =>
      rw [List.cons_append, List.nil_append, splitWords_cons, if_neg hc]
      simp [splitWords_space]
    | cons c2 rest2 =>
      have hc2 : ¬ c2 = ' ' := h2 c2 (by simp)
      have h3 := ih (by simp) (fun d hd => h2 d (List.mem_cons_of_mem c hd))
      rw [List.cons_append, splitWords_cons, if_neg hc]
      simp only [List.cons_append]
      simp only [hc2, if_false]
      rw [show (c2 :: rest2) ++ ' ' :: xs = c2 :: (rest2 ++ ' ' :: xs) from rfl] at h3
      rw [h3]
      rfl

theorem charsLe_total (a b : List Char) :
    charsLe a b = true ∨ charsLe b a = true := by
  induction a generalizing b with
  | nil => exact Or.inl rfl
  | cons x xs ih =>
    cases b with
    | nil => exact Or.inr rfl
    | cons y ys =>
      by_cases h1 : x.toNat < y.toNat
      · exact Or.inl (by simp [charsLe, h1])
      · by_cases h2 : y.toNat < x.toNat
        · exact Or.inr (by simp [charsLe, h2])
        · rcases ih ys with h3 | h3
          · exact Or.inl (by simp [charsLe, h1, h2, h3])
          · exact Or.inr (by simp [charsLe, h1, h2, h3])

theorem splitTagContent_eq_none (cs : List Char) (h : ']' ∉ cs) :
    splitTagContent cs = none := by
  induction cs with
  | nil => rfl
  | cons c rest ih =>
    have hc : ¬ c = ']' := fun hch => h (hch ▸ List.mem_cons_self c rest)
    have hrest : ']' ∉ rest := fun hm => h (List.mem_cons_of_mem c hm)
    simp [splitTagContent, hc, ih hrest]

theorem splitTagContent_isSome (cs : List Char) (h : ']' ∈ cs) :
    ∃ p, splitTagContent cs = some p := by
  induction cs with
  | nil => cases h
  | cons c rest ih =>
    by_cases hc : c = ']'
    · exact ⟨([], rest), by simp [splitTagContent, hc]⟩
    · have hrest : ']' ∈ rest := by
        cases List.mem_cons.mp h with
        | inl h0 => exact absurd h0.symm hc
        | inr h1 => exact h1
      obtain ⟨p, hp⟩ := ih hrest
      exact ⟨(c :: p.1, p.2), by simp [splitTagContent, hc, hp]⟩

theorem routeTry_props (m : String) (cs : List Char) (mv pv : String)
    (h : routeTry m cs = some (mv, pv)) : mv = m ∧ leadSlash pv = true := by
  unfold routeTry at h
  by_cases hl : listHasLead (chars m) cs = true
  · simp only [hl, if_true] at h
    rcases hd : listDrop (chars m).length cs with _ | ⟨c, rest⟩ <;> rw [hd] at h
    · simp at h
    · by_cases hc : c = '/'
      · rw [hc] at h
        simp at h
        refine ⟨h.1.symm, ?_⟩
        rw [← h.2]
        rfl
      · simp [hc] at h
  · simp [hl] at h

theorem routeSplit_props (cs : List Char) (mv pv : String)
    (h : routeSplit cs = some (mv, pv)) :
    mv ∈ httpMethods ∧ leadSlash pv = true := by
  unfold routeSplit at h
  rcases hg : routeTry "GET" cs with _ | r
  · rw [hg] at h
    rcases hp : routeTry "POST" cs with _ | r
    · rw [hp] at h
      rcases hu : routeTry "PUT" cs with _ | r
      · rw [hu] at h
        rcases hd : routeTry "DELETE" cs with _ | r
        · rw [hd] at h
          obtain ⟨h1, h2⟩ := routeTry_props _ _ _ _ h
          exact ⟨by simp [httpMethods, h1], h2⟩
        · rw [hd] at h
          obtain ⟨rfl⟩ := h
          obtain ⟨h1, h2⟩ := routeTry_props _ _ _ _ hd
          exact ⟨by simp [httpMethods, h1], h2⟩
      · rw [hu] at h
        obtain ⟨rfl⟩ := h
        obtain ⟨h1, h2⟩ := routeTry_props _ _ _ _ hu
        exact ⟨by simp [httpMethods, h1], h2⟩
    · rw [hp] at h
      obtain ⟨rfl⟩ := h
      obtain ⟨h1, h2⟩ := routeTry_props _ _ _ _ hp
      exact ⟨by simp [httpMethods, h1], h2⟩
  · rw [hg] at h
    obtain ⟨rfl⟩ := h
    obtain ⟨h1, h2⟩ := routeTry_props _ _ _ _ hg
    exact ⟨by simp [httpMethods, h1], h2⟩

/-- Classification never fails on a non-empty fragment list: every hard
failure of `parse_tag` comes from the bracket-collection step. -/
theorem classifyFrags_ok (f : String) (rest : List String) :
    ∃ t, classifyFrags (f :: rest) = .ok t := by
  unfold classifyFrags
  by_cases hc : isComplexityPattern f = true
  · refine ⟨⟨f, [], .complexity, none, none⟩, ?_⟩
    simp [hc, Tag.make]
  · simp only [hc, if_false]
    rcases hr : routeSplit (chars f) with _ | ⟨m, p⟩
    · simp only [hr]
      by_cases hd : f ∈ decoratorVocab
      · refine ⟨⟨f, rest, .decorator, none, none⟩, ?_⟩
        simp [hd, Tag.make]
      · refine ⟨⟨f, rest, .operation, none, none⟩, ?_⟩
        simp [hd, Tag.make]
    · simp only [hr]
      obtain ⟨h1, h2⟩ := routeSplit_props _ _ _ hr
      refine ⟨⟨f, [], .httpRoute, some m, some p⟩, ?_⟩
      simp [Tag.make, h1, h2]

/-! ## Claims about the tag model -/

/-- C2: constructing a Tag with `tag_type = HttpRoute` fails with
"must have both http_method and http_path" when either part is absent,
with "Invalid HTTP method" when the method is present but not one of the
five case-sensitive keywords, and with "must start with a slash" (quoted
slash in the actual message) when the path does not begin with a slash. -/
theorem c2_http_route_validation (base : String) (quals : List String)
    (m p : Option String) :
    ((m = none ∨ p = none) →
      Tag.make base quals .httpRoute m p = .error msgBoth) ∧
    (∀ mv pv, m = some mv → p = some pv → mv ∉ httpMethods →
      Tag.make base quals .httpRoute m p = .error msgMethod) ∧
    (∀ mv pv, m = some mv → p = some pv → mv ∈ httpMethods →
      leadSlash pv = false →
      Tag.make base quals .httpRoute m p = .error msgSlash) := by
  refine ⟨?_, ?_, ?_⟩
  · rintro (rfl | rfl)
    · simp [Tag.make]
    · cases m <;> simp [Tag.make]
  · rintro mv pv rfl rfl hm
    simp [Tag.make, hm]
  · rintro mv pv rfl rfl hm hp
    simp [Tag.make, hm, hp]

/-- Witness for C2 at the concrete inputs used by the repository's unit
tests. -/
theorem c2_http_route_validation_witness :
    Tag.make "GET" [] .httpRoute (some "GET") none = .error msgBoth ∧
    Tag.make "INVALID" [] .httpRoute (some "INVALID") (some "/x") =
      .error msgMethod ∧
    Tag.make "GET users" [] .httpRoute (some "GET") (some "users") =
      .error msgSlash :=
  ⟨(c2_http_route_validation "GET" [] (some "GET") none).1 (Or.inr rfl),
   (c2_http_route_validation "INVALID" [] (some "INVALID") (some "/x")).2.1
     "INVALID" "/x" rfl rfl (by decide),
   (c2_http_route_validation "GET users" [] (some "GET") (some "users")).2.2
     "GET" "users" rfl rfl (by decide) (by decide)⟩

/-- C3: parsing the tag text `[Lin:MatMul:O(N*D)]` yields an operation tag
with base `Lin` and qualifiers `MatMul`, `O(N*D)` in that order, whose
derived complexity property discovers `O(N*D)`. -/
theorem c3_parse_operation_with_complexity_qualifier :
    parseTagText "[Lin:MatMul:O(N*D)]" =
      .ok (⟨"Lin", ["MatMul", "O(N*D)"], .operation, none, none⟩, "") ∧
    Tag.complexity ⟨"Lin", ["MatMul", "O(N*D)"], .operation, none, none⟩ =
      some "O(N*D)" :=
  ⟨rfl, rfl⟩

/-- C4: `parse_tag` hard-fails in exactly the two boundary cases of the
bracket-collection step: reaching the end of input before the matching
close bracket fails with "Unterminated tag" (in particular on
`[Lin:MatMul`), and an immediately empty bracket pair fails with
"Empty tag" (in particular on `[]`); whenever a close bracket exists and
the content is non-empty, classification succeeds. -/
theorem c4_parse_tag_boundary_errors :
    parseTagText "[]" = .error "Empty tag" ∧
    parseTagText "[Lin:MatMul" = .error "Unterminated tag" ∧
    (∀ cs : List Char, ']' ∉ cs →
      parseTag ('[' :: cs) = .error "Unterminated tag") ∧
    (∀ cs : List Char, parseTag ('[' :: ']' :: cs) = .error "Empty tag") ∧
    (∀ cs : List Char, ']' ∈ cs → cs.head? ≠ some ']' →
      ∃ t rest, parseTag ('[' :: cs) = .ok (t, rest)) := by
  refine ⟨rfl, rfl, ?_, ?_, ?_⟩
  · intro cs h
    simp [parseTag, splitTagContent_eq_none cs h]
  · intro cs
    rfl
  · intro cs hmem hhead
    cases cs with
    | nil => cases hmem
    | cons c rest =>
      have hc : ¬ c = ']' := by
        intro h; exact hhead (by simp [h])
      obtain ⟨⟨content, rem⟩, hp⟩ := splitTagContent_isSome _ hmem
      have hcontent : content.isEmpty = false := by
        simp only [splitTagContent, hc, if_false] at hp
        rcases h2 : splitTagContent rest with _ | q
        · rw [h2] at hp; simp at hp
        · rw [h2] at hp
          simp at hp
          rw [← hp.1]
          rfl
      rcases h3 : (splitChar ':' content).map str with _ | ⟨f, fs⟩
      · have hne := splitChar_ne_nil ':' content
        simp at h3
        exact absurd h3 hne
      · obtain ⟨t, ht⟩ := classifyFrags_ok f fs
        exact ⟨t, rem, by simp [parseTag, hp, hcontent, h3, ht, Except.map]⟩

/-- Witness for C4: the universally quantified clauses instantiated at the
concrete boundary inputs. -/
theorem c4_parse_tag_boundary_errors_witness :
    parseTag ('[' :: chars "Lin") = .error "Unterminated tag" ∧
    parseTag ('[' :: ']' :: chars "x") = .error "Empty tag" ∧
    ∃ t rest, parseTag ('[' :: chars "Lin]") = .ok (t, rest) :=
  ⟨c4_parse_tag_boundary_errors.2.2.1 (chars "Lin") (by decide),
   c4_parse_tag_boundary_errors.2.2.2.1 (chars "x"),
   c4_parse_tag_boundary_errors.2.2.2.2 (chars "Lin]") (by decide) (by decide)⟩

/-- C5: a decorator tag whose base is outside the recognized vocabulary is
constructed without error and silently downgraded to a custom tag. -/
theorem c5_unknown_decorator_downgrades (base : String) (quals : List String)
    (h : base ∉ decoratorVocab) :
    ∃ t, Tag.make base quals .decorator none none = .ok t ∧
      t.tagType = TagType.custom ∧ t.base = base ∧ t.qualifiers = quals := by
  refine ⟨⟨base, quals, .custom, none, none⟩, ?_, rfl, rfl, rfl⟩
  simp [Tag.make, h]

/-- Witness for C5 at the unit test's input `UnknownDecorator`. -/
theorem c5_unknown_decorator_downgrades_witness :
    ∃ t, Tag.make "UnknownDecorator" [] .decorator none none = .ok t ∧
      t.tagType = TagType.custom ∧ t.base = "UnknownDecorator" ∧
      t.qualifiers = [] :=
  c5_unknown_decorator_downgrades "UnknownDecorator" [] (by decide)

/-- C6 counterexample: the textual form of the `GET /users` route tag, as
pinned by the repository's unit tests, is `[GET /users]` with a space
between method and path, not the separator-free `[GET/users]` the claim
states. -/
theorem c6_http_route_str_counterexample :
    tagStr ⟨"GET /users", [], .httpRoute, some "GET", some "/users"⟩ =
      "[GET /users]" ∧
    ("[GET /users]" : String) ≠ "[GET/users]" :=
  ⟨rfl, by decide⟩

/-- C7: parsing the VHE module text succeeds with exactly one entity named
VHE holding the two state variables pos and vel, no dependencies, no
module-level functions and no diagnostics. -/
theorem c7_parse_vhe_module :
    parse "# [M:Test]\n\n[C:VHE]\n  pos ∈ f32[N]@GPU\n  vel ∈ f32[N]@GPU\n" =
      .ok ⟨⟨"Test", none⟩,
        [⟨"VHE", [],
          [⟨"pos", ⟨"f32", some ["N"], some "GPU"⟩⟩,
           ⟨"vel", ⟨"f32", some ["N"], some "GPU"⟩⟩]⟩],
        [], []⟩ :=
  rfl

/-- C1 counterexample: with `sort_state_by = name` the round-trip contract
fails as stated: re-parsing the formatted output of a document whose state
variables are not already in lexical order yields a structurally different
document (the state variables come back reordered). -/
theorem c1_roundtrip_counterexample :
    (parse "# [M:Test]\n[C:A]\n  b ∈ i32\n  a ∈ i32").bind
      (fun D => (parse (formatDoc D { sortStateBy := SortBy.name })).map
        (fun D2 => structEq D2 D)) = .ok false :=
  rfl

/-- C6 (amended): the textual form of an HTTP route tag is
`[` + http_method + a single space + http_path + `]`; the path already
carries its leading slash. -/
theorem c6_http_route_str_amended (base : String) (quals : List String)
    (m p : String) :
    tagStr ⟨base, quals, .httpRoute, some m, some p⟩ =
      "[" ++ m ++ " " ++ p ++ "]" :=
  rfl

/-! ## Facts about the decompiler and the explorer -/

theorem takeWhile_append_stop (p : Char → Bool) (xs : List Char) (y : Char)
    (ys : List Char) (h1 : ∀ c ∈ xs, p c = true) (h2 : p y = false) :
    (xs ++ y :: ys).takeWhile p = xs := by
  induction xs with
  | nil => simp [List.takeWhile_cons, h2]
  | cons a rest ih =>
    have ha : p a = true := h1 a (List.mem_cons_self a rest)
    have h3 := ih (fun c hc => h1 c (List.mem_cons_of_mem a hc))
    simp [List.takeWhile_cons, ha, h3]

theorem chars_append (a b : String) : chars (a ++ b) = chars a ++ chars b :=
  String.data_append a b

/-- The first line of the text `generate` assembles, at the level of the
joined line list. -/
theorem generate_firstLine (tree : PyModule) (sf : Option String)
    (h : ∀ c ∈ chars (extractModuleName tree sf), c ≠ '\n') :
    pyFirstLine (generate tree sf) =
      "# [M:" ++ extractModuleName tree sf ++ "] [Role:Core]" := by
  unfold generate genLines
  simp only [List.map_cons, joinChar, List.isEmpty_cons, Bool.false_eq_true,
    if_false]
  unfold pyFirstLine
  simp only [chars_str]
  rw [takeWhile_append_stop]
  · exact str_chars _
  · intro c hc
    rw [chars_append, chars_append] at hc
    rcases List.mem_append.mp hc with h5 | h6
    · rcases List.mem_append.mp h5 with h7 | h8
      · exact decide_eq_true ((by decide : ∀ x ∈ chars "# [M:", x ≠ '\n') c h7)
      · exact decide_eq_true (h c h8)
    · exact decide_eq_true
        ((by decide : ∀ x ∈ chars "] [Role:Core]", x ≠ '\n') c h6)
  · rfl

/-- C8 counterexample: `generate` on an empty module with the legal POSIX
source file name `a\nb.py` produces text whose first line is `# [M:a`,
which is not of the metadata-header form for any module name. -/
theorem c8_first_line_counterexample :
    pyFirstLine (generate ⟨[]⟩ (some "a\nb.py")) = "# [M:a" ∧
    ¬ ∃ mn : String, ("# [M:a" : String) = "# [M:" ++ mn ++ "] [Role:Core]" := by
  refine ⟨rfl, ?_⟩
  rintro ⟨mn, h⟩
  have hlen := congrArg String.length h
  simp only [String.length_append] at hlen
  have h1 : ("# [M:a" : String).length = 6 := rfl
  have h2 : ("# [M:" : String).length = 5 := rfl
  have h3 : ("] [Role:Core]" : String).length = 13 := rfl
  rw [h1, h2, h3] at hlen
  omega

/-- C8 (amended): whenever the extracted module name contains no newline
(which can fail only through a source file name whose stem contains one),
the first line of the text returned by `generate` is exactly
`# [M:<module_name>] [Role:Core]`; the line list assembled by `generate`
always begins with that header. -/
theorem c8_first_line_amended (tree : PyModule) (sf : Option String)
    (h : ∀ c ∈ chars (extractModuleName tree sf), c ≠ '\n') :
    pyFirstLine (generate tree sf) =
      "# [M:" ++ extractModuleName tree sf ++ "] [Role:Core]" ∧
    (genLines tree sf).headI =
      "# [M:" ++ extractModuleName tree sf ++ "] [Role:Core]" :=
  ⟨generate_firstLine tree sf h, rfl⟩

/-- Witness for C8 (amended) on the empty module with no source file. -/
theorem c8_first_line_amended_witness :
    pyFirstLine (generate ⟨[]⟩ none) = "# [M:UnnamedModule] [Role:Core]" ∧
    (genLines ⟨[]⟩ none).headI = "# [M:UnnamedModule] [Role:Core]" :=
  c8_first_line_amended ⟨[]⟩ none (by decide)

/-- C9: every type annotation node outside the recognized shapes converts
to the sentinel string `Unknown` (the function is total, so it never
raises, and the fallback is never a question mark); every unclassifiable
assignment value likewise infers as `Unknown`; and a simple type name
outside the rename table passes through `_map_python_type` unchanged as an
opaque name. -/
theorem c9_unknown_sentinel_fallbacks :
    (∀ a : PyExpr, annotRecognized a = false → convertAnnot a = "Unknown") ∧
    (∀ v : PyExpr, inferRecognized v = false → inferType v = "Unknown") ∧
    (∀ t : String, t ∉ pyTypeKeys → mapPythonType t = t) := by
  refine ⟨?_, ?_, ?_⟩
  · intro a h
    cases a <;> simp_all [annotRecognized, convertAnnot]
  · intro v h
    cases v with
    | constE c => cases c <;> simp_all [inferRecognized, inferType]
    | callE f args => simp_all [inferRecognized, inferType]
    | _ => first | rfl | simp_all [inferRecognized, inferType]
  · intro t h
    simp only [pyTypeKeys, List.mem_cons, not_or] at h
    obtain ⟨h1, h2, h3, h4, h5, h6, h7, _⟩ := h
    simp [mapPythonType, h1, h2, h3, h4, h5, h6, h7]

/-- Witness for C9 at concrete unrecognized inputs: a bare ellipsis-like
annotation, a call to an unknown constructor, and a custom type name. -/
theorem c9_unknown_sentinel_fallbacks_witness :
    convertAnnot PyExpr.otherE = "Unknown" ∧
    inferType (PyExpr.callE (PyExpr.nameE "foo") []) = "Unknown" ∧
    mapPythonType "MyCustomType" = "MyCustomType" :=
  ⟨c9_unknown_sentinel_fallbacks.1 PyExpr.otherE rfl,
   c9_unknown_sentinel_fallbacks.2.1 (PyExpr.callE (PyExpr.nameE "foo") [])
     (by decide),
   c9_unknown_sentinel_fallbacks.2.2 "MyCustomType" (by decide)⟩

theorem inst_suffix_false (r : List Char) :
    listHasLead (chars "(instantiation)").reverse
      ((chars " (state variable)").reverse ++ r) = false := rfl

theorem endsSV_not_inst (pre : String) :
    strEndsWith (pre ++ " (state variable)") "(instantiation)" = false := by
  unfold strEndsWith
  rw [chars_append, List.reverse_append]
  exact inst_suffix_false _

theorem classItemUsages_entries (symbol cname : String) (item : PyStmt)
    (u : String) (hu : u ∈ classItemUsages symbol cname item) :
    ∃ pre, u = pre ++ " (state variable)" := by
  cases item with
  | assignS tgts value =>
    unfold classItemUsages at hu
    by_cases hcs : containsSymbol value symbol = true
    · simp only [hcs, if_true] at hu
      obtain ⟨tgt, htgt, heq⟩ := List.mem_filterMap.mp hu
      cases tgt with
      | nameE i =>
        exact ⟨cname ++ "." ++ i, by simpa using heq.symm⟩
      | attrE v a =>
        exact ⟨cname ++ "." ++ a, by simpa using heq.symm⟩
      | _ => simp_all
    · simp [hcs] at hu
  | _ => simp [classItemUsages] at hu

theorem usageStep_pres (tree : PyModule) (symbol : String) (acc : List String)
    (nd : PyNode) (hacc : ∀ u ∈ acc, ∃ pre, u = pre ++ " (state variable)") :
    ∀ u ∈ usageStep tree symbol acc nd, ∃ pre, u = pre ++ " (state variable)" := by
  intro u hu
  cases nd with
  | exprN e =>
    cases e with
    | callE f args =>
      simp only [usageStep, findParentContext] at hu
      by_cases hin : isClassInstantiation f symbol = true
      · rw [if_pos hin] at hu
        exact hacc u hu
      · rw [if_neg hin] at hu
        exact hacc u hu
    | _ =>
      simp only [usageStep] at hu
      exact hacc u hu
  | stmtN s =>
    cases s with
    | classDefS cname bases cbody =>
      simp only [usageStep] at hu
      rcases List.mem_append.mp hu with h1 | h2
      · exact hacc u h1
      · obtain ⟨l, hl, hul⟩ := List.mem_flatten.mp h2
        obtain ⟨item, hitem, rfl⟩ := List.mem_map.mp hl
        exact classItemUsages_entries symbol cname item u hul
    | _ =>
      simp only [usageStep] at hu
      exact hacc u hu

theorem foldl_usage_pres (tree : PyModule) (symbol : String)
    (nodes : List PyNode) :
    ∀ (acc : List String), (∀ u ∈ acc, ∃ pre, u = pre ++ " (state variable)") →
      ∀ u ∈ nodes.foldl (usageStep tree symbol) acc,
        ∃ pre, u = pre ++ " (state variable)" := by
  induction nodes with
  | nil => intro acc hacc; simpa using hacc
  | cons nd nds ih =>
    intro acc hacc
    exact ih _ (usageStep_pres tree symbol acc nd hacc)

/-- C10: `_find_parent_context` returns `None` for every tree and target
node; consequently every entry `search_usage` returns is a
`(state variable)` entry and none is suffixed `(instantiation)`, even when
the symbol is instantiated inside a class method. -/
theorem c10_no_instantiation_entries :
    (∀ (tree : PyModule) (node : PyNode), findParentContext tree node = none) ∧
    (∀ (trees : List PyModule) (symbol u : String),
      u ∈ searchUsage trees symbol →
      (∃ pre, u = pre ++ " (state variable)") ∧
      strEndsWith u "(instantiation)" = false) := by
  refine ⟨fun _ _ => rfl, ?_⟩
  intro trees symbol u hu
  unfold searchUsage at hu
  obtain ⟨l, hl, hul⟩ := List.mem_flatten.mp hu
  obtain ⟨tree, htree, rfl⟩ := List.mem_map.mp hl
  have h2 := foldl_usage_pres tree symbol (moduleWalk tree) [] (by simp) u hul
  obtain ⟨pre, rfl⟩ := h2
  exact ⟨⟨pre, rfl⟩, endsSV_not_inst pre⟩

/-- Witness for C10 on the example module, whose class method does
instantiate `SomeClass` yet contributes no `(instantiation)` entry. -/
theorem c10_no_instantiation_entries_witness :
    ((∃ pre, ("MyClass.ln_1 (state variable)" : String) =
        pre ++ " (state variable)") ∧
      strEndsWith "MyClass.ln_1 (state variable)" "(instantiation)" = false) ∧
    searchUsage [exampleUsageModule] "SomeClass" = [] :=
  ⟨c10_no_instantiation_entries.2 [exampleUsageModule] "LayerNorm"
      "MyClass.ln_1 (state variable)" (by decide),
   by decide⟩

/-! ## Round trip of type specifications -/

theorem ident_notin_stops {cs : List Char} (h : identL cs = true)
    {stops : List Char} (hs : ∀ d ∈ stops, isIdentCh d = false) :
    ∀ c ∈ cs, c ∉ stops := by
  intro c hc hmem
  have h1 := identL_mem h hc
  have h2 := hs c hmem
  rw [h1] at h2
  cases h2

theorem ident_ne_char {cs : List Char} (h : identL cs = true) {d : Char}
    (hd : isIdentCh d = false) : ∀ c ∈ cs, c ≠ d := by
  intro c hc he
  have h1 := identL_mem h hc
  rw [he, hd] at h1
  cases h1

theorem map_str_chars (ds : List String) : (ds.map chars).map str = ds := by
  induction ds with
  | nil => rfl
  | cons d rest ih => simp [ih]

theorem all_identL_map {ds : List String} (h : ds.all identStr = true) :
    (ds.map chars).all identL = true := by
  induction ds with
  | nil => rfl
  | cons d rest ih =>
    simp only [List.all_cons, Bool.and_eq_true, List.map_cons] at h ⊢
    exact ⟨h.1, ih h.2⟩

theorem mem_join_dims {ds : List String} (h : ds.all identStr = true)
    {c : Char} (hc : c ∈ joinChar ',' (ds.map chars))
    {d : Char} (hd : isIdentCh d = false) (hsep : d ≠ ',') : c ≠ d := by
  rcases mem_joinChar hc with rfl | ⟨p, hp, hcp⟩
  · exact fun he => hsep he.symm
  · obtain ⟨s, hs, rfl⟩ := List.mem_map.mp hp
    have hid : identL (chars s) = true := List.all_eq_true.mp h s hs
    exact ident_ne_char hid hd c hcp

theorem wfTS_unknown : wfTS unknownTS = true := by decide

theorem tsParse_print {T : TypeSpec} (h : wfTS T = true) :
    tsParse (tsPrint T) = some T := by
  obtain ⟨b, sh, pl⟩ := T
  simp only [wfTS, Bool.and_eq_true] at h
  obtain ⟨⟨hb, hsh⟩, hpl⟩ := h
  have hb2 : identL (chars b) = true := hb
  have hbstops : ∀ c ∈ chars b, c ∉ ['[', '@'] :=
    ident_notin_stops hb2 (by decide)
  cases sh with
  | none =>
    cases pl with
    | none =>
      simp only [tsPrint, List.append_nil]
      unfold tsParse
      rw [takeWhileNotC_all hbstops]
      simp [hb2]
    | some p =>
      simp only at hpl
      have hpl2 : identL (chars p) = true := hpl
      simp only [tsPrint, List.append_nil]
      unfold tsParse
      rw [takeWhileNotC_append_stop hbstops (by decide : '@' ∈ ['[', '@'])]
      simp [hb2, hpl2]
  | some ds =>
    simp only [Bool.and_eq_true] at hsh
    obtain ⟨hne, hall⟩ := hsh
    have hjoin : ∀ c ∈ joinChar ',' (ds.map chars), c ≠ ']' :=
      fun c hc => mem_join_dims hall hc (by decide) (by decide)
    have hsplit : splitChar ',' (joinChar ',' (ds.map chars)) = ds.map chars := by
      apply splitChar_join
      · simp only [ne_eq, List.map_eq_nil_iff]
        intro hds
        rw [hds] at hne
        cases hne
      · intro p hp hmem
        obtain ⟨s, hs, rfl⟩ := List.mem_map.mp hp
        exact identL_not_mem (List.all_eq_true.mp hall s hs)
          (by decide : isIdentCh ',' = false) hmem
    cases pl with
    | none =>
      simp only [tsPrint, List.append_nil]
      unfold tsParse
      rw [takeWhileNotC_append_stop hbstops (by decide : '[' ∈ ['[', '@'])]
      simp only []
      rw [if_pos hb2]
      rw [if_neg (by decide : ¬ ('[' : Char) = '@')]
      rw [if_pos (by decide)]
      rw [show joinChar ',' (ds.map chars) ++ [']'] =
            joinChar ',' (ds.map chars) ++ ']' :: [] from rfl]
      rw [takeUntilChar_append (fun hm => (hjoin ']' hm) rfl)]
      simp only [hsplit]
      rw [if_pos (all_identL_map hall)]
      simp only [map_str_chars, str_chars]
    | some p =>
      simp only at hpl
      have hpl2 : identL (chars p) = true := hpl
      simp only [tsPrint]
      unfold tsParse
      rw [List.append_assoc, List.cons_append]
      rw [takeWhileNotC_append_stop hbstops (by decide : '[' ∈ ['[', '@'])]
      simp only []
      rw [if_pos hb2]
      rw [if_neg (by decide : ¬ ('[' : Char) = '@')]
      rw [if_pos (by decide)]
      rw [show (joinChar ',' (ds.map chars) ++ [']']) ++ '@' :: chars p =
            joinChar ',' (ds.map chars) ++ ']' :: ('@' :: chars p) by
          rw [List.append_assoc]
          rfl]
      rw [takeUntilChar_append (fun hm => (hjoin ']' hm) rfl)]
      simp only [hsplit]
      rw [if_pos (all_identL_map hall)]
      rw [if_pos (by decide)]
      rw [if_pos hpl2]
      simp only [map_str_chars, str_chars]

theorem tsParse_wf {cs : List Char} {T : TypeSpec} (h : tsParse cs = some T) :
    wfTS T = true := by
  unfold tsParse at h
  rcases htw : takeWhileNotC ['[', '@'] cs with ⟨b, r⟩
  rw [htw] at h
  simp only [] at h
  by_cases hb : identL b = true
  · rw [if_pos hb] at h
    cases r with
    | nil =>
      simp only [] at h
      simp only [Option.some.injEq] at h
      rw [← h]
      simp [wfTS, identStr, hb]
    | cons c r2 =>
      simp only [] at h
      by_cases hat : c = '@'
      · rw [if_pos hat] at h
        by_cases hr2 : identL r2 = true
        · rw [if_pos hr2] at h
          simp only [Option.some.injEq] at h
          rw [← h]
          simp [wfTS, identStr, hb, hr2]
        · rw [if_neg hr2] at h
          cases h
      · rw [if_neg hat] at h
        by_cases hbr : c = '['
        · rw [if_pos hbr] at h
          rcases htu : takeUntilChar ']' r2 with _ | ⟨content, after⟩
          · rw [htu] at h
            cases h
          · rw [htu] at h
            simp only [] at h
            by_cases hds : (splitChar ',' content).all identL = true
            · rw [if_pos hds] at h
              cases after with
              | nil =>
                simp only [] at h
                simp only [Option.some.injEq] at h
                rw [← h]
                have hnil := splitChar_ne_nil ',' content
                simp [wfTS, identStr, hb, List.all_map, hds, hnil, Function.comp]
                exact fun a ha => List.all_eq_true.mp hds a ha
              | cons a p =>
                simp only [] at h
                by_cases ha : a = '@'
                · rw [if_pos ha] at h
                  by_cases hp : identL p = true
                  · rw [if_pos hp] at h
                    simp only [Option.some.injEq] at h
                    rw [← h]
                    have hnil := splitChar_ne_nil ',' content
                    simp [wfTS, identStr, hb, hp, List.all_map, hds, hnil,
                      Function.comp]
                    exact fun a ha => List.all_eq_true.mp hds a ha
                  · rw [if_neg hp] at h
                    cases h
                · rw [if_neg ha] at h
                  cases h
            · rw [if_neg hds] at h
              cases h
        · rw [if_neg hbr] at h
          cases h
  · rw [if_neg hb] at h
    cases h

/-! ## Canonical tag text re-classifies to the same tag -/

theorem fragOk_mem {s : String} (h : fragOk s = true) {c : Char}
    (hc : c ∈ chars s) : c ≠ ':' ∧ c ≠ ']' ∧ c ≠ '\n' := by
  unfold fragOk fragOkL at h
  have h2 := List.all_eq_true.mp h c hc
  simp only [Bool.and_eq_true, decide_eq_true_eq] at h2
  exact ⟨h2.1.1, h2.1.2, h2.2⟩

theorem leadSlash_decomp {p : String} (h : leadSlash p = true) :
    ∃ rest, chars p = '/' :: rest := by
  unfold leadSlash at h
  rcases hc : chars p with _ | ⟨c, rest⟩
  · rw [hc] at h
    cases h
  · rw [hc] at h
    simp only [decide_eq_true_eq] at h
    refine ⟨rest, ?_⟩
    rw [h]

theorem vocab_not_complexity {b : String} (h : b ∈ decoratorVocab) :
    isComplexityPattern b = false ∧ routeSplit (chars b) = none ∧
      fragOk b = true ∧ chars b ≠ [] := by
  fin_cases h <;> exact ⟨rfl, rfl, rfl, by decide⟩

theorem method_facts {m : String} (hm : m ∈ httpMethods) :
    (∀ c ∈ chars m, c ≠ ':' ∧ c ≠ ']' ∧ c ≠ '\n') ∧ chars m ≠ [] := by
  fin_cases hm <;> exact ⟨by decide, by decide⟩

theorem map_str_comp (l : List String) : List.map (str ∘ chars) l = l := by
  induction l with
  | nil => rfl
  | cons a rest ih => simp [ih, Function.comp]

theorem content_join (base : String) (quals : List String) :
    chars base ++ (quals.map (fun q => ':' :: chars q)).flatten =
      joinChar ':' (chars base :: quals.map chars) := by
  induction quals generalizing base with
  | nil => simp [joinChar]
  | cons q rest ih =>
    have h2 := ih q
    simp only [List.map_cons, List.flatten_cons, joinChar, List.isEmpty_cons,
      Bool.false_eq_true, if_false, List.isEmpty_eq_true] at h2 ⊢
    by_cases hrest : rest = []
    · subst hrest
      simp [joinChar]
    · simp only [List.map_eq_nil_iff, hrest, if_false]
      rw [List.cons_append]
      congr 1
      congr 1
      simp only [List.map_eq_nil_iff, hrest, if_false] at h2
      exact h2

theorem frags_of_base_quals {base : String} {quals : List String}
    (hb : fragOk base = true) (hq : quals.all fragOk = true) :
    (splitChar ':' (chars base ++
      (quals.map (fun q => ':' :: chars q)).flatten)).map str =
      base :: quals := by
  rw [content_join]
  rw [splitChar_join (by simp)]
  · simp [map_str_comp]
  · intro p hp hmem
    rcases List.mem_cons.mp hp with rfl | hp2
    · exact (fragOk_mem hb hmem).1 rfl
    · obtain ⟨s, hs, rfl⟩ := List.mem_map.mp hp2
      exact (fragOk_mem (List.all_eq_true.mp hq s hs) hmem).1 rfl

theorem route_split_canonical {m p : String} (hm : m ∈ httpMethods)
    (hp : leadSlash p = true) :
    routeSplit (chars m ++ chars p) = some (m, p) := by
  obtain ⟨rest, hrest⟩ := leadSlash_decomp hp
  have hps : str ('/' :: rest) = p := by
    rw [← hrest, str_chars]
  fin_cases hm <;>
    (rw [hrest]
     simp [routeSplit, routeTry, listHasLead, listDrop, chars, hps])

theorem route_not_complexity {m p : String} (hm : m ∈ httpMethods) :
    isComplexityPattern (m ++ p) = false := by
  have hch : chars (m ++ p) = chars m ++ chars p := chars_append m p
  fin_cases hm <;>
    (unfold isComplexityPattern
     rw [hch]
     rfl)

theorem classify_print {t : Tag} (h : wfTag t = true) :
    classifyFrags ((splitChar ':' (tagContent t)).map str) = .ok t := by
  obtain ⟨base, quals, tt, hm, hp⟩ := t
  cases tt with
  | operation =>
    simp only [wfTag, Bool.and_eq_true, Bool.not_eq_true', Option.isNone_iff_eq_none,
      decide_eq_false_iff_not] at h
    obtain ⟨⟨⟨⟨⟨⟨⟨hfb, hfq⟩, hnc⟩, hnr⟩, hnv⟩, hne⟩, hm0⟩, hp0⟩ := h
    subst hm0
    subst hp0
    unfold tagContent
    simp only []
    rw [frags_of_base_quals hfb hfq]
    unfold classifyFrags
    simp only []
    rw [hnc]
    simp only [Bool.false_eq_true, if_false]
    rw [hnr]
    simp [Tag.make, hnv]
  | decorator =>
    simp only [wfTag, Bool.and_eq_true, Option.isNone_iff_eq_none,
      decide_eq_true_eq] at h
    obtain ⟨⟨⟨hv, hfq⟩, hm0⟩, hp0⟩ := h
    subst hm0
    subst hp0
    obtain ⟨hnc, hnr, hfb, _⟩ := vocab_not_complexity hv
    unfold tagContent
    simp only []
    rw [frags_of_base_quals hfb hfq]
    unfold classifyFrags
    simp only []
    rw [hnc]
    simp only [Bool.false_eq_true, if_false]
    rw [hnr]
    simp [Tag.make, hv]
  | complexity =>
    simp only [wfTag, Bool.and_eq_true, Option.isNone_iff_eq_none,
      List.isEmpty_eq_true] at h
    obtain ⟨⟨⟨⟨hfb, hcx⟩, hq0⟩, hm0⟩, hp0⟩ := h
    subst hq0
    subst hm0
    subst hp0
    unfold tagContent
    simp only [List.map_nil, List.flatten_nil, List.append_nil]
    rw [splitChar_no_sep (fun hmem => (fragOk_mem hfb hmem).1 rfl)]
    simp only [List.map_cons, List.map_nil, str_chars]
    unfold classifyFrags
    simp only []
    rw [hcx]
    simp [Tag.make, hcx]
  | httpRoute =>
    cases hm with
    | none => simp [wfTag] at h
    | some m =>
      cases hp with
      | none => simp [wfTag] at h
      | some p =>
        simp only [wfTag, Bool.and_eq_true, decide_eq_true_eq,
          List.isEmpty_eq_true] at h
        obtain ⟨⟨⟨⟨hmm, hps⟩, hpf⟩, hq0⟩, hbase⟩ := h
        subst hq0
        unfold tagContent
        simp only [Option.getD]
        have hsplit : splitChar ':' (chars m ++ chars p) =
            [chars m ++ chars p] := by
          apply splitChar_no_sep
          intro hmem
          rcases List.mem_append.mp hmem with h1 | h2
          · exact ((method_facts hmm).1 ':' h1).1 rfl
          · exact (fragOk_mem hpf h2).1 rfl
        rw [hsplit]
        simp only [List.map_cons, List.map_nil]
        have hsc : str (chars m ++ chars p) = m ++ p := str_append_chars _ _
        rw [hsc]
        unfold classifyFrags
        simp only []
        rw [route_not_complexity hmm]
        simp only [Bool.false_eq_true, if_false]
        rw [show chars (m ++ p) = chars m ++ chars p from chars_append m p]
        rw [route_split_canonical hmm hps]
        simp [Tag.make, hmm, hps, hbase]
  | custom => simp [wfTag] at h

theorem qualsFlatten_ok {quals : List String} (hq : quals.all fragOk = true)
    {c : Char} (hc : c ∈ (quals.map (fun q => ':' :: chars q)).flatten) :
    c ≠ ']' ∧ c ≠ '\n' := by
  obtain ⟨l, hl, hcl⟩ := List.mem_flatten.mp hc
  obtain ⟨q, hqm, rfl⟩ := List.mem_map.mp hl
  rcases List.mem_cons.mp hcl with rfl | hcq
  · exact ⟨by decide, by decide⟩
  · have h2 := fragOk_mem (List.all_eq_true.mp hq q hqm) hcq
    exact ⟨h2.2.1, h2.2.2⟩

theorem tagContent_ok {t : Tag} (h : wfTag t = true) :
    ∀ c ∈ tagContent t, c ≠ ']' ∧ c ≠ '\n' := by
  obtain ⟨base, quals, tt, hm, hp⟩ := t
  cases tt with
  | operation =>
    simp only [wfTag, Bool.and_eq_true, Bool.not_eq_true',
      Option.isNone_iff_eq_none, decide_eq_false_iff_not] at h
    obtain ⟨⟨⟨⟨⟨⟨⟨hfb, hfq⟩, hnc⟩, hnr⟩, hnv⟩, hne⟩, hm0⟩, hp0⟩ := h
    intro c hc
    unfold tagContent at hc
    simp only [] at hc
    rcases List.mem_append.mp hc with h1 | h2
    · have h3 := fragOk_mem hfb h1
      exact ⟨h3.2.1, h3.2.2⟩
    · exact qualsFlatten_ok hfq h2
  | decorator =>
    simp only [wfTag, Bool.and_eq_true, Option.isNone_iff_eq_none,
      decide_eq_true_eq] at h
    obtain ⟨⟨⟨hv, hfq⟩, hm0⟩, hp0⟩ := h
    have hfb := (vocab_not_complexity hv).2.2.1
    intro c hc
    unfold tagContent at hc
    simp only [] at hc
    rcases List.mem_append.mp hc with h1 | h2
    · have h3 := fragOk_mem hfb h1
      exact ⟨h3.2.1, h3.2.2⟩
    · exact qualsFlatten_ok hfq h2
  | complexity =>
    simp only [wfTag, Bool.and_eq_true, Option.isNone_iff_eq_none,
      List.isEmpty_eq_true] at h
    obtain ⟨⟨⟨⟨hfb, hcx⟩, hq0⟩, hm0⟩, hp0⟩ := h
    subst hq0
    intro c hc
    unfold tagContent at hc
    simp only [List.map_nil, List.flatten_nil, List.append_nil] at hc
    have h3 := fragOk_mem hfb hc
    exact ⟨h3.2.1, h3.2.2⟩
  | httpRoute =>
    cases hm with
    | none => simp [wfTag] at h
    | some m =>
      cases hp with
      | none => simp [wfTag] at h
      | some p =>
        simp only [wfTag, Bool.and_eq_true, decide_eq_true_eq,
          List.isEmpty_eq_true] at h
        obtain ⟨⟨⟨⟨hmm, hps⟩, hpf⟩, hq0⟩, hbase⟩ := h
        intro c hc
        unfold tagContent at hc
        simp only [Option.getD] at hc
        rcases List.mem_append.mp hc with h1 | h2
        · have h3 := (method_facts hmm).1 c h1
          exact ⟨h3.2.1, h3.2.2⟩
        · have h3 := fragOk_mem hpf h2
          exact ⟨h3.2.1, h3.2.2⟩
  | custom => simp [wfTag] at h

theorem tagContent_ne_nil {t : Tag} (h : wfTag t = true) :
    tagContent t ≠ [] := by
  obtain ⟨base, quals, tt, hm, hp⟩ := t
  cases tt with
  | operation =>
    simp only [wfTag, Bool.and_eq_true, Bool.not_eq_true',
      Option.isNone_iff_eq_none, decide_eq_false_iff_not] at h
    obtain ⟨⟨⟨⟨⟨⟨⟨hfb, hfq⟩, hnc⟩, hnr⟩, hnv⟩, hne⟩, hm0⟩, hp0⟩ := h
    intro hcon
    unfold tagContent at hcon
    simp only [] at hcon
    obtain ⟨hb, hq⟩ := List.append_eq_nil.mp hcon
    cases quals with
    | nil =>
      have hb0 : base = "" := by rw [← str_chars base, hb]; rfl
      rw [hb0] at hne
      simp at hne
    | cons q qs => simp at hq
  | decorator =>
    simp only [wfTag, Bool.and_eq_true, Option.isNone_iff_eq_none,
      decide_eq_true_eq] at h
    obtain ⟨⟨⟨hv, hfq⟩, hm0⟩, hp0⟩ := h
    have hb := (vocab_not_complexity hv).2.2.2
    intro hcon
    unfold tagContent at hcon
    simp only [] at hcon
    exact hb (List.append_eq_nil.mp hcon).1
  | complexity =>
    simp only [wfTag, Bool.and_eq_true, Option.isNone_iff_eq_none,
      List.isEmpty_eq_true] at h
    obtain ⟨⟨⟨⟨hfb, hcx⟩, hq0⟩, hm0⟩, hp0⟩ := h
    intro hcon
    unfold tagContent at hcon
    simp only [] at hcon
    obtain ⟨hb, h2⟩ := List.append_eq_nil.mp hcon
    unfold isComplexityPattern isComplexityL at hcx
    rw [hb] at hcx
    cases hcx
  | httpRoute =>
    cases hm with
    | none => simp [wfTag] at h
    | some m =>
      cases hp with
      | none => simp [wfTag] at h
      | some p =>
        simp only [wfTag, Bool.and_eq_true, decide_eq_true_eq,
          List.isEmpty_eq_true] at h
        obtain ⟨⟨⟨⟨hmm, hps⟩, hpf⟩, hq0⟩, hbase⟩ := h
        intro hcon
        unfold tagContent at hcon
        simp only [Option.getD] at hcon
        exact (method_facts hmm).2 (List.append_eq_nil.mp hcon).1
  | custom => simp [wfTag] at h

theorem splitTagContent_append {xs : List Char} (h : ∀ c ∈ xs, c ≠ ']')
    (rest : List Char) :
    splitTagContent (xs ++ ']' :: rest) = some (xs, rest) := by
  induction xs with
  | nil => simp [splitTagContent]
  | cons a as ih =>
    have ha : a ≠ ']' := h a (List.mem_cons_self a as)
    simp only [List.cons_append, splitTagContent, if_neg ha]
    simp only [List.append_eq]
    rw [ih (fun c hc => h c (List.mem_cons_of_mem a hc))]
    rfl

theorem parseTagsF_space (f : Nat) (rest : List Char) :
    parseTagsF (f + 1) (' ' :: rest) = parseTagsF f rest := by
  simp [parseTagsF]

theorem parseTagsF_bracket (f : Nat) (rest : List Char) :
    parseTagsF (f + 1) ('[' :: rest) =
      (match splitTagContent rest with
       | none => .error "Unterminated tag"
       | some (content, rem) =>
         if content.isEmpty then .error "Empty tag"
         else
           match classifyFrags ((splitChar ':' content).map str) with
           | .error e => .error e
           | .ok t => (parseTagsF f rem).map (fun ts => t :: ts)) := by
  simp [parseTagsF]

theorem parseTagsF_print {tags : List Tag} (h : tags.all wfTag = true) :
    ∀ fuel, 2 * tags.length ≤ fuel →
      parseTagsF fuel (tagsPrint tags) = .ok tags := by
  induction tags with
  | nil =>
    intro fuel hf
    cases fuel <;> rfl
  | cons t ts ih =>
    intro fuel hf
    simp only [List.all_cons, Bool.and_eq_true] at h
    obtain ⟨ht, hts⟩ := h
    obtain ⟨f, rfl⟩ : ∃ f, fuel = f + 2 := ⟨fuel - 2, by simp at hf; omega⟩
    have hform : tagsPrint (t :: ts) =
        ' ' :: '[' :: (tagContent t ++ ']' :: tagsPrint ts) := by
      simp [tagsPrint, tagPrintC]
    rw [hform]
    rw [show f + 2 = (f + 1) + 1 from rfl]
    rw [parseTagsF_space, parseTagsF_bracket]
    rw [splitTagContent_append (fun c hc => (tagContent_ok ht c hc).1) (tagsPrint ts)]
    simp only []
    rw [if_neg (fun hh => tagContent_ne_nil ht (List.isEmpty_eq_true.mp hh))]
    rw [classify_print ht]
    simp only []
    rw [ih hts f (by simp at hf ⊢; omega)]
    rfl

theorem tagsPrint_len (tags : List Tag) :
    2 * tags.length ≤ (tagsPrint tags).length := by
  induction tags with
  | nil => simp [tagsPrint]
  | cons t ts ih =>
    simp only [tagsPrint, List.map_cons, List.flatten_cons, List.length_append,
      List.length_cons, tagPrintC] at ih ⊢
    omega

theorem parseTags_print {tags : List Tag} (h : tags.all wfTag = true) :
    parseTags (tagsPrint tags) = .ok tags := by
  unfold parseTags
  exact parseTagsF_print h _ (tagsPrint_len tags)

/-! ## Reparse lemmas for the printed lines -/

theorem consFirst_consAll (c : Char) (xs : List Char) (S : List (List Char)) :
    consFirst c (consAll xs S) = consAll (c :: xs) S := by
  cases S <;> rfl

theorem consAll_consAll (a b : List Char) (S : List (List Char)) :
    consAll a (consAll b S) = consAll (a ++ b) S := by
  cases S <;> simp [consAll]

theorem replicate_space_shift (k : Nat) (xs : List Char) :
    List.replicate k ' ' ++ ' ' :: xs = ' ' :: (List.replicate k ' ' ++ xs) := by
  induction k with
  | zero => rfl
  | succ n ih => simp [List.replicate_succ, ih]

theorem trimL_no_space {xs : List Char} (h : ∀ c ∈ xs, c ≠ ' ') :
    trimL xs = xs := by
  cases xs with
  | nil => rfl
  | cons c rest => simp [trimL, h c (List.mem_cons_self c rest)]

theorem trimC_no_space {xs : List Char} (h : ∀ c ∈ xs, c ≠ ' ') :
    trimC xs = xs := by
  unfold trimC trimR
  rw [trimL_no_space h]
  rw [trimL_no_space (fun c hc => h c (List.mem_reverse.mp hc))]
  exact List.reverse_reverse xs

theorem mem_trimL {c : Char} (hc : c ≠ ' ') :
    ∀ {xs : List Char}, c ∈ xs → c ∈ trimL xs := by
  intro xs
  induction xs with
  | nil => intro h; cases h
  | cons a rest ih =>
    intro h
    by_cases ha : a = ' '
    · rw [ha, trimL_space]
      rcases List.mem_cons.mp h with rfl | h2
      · cases hc ha
      · exact ih h2
    · rwa [trimL_noHead (by simp [ha])]

theorem mem_trimC {xs : List Char} {c : Char} (hxs : c ∈ xs) (hc : c ≠ ' ') :
    c ∈ trimC xs := by
  unfold trimC trimR
  rw [List.mem_reverse]
  apply mem_trimL hc
  rw [List.mem_reverse]
  exact mem_trimL hc hxs

theorem tsPrint_ne {T : TypeSpec} (h : wfTS T = true) {d : Char}
    (hd : isIdentCh d = false) (h1 : d ≠ '[') (h2 : d ≠ ']') (h3 : d ≠ ',')
    (h4 : d ≠ '@') : ∀ c ∈ tsPrint T, c ≠ d := by
  obtain ⟨b, sh, pl⟩ := T
  simp only [wfTS, Bool.and_eq_true] at h
  obtain ⟨⟨hb, hsh⟩, hpl⟩ := h
  have hb2 : identL (chars b) = true := hb
  intro c hc
  unfold tsPrint at hc
  simp only [] at hc
  rcases List.mem_append.mp hc with hc1 | hc2
  · rcases List.mem_append.mp hc1 with hc3 | hc4
    · exact ident_ne_char hb2 hd c hc3
    · cases sh with
      | none => cases hc4
      | some ds =>
        simp only [Bool.and_eq_true] at hsh
        obtain ⟨hne, hall⟩ := hsh
        simp only [] at hc4
        rcases List.mem_cons.mp hc4 with rfl | hc5
        · exact fun he => h1 he.symm
        · rcases List.mem_append.mp hc5 with hc6 | hc7
          · exact mem_join_dims hall hc6 hd h3
          · rcases List.mem_cons.mp hc7 with rfl | hc8
            · exact fun he => h2 he.symm
            · cases hc8
  · cases pl with
    | none => cases hc2
    | some p =>
      simp only [] at hpl hc2
      have hpl2 : identL (chars p) = true := hpl
      rcases List.mem_cons.mp hc2 with rfl | hc3
      · exact fun he => h4 he.symm
      · exact ident_ne_char hpl2 hd c hc3

theorem tsPrint_ne_nil {T : TypeSpec} (h : wfTS T = true) : tsPrint T ≠ [] := by
  obtain ⟨b, sh, pl⟩ := T
  simp only [wfTS, Bool.and_eq_true] at h
  have hb : identL (chars b) = true := h.1.1
  have hbne := identL_ne_nil hb
  unfold tsPrint
  simp only []
  intro hcon
  rw [List.append_assoc] at hcon
  exact hbne (List.append_eq_nil.mp hcon).1

theorem isBlankL_false {cs : List Char} {c : Char} (hc : c ∈ cs)
    (h : c ≠ ' ') : isBlankL cs = false := by
  unfold isBlankL
  exact Bool.eq_false_iff.mpr (fun he => h (by simpa using List.all_eq_true.mp he c hc))

theorem identCh_ne {c : Char} (hc : isIdentCh c = true) {d : Char}
    (hd : isIdentCh d = false) : c ≠ d := by
  intro he
  rw [he] at hc
  rw [hc] at hd
  cases hd

theorem identL_head {cs : List Char} (h : identL cs = true) :
    ∃ c0 rest, cs = c0 :: rest ∧ isIdentCh c0 = true := by
  cases cs with
  | nil => cases identL_ne_nil h rfl
  | cons c0 rest => exact ⟨c0, rest, rfl, identL_mem h (List.mem_cons_self c0 rest)⟩

theorem isCommentL_cons {c : Char} (h0 : c ≠ ' ') (h1 : c ≠ '#')
    (h2 : c ≠ '/') (xs : List Char) : isCommentL (c :: xs) = false := by
  unfold isCommentL
  rw [trimL_noHead (by simp [h0])]
  have e1 : decide ('#' = c) = false := decide_eq_false (fun he => h1 he.symm)
  have e2 : decide ('/' = c) = false := decide_eq_false (fun he => h2 he.symm)
  simp [listHasLead, e1, e2]

theorem procLine_blank (ln : Nat) (st : PState) : procLine ln [] st = .ok st := rfl

theorem procLine_header (ln : Nat) (n : String) (hn : identStr n = true)
    (st : PState) :
    procLine ln (entMarker ++ chars n ++ [']']) st =
      .ok { closeCur st with cur := some ⟨n, [], []⟩ } := by
  have hn2 : identL (chars n) = true := hn
  have hline : entMarker ++ chars n ++ [']'] =
      '[' :: ('C' :: (':' :: (chars n ++ [']']))) := by
    simp [entMarker]
  have hblank : isBlankL (entMarker ++ chars n ++ [']']) = false := by
    rw [hline]
    exact isBlankL_false (List.mem_cons_self _ _) (by decide)
  have hcomm : isCommentL (entMarker ++ chars n ++ [']']) = false := by
    rw [hline]
    exact isCommentL_cons (by decide) (by decide) (by decide) _
  unfold procLine
  rw [hblank, hcomm]
  simp only [Bool.false_eq_true, if_false]
  rw [hline]
  simp only []
  rw [if_neg (by decide : ¬ ('[' : Char) = ' ')]
  have hlead : listHasLead entMarker ('[' :: ('C' :: (':' :: (chars n ++ [']'])))) = true := by
    rw [show '[' :: ('C' :: (':' :: (chars n ++ [']']))) =
          entMarker ++ (chars n ++ [']']) from rfl]
    exact listHasLead_append _ _
  rw [hlead]
  simp only [if_true]
  rw [show listDrop 3 ('[' :: ('C' :: (':' :: (chars n ++ [']'])))) =
        chars n ++ ']' :: [] from by simp [listDrop]]
  rw [takeUntilChar_append (identL_not_mem hn2 (by decide))]
  simp only []
  rw [if_pos hn2]
  rw [show str (chars n) = n from str_chars n]

theorem procLine_dep (ln : Nat) (c : FormatConfig) (hind : 0 < c.indent)
    (n : String) (hn : identStr n = true) (acc : EntAcc)
    (es : List Entity) (fs : List Func) (dg : List Diagnostic) :
    procLine ln (depLine c n) ⟨es, some acc, fs, dg⟩ =
      .ok ⟨es, some { acc with deps := acc.deps ++ [n] }, fs, dg⟩ := by
  have hn2 : identL (chars n) = true := hn
  obtain ⟨k, hk⟩ : ∃ k, c.indent = k + 1 := ⟨c.indent - 1, by omega⟩
  have hline : depLine c n =
      ' ' :: (List.replicate k ' ' ++ (depMarker ++ (chars n ++ [']']))) := by
    unfold depLine
    rw [hk, List.replicate_succ]
    simp
  have htr : trimL (depLine c n) = depMarker ++ (chars n ++ [']']) := by
    rw [hline, trimL_space, trimL_replicate]
    apply trimL_noHead
    simp [depMarker]
  have hblank : isBlankL (depLine c n) = false := by
    apply isBlankL_false (c := '◊') _ (by decide)
    rw [hline]
    simp [depMarker]
  have hcomm : isCommentL (depLine c n) = false := by
    unfold isCommentL
    rw [htr]
    simp [depMarker, listHasLead]
  unfold procLine
  rw [hblank, hcomm]
  simp only [Bool.false_eq_true, if_false]
  rw [hline]
  simp only []
  simp only [if_true]
  rw [← hline, htr]
  unfold procBody
  rw [listHasLead_append depMarker (chars n ++ [']'])]
  simp only [if_true]
  rw [show (7 : Nat) = depMarker.length from rfl,
    listDrop_append depMarker (chars n ++ [']'])]
  rw [show chars n ++ [']'] = chars n ++ ']' :: [] from rfl]
  rw [takeUntilChar_append (identL_not_mem hn2 (by decide))]
  simp only []
  rw [if_pos hn2]
  rw [show str (chars n) = n from str_chars n]

theorem procLine_sv (ln : Nat) (c : FormatConfig) (hind : 0 < c.indent)
    (w : Nat) (sv : StateVar) (hsv : wfSV sv = true) (acc : EntAcc)
    (es : List Entity) (fs : List Func) (dg : List Diagnostic) :
    procLine ln (svLine c w sv) ⟨es, some acc, fs, dg⟩ =
      .ok ⟨es, some { acc with svs := acc.svs ++ [sv] }, fs, dg⟩ := by
  obtain ⟨nm, ts⟩ := sv
  simp only [wfSV, Bool.and_eq_true] at hsv
  obtain ⟨hn, hts⟩ := hsv
  have hn2 : identL (chars nm) = true := hn
  obtain ⟨c0, cs0, hnm, hc0⟩ := identL_head hn2
  obtain ⟨k, hk⟩ : ∃ k, c.indent = k + 1 := ⟨c.indent - 1, by omega⟩
  have hline : svLine c w ⟨nm, ts⟩ =
      ' ' :: (List.replicate k ' ' ++ (chars nm ++
        (List.replicate (w - (chars nm).length) ' ' ++
          ' ' :: (sepC c ++ ' ' :: tsPrint ts)))) := by
    unfold svLine
    rw [hk, List.replicate_succ]
    simp
  have hc0s : c0 ≠ ' ' := identCh_ne hc0 (by decide)
  have htr : trimL (svLine c w ⟨nm, ts⟩) =
      chars nm ++ (List.replicate (w - (chars nm).length) ' ' ++
        ' ' :: (sepC c ++ ' ' :: tsPrint ts)) := by
    rw [hline, trimL_space, trimL_replicate]
    apply trimL_noHead
    rw [hnm]
    simp [hc0s]
  have hblank : isBlankL (svLine c w ⟨nm, ts⟩) = false := by
    apply isBlankL_false (c := c0) _ hc0s
    rw [hline, hnm]
    simp
  have hcomm : isCommentL (svLine c w ⟨nm, ts⟩) = false := by
    unfold isCommentL
    rw [htr, hnm]
    have e1 : decide ('#' = c0) = false :=
      decide_eq_false (fun he => identCh_ne hc0 (by decide) he.symm)
    have e2 : decide ('/' = c0) = false :=
      decide_eq_false (fun he => identCh_ne hc0 (by decide) he.symm)
    simp [listHasLead, e1, e2]
  unfold procLine
  rw [hblank, hcomm]
  simp only [Bool.false_eq_true, if_false]
  rw [hline]
  simp only []
  simp only [if_true]
  rw [← hline, htr]
  unfold procBody
  have hdep : listHasLead depMarker (chars nm ++
      (List.replicate (w - (chars nm).length) ' ' ++
        ' ' :: (sepC c ++ ' ' :: tsPrint ts))) = false := by
    rw [hnm]
    simp only [List.cons_append, depMarker, listHasLead]
    have e1 : decide ('◊' = c0) = false :=
      decide_eq_false (fun he => identCh_ne hc0 (by decide) he.symm)
    simp [e1]
  rw [hdep]
  simp only [Bool.false_eq_true, if_false]
  have hsplit : splitWords (chars nm ++
      (List.replicate (w - (chars nm).length) ' ' ++
        ' ' :: (sepC c ++ ' ' :: tsPrint ts))) =
      [chars nm, sepC c, tsPrint ts] := by
    rw [replicate_space_shift]
    rw [splitWords_word (identL_ne_nil hn2)
      (fun d hd => identCh_ne (identL_mem hn2 hd) (by decide))]
    rw [splitWords_replicate]
    have hsep1 : sepC c ≠ [] := by
      unfold sepC
      by_cases hpu : c.preferUnicode = true <;> simp [hpu]
    have hsep2 : ∀ d ∈ sepC c, d ≠ ' ' := by
      unfold sepC
      by_cases hpu : c.preferUnicode = true <;> simp [hpu] <;> decide
    rw [splitWords_word hsep1 hsep2]
    rw [splitWords_single (tsPrint_ne_nil hts)
      (tsPrint_ne hts (by decide) (by decide) (by decide) (by decide) (by decide))]
  rw [hsplit]
  simp only []
  have hcond : ((sepC c = ['∈'] || sepC c = ['i', 'n']) && identL (chars nm)) = true := by
    rw [hn2]
    unfold sepC
    by_cases hpu : c.preferUnicode = true <;> simp [hpu]
  rw [if_pos hcond]
  rw [tsParse_print hts]
  simp only []
  rw [show str (chars nm) = nm from str_chars nm]

theorem consFirst_eq_consAll (c : Char) (S : List (List Char)) :
    consFirst c S = consAll [c] S := by
  cases S <;> rfl

theorem consFirst_ne_nil (c : Char) (S : List (List Char)) :
    consFirst c S ≠ [] := by
  cases S <;> simp [consFirst]

theorem consAll_nil {S : List (List Char)} (h : S ≠ []) : consAll [] S = S := by
  cases S with
  | nil => cases h rfl
  | cons p ps => simp [consAll]

theorem splitTopComma_ne_nil (cs : List Char) (d : Nat) :
    splitTopComma cs d ≠ [] := by
  cases cs with
  | nil => simp [splitTopComma]
  | cons c rest =>
    unfold splitTopComma
    split
    · simp
    · split
      · exact consFirst_ne_nil _ _
      · split
        · exact consFirst_ne_nil _ _
        · exact consFirst_ne_nil _ _

theorem splitTopComma_cons (c : Char) (rest : List Char) (d : Nat) :
    splitTopComma (c :: rest) d =
      if c = ',' && d = 0 then [] :: splitTopComma rest 0
      else if c = '[' then consFirst c (splitTopComma rest (d + 1))
      else if c = ']' then consFirst c (splitTopComma rest (d - 1))
      else consFirst c (splitTopComma rest d) := rfl

theorem splitTop_flat {xs : List Char}
    (h : ∀ c ∈ xs, c ≠ ',' ∧ c ≠ '[' ∧ c ≠ ']') (rest : List Char) (d : Nat) :
    splitTopComma (xs ++ rest) d = consAll xs (splitTopComma rest d) := by
  induction xs generalizing d with
  | nil =>
    rw [List.nil_append]
    exact (consAll_nil (splitTopComma_ne_nil rest d)).symm
  | cons a as ih =>
    obtain ⟨h1, h2, h3⟩ := h a (List.mem_cons_self a as)
    rw [List.cons_append]
    rw [splitTopComma_cons]
    rw [if_neg (by simp [h1])]
    rw [if_neg h2, if_neg h3]
    rw [ih (fun d2 hd => h d2 (List.mem_cons_of_mem a hd)) d]
    exact consFirst_consAll a as _

theorem splitTop_inside {xs : List Char}
    (h : ∀ c ∈ xs, c ≠ '[' ∧ c ≠ ']') (rest : List Char) (d : Nat) :
    splitTopComma (xs ++ ']' :: rest) (d + 1) =
      consAll (xs ++ [']']) (splitTopComma rest d) := by
  induction xs generalizing d with
  | nil =>
    rw [List.nil_append]
    rw [splitTopComma_cons]
    rw [if_neg (by simp)]
    rw [if_neg (by decide), if_pos rfl]
    rw [show d + 1 - 1 = d from rfl]
    exact consFirst_eq_consAll ']' _
  | cons a as ih =>
    obtain ⟨h2, h3⟩ := h a (List.mem_cons_self a as)
    rw [List.cons_append]
    rw [splitTopComma_cons]
    rw [if_neg (by simp)]
    rw [if_neg h2, if_neg h3]
    rw [ih (fun d2 hd => h d2 (List.mem_cons_of_mem a hd)) d]
    rw [consFirst_consAll]
    rw [show (a :: as) ++ [']'] = a :: (as ++ [']']) from rfl]

theorem tsParse_forms {nm b : String} (hn : identL (chars nm) = true)
    (hb : identL (chars b) = true) {d : Char} (hd : isIdentCh d = false)
    (h5 : d ≠ ':') (h6 : d ≠ ' ') :
    ∀ c ∈ chars nm ++ ':' :: ' ' :: chars b, c ≠ d := by
  intro c hc
  rcases List.mem_append.mp hc with h1 | h2
  · exact ident_ne_char hn hd c h1
  · rcases List.mem_cons.mp h2 with rfl | h3
    · exact fun he => h5 he.symm
    · rcases List.mem_cons.mp h3 with rfl | h4
      · exact fun he => h6 he.symm
      · exact ident_ne_char hb hd c h4

theorem paramPrint_ne {p : Param} (h : wfParam p = true) {d : Char}
    (hd : isIdentCh d = false) (h1 : d ≠ '[') (h2 : d ≠ ']') (h3 : d ≠ ',')
    (h4 : d ≠ '@') (h5 : d ≠ ':') (h6 : d ≠ ' ') :
    ∀ c ∈ paramPrint p, c ≠ d := by
  obtain ⟨nm, ts⟩ := p
  simp only [wfParam, Bool.and_eq_true] at h
  obtain ⟨hn, hts⟩ := h
  have hn2 : identL (chars nm) = true := hn
  intro c hc
  unfold paramPrint at hc
  simp only [] at hc
  rcases List.mem_append.mp hc with ha | hb
  · exact ident_ne_char hn2 hd c ha
  · rcases List.mem_cons.mp hb with rfl | hb2
    · exact fun he => h5 he.symm
    · rcases List.mem_cons.mp hb2 with rfl | hb3
      · exact fun he => h6 he.symm
      · exact tsPrint_ne hts hd h1 h2 h3 h4 c hb3

theorem joinParams_ne {ps : List Param} (h : ps.all wfParam = true) {d : Char}
    (hd : isIdentCh d = false) (h1 : d ≠ '[') (h2 : d ≠ ']') (h3 : d ≠ ',')
    (h4 : d ≠ '@') (h5 : d ≠ ':') (h6 : d ≠ ' ') :
    ∀ c ∈ joinParams ps, c ≠ d := by
  induction ps with
  | nil => intro c hc; cases hc
  | cons q qs ih =>
    simp only [List.all_cons, Bool.and_eq_true] at h
    obtain ⟨hq, hqs⟩ := h
    intro c hc
    cases qs with
    | nil => exact paramPrint_ne hq hd h1 h2 h3 h4 h5 h6 c hc
    | cons r rs =>
      rw [show joinParams (q :: r :: rs) =
            paramPrint q ++ ',' :: ' ' :: joinParams (r :: rs) from rfl] at hc
      rcases List.mem_append.mp hc with ha | hb
      · exact paramPrint_ne hq hd h1 h2 h3 h4 h5 h6 c ha
      · rcases List.mem_cons.mp hb with rfl | hb2
        · exact fun he => h3 he.symm
        · rcases List.mem_cons.mp hb2 with rfl | hb3
          · exact fun he => h6 he.symm
          · exact ih hqs c hb3

theorem splitTop_param {p : Param} (h : wfParam p = true) (rest : List Char)
    (d : Nat) :
    splitTopComma (paramPrint p ++ rest) d =
      consAll (paramPrint p) (splitTopComma rest d) := by
  obtain ⟨nm, ts⟩ := p
  obtain ⟨b, sh, pl⟩ := ts
  simp only [wfParam, wfTS, Bool.and_eq_true] at h
  obtain ⟨hn, ⟨hb, hsh⟩, hpl⟩ := h
  have hn2 : identL (chars nm) = true := hn
  have hb2 : identL (chars b) = true := hb
  have hplflat : ∀ c ∈ (match pl with
      | none => ([] : List Char)
      | some q => '@' :: chars q), c ≠ ',' ∧ c ≠ '[' ∧ c ≠ ']' := by
    cases pl with
    | none => intro c hc; cases hc
    | some q =>
      simp only [] at hpl
      have hq2 : identL (chars q) = true := hpl
      intro c hc
      rcases List.mem_cons.mp hc with rfl | hc2
      · exact ⟨by decide, by decide, by decide⟩
      · exact ⟨ident_ne_char hq2 (by decide) c hc2,
          ident_ne_char hq2 (by decide) c hc2,
          ident_ne_char hq2 (by decide) c hc2⟩
  cases sh with
  | none =>
    apply splitTop_flat
    intro c hc
    unfold paramPrint tsPrint at hc
    simp only [] at hc
    rw [show chars nm ++ ':' :: ' ' :: (chars b ++ [] ++ (match pl with
          | none => ([] : List Char)
          | some q => '@' :: chars q)) =
        (chars nm ++ ':' :: ' ' :: chars b) ++ (match pl with
          | none => ([] : List Char)
          | some q => '@' :: chars q) from by simp] at hc
    rcases List.mem_append.mp hc with ha | hb3
    · exact ⟨tsParse_forms hn2 hb2 (by decide) (by decide) (by decide) c ha,
        tsParse_forms hn2 hb2 (by decide) (by decide) (by decide) c ha,
        tsParse_forms hn2 hb2 (by decide) (by decide) (by decide) c ha⟩
    · exact hplflat c hb3
  | some ds =>
    simp only [Bool.and_eq_true] at hsh
    obtain ⟨hne, hall⟩ := hsh
    have hshape : paramPrint ⟨nm, ⟨b, some ds, pl⟩⟩ ++ rest =
        (chars nm ++ ':' :: ' ' :: chars b) ++
          ('[' :: (joinChar ',' (ds.map chars) ++
            ']' :: ((match pl with
              | none => ([] : List Char)
              | some q => '@' :: chars q) ++ rest))) := by
      unfold paramPrint tsPrint
      simp
    rw [hshape]
    rw [splitTop_flat (fun c hc =>
      ⟨tsParse_forms hn2 hb2 (d := ',') (by decide) (by decide) (by decide) c hc,
       tsParse_forms hn2 hb2 (d := '[') (by decide) (by decide) (by decide) c hc,
       tsParse_forms hn2 hb2 (d := ']') (by decide) (by decide) (by decide) c hc⟩)]
    have hbr : splitTopComma ('[' :: (joinChar ',' (ds.map chars) ++
        ']' :: ((match pl with
          | none => ([] : List Char)
          | some q => '@' :: chars q) ++ rest))) d =
        consFirst '[' (splitTopComma (joinChar ',' (ds.map chars) ++
          ']' :: ((match pl with
            | none => ([] : List Char)
            | some q => '@' :: chars q) ++ rest)) (d + 1)) := by
      rw [splitTopComma_cons]
      rw [if_neg (by simp), if_pos rfl]
    rw [hbr]
    rw [splitTop_inside (fun c hc =>
      ⟨mem_join_dims hall hc (by decide) (by decide),
       mem_join_dims hall hc (by decide) (by decide)⟩)]
    rw [splitTop_flat hplflat]
    rw [consFirst_eq_consAll]
    rw [consAll_consAll, consAll_consAll, consAll_consAll]
    congr 1
    unfold paramPrint tsPrint
    simp

theorem isEmpty_false_of_mem {α : Type} {xs : List α} {c : α} (h : c ∈ xs) :
    xs.isEmpty = false := by
  cases xs with
  | nil => cases h
  | cons a as => rfl

theorem isEmpty_false_of_ne_nil {α : Type} {xs : List α} (h : xs ≠ []) :
    xs.isEmpty = false := by
  cases xs with
  | nil => cases h rfl
  | cons a as => rfl

theorem mem_joinParams_head (q : Param) (qs : List Param) {c : Char}
    (hc : c ∈ paramPrint q) : c ∈ joinParams (q :: qs) := by
  cases qs with
  | nil => exact hc
  | cons r rs =>
    rw [show joinParams (q :: r :: rs) =
          paramPrint q ++ ',' :: ' ' :: joinParams (r :: rs) from rfl]
    exact List.mem_append.mpr (Or.inl hc)

theorem joinParams_trimC_ne {q : Param} (hq : wfParam q = true)
    (qs : List Param) : (trimC (joinParams (q :: qs))).isEmpty = false := by
  have hq2 := hq
  simp only [wfParam, Bool.and_eq_true] at hq2
  have hqn : identL (chars q.name) = true := hq2.1
  obtain ⟨c0, cs0, hnm, hc0⟩ := identL_head hqn
  have hc0s : c0 ≠ ' ' := identCh_ne hc0 (by decide)
  have hc0m : c0 ∈ paramPrint q := by
    unfold paramPrint
    exact List.mem_append.mpr (Or.inl (by rw [hnm]; exact List.mem_cons_self _ _))
  exact isEmpty_false_of_mem (mem_trimC (mem_joinParams_head q qs hc0m) hc0s)

theorem pieceParse_print {p : Param} (h : wfParam p = true) :
    pieceParse (paramPrint p) = some (p, false) := by
  obtain ⟨nm, ts⟩ := p
  simp only [wfParam, Bool.and_eq_true] at h
  obtain ⟨hn, hts⟩ := h
  have hn2 : identL (chars nm) = true := hn
  unfold pieceParse paramPrint
  simp only []
  rw [show chars nm ++ ':' :: ' ' :: tsPrint ts =
        chars nm ++ ':' :: (' ' :: tsPrint ts) from rfl]
  rw [takeUntilChar_append (identL_not_mem hn2 (by decide))]
  simp only []
  rw [trimC_no_space (fun c hc => identCh_ne (identL_mem hn2 hc) (by decide))]
  rw [trimC_space_lead,
    trimC_no_space (tsPrint_ne hts (by decide) (by decide) (by decide) (by decide) (by decide))]
  have hw1 : (tsPrint ts).isEmpty = false := isEmpty_false_of_ne_nil (tsPrint_ne_nil hts)
  have hw2 : (tsPrint ts).all (fun c => c ≠ ' ') = true := by
    rw [List.all_eq_true]
    intro c hc
    simpa using tsPrint_ne hts (by decide) (by decide) (by decide) (by decide) (by decide) c hc
  rw [if_pos (by rw [hn2, hw1, hw2]; rfl)]
  rw [tsParse_print hts]
  simp only []
  rw [show str (chars nm) = nm from str_chars nm]

theorem pieceParse_print_sp {p : Param} (h : wfParam p = true) :
    pieceParse (' ' :: paramPrint p) = some (p, false) := by
  obtain ⟨nm, ts⟩ := p
  simp only [wfParam, Bool.and_eq_true] at h
  obtain ⟨hn, hts⟩ := h
  have hn2 : identL (chars nm) = true := hn
  unfold pieceParse
  rw [show ' ' :: paramPrint ⟨nm, ts⟩ =
        (' ' :: chars nm) ++ ':' :: (' ' :: tsPrint ts) from by unfold paramPrint; simp]
  rw [takeUntilChar_append (by
    intro hmem
    rcases List.mem_cons.mp hmem with he | hmem2
    · cases he
    · exact identL_not_mem hn2 (by decide) hmem2)]
  simp only []
  rw [trimC_space_lead]
  rw [trimC_no_space (fun c hc => identCh_ne (identL_mem hn2 hc) (by decide))]
  rw [trimC_space_lead,
    trimC_no_space (tsPrint_ne hts (by decide) (by decide) (by decide) (by decide) (by decide))]
  have hw1 : (tsPrint ts).isEmpty = false := isEmpty_false_of_ne_nil (tsPrint_ne_nil hts)
  have hw2 : (tsPrint ts).all (fun c => c ≠ ' ') = true := by
    rw [List.all_eq_true]
    intro c hc
    simpa using tsPrint_ne hts (by decide) (by decide) (by decide) (by decide) (by decide) c hc
  rw [if_pos (by rw [hn2, hw1, hw2]; rfl)]
  rw [tsParse_print hts]
  simp only []
  rw [show str (chars nm) = nm from str_chars nm]

theorem splitTop_join : ∀ (qs : List Param) (q : Param),
    (q :: qs).all wfParam = true →
    splitTopComma (joinParams (q :: qs)) 0 =
      paramPrint q :: qs.map (fun r => ' ' :: paramPrint r) := by
  intro qs
  induction qs with
  | nil =>
    intro q h
    simp only [List.all_cons, Bool.and_eq_true, List.all_nil, and_true] at h
    rw [show joinParams [q] = paramPrint q from rfl]
    rw [show splitTopComma (paramPrint q) 0 =
          splitTopComma (paramPrint q ++ []) 0 from by rw [List.append_nil]]
    rw [splitTop_param h [] 0]
    rw [show splitTopComma [] 0 = [[]] from rfl]
    simp [consAll]
  | cons r rs ih =>
    intro q h
    simp only [List.all_cons, Bool.and_eq_true] at h
    obtain ⟨hq, hr, hrs⟩ := h
    rw [show joinParams (q :: r :: rs) =
          paramPrint q ++ ',' :: ' ' :: joinParams (r :: rs) from rfl]
    rw [splitTop_param hq]
    rw [splitTopComma_cons]
    rw [if_pos (by decide)]
    rw [splitTopComma_cons]
    rw [if_neg (by decide), if_neg (by decide), if_neg (by decide)]
    rw [ih r (by simp [hr, hrs])]
    simp [consAll, consFirst]

theorem foldr_pieces {qs : List Param} (h : qs.all wfParam = true) :
    (qs.map (fun r => ' ' :: paramPrint r)).foldr
      (fun pc acc =>
        match acc, pieceParse pc with
        | some (ps, d), some (p, d2) => some (p :: ps, d || d2)
        | _, _ => none)
      (some ([], false)) = some (qs, false) := by
  induction qs with
  | nil => rfl
  | cons r rs ih =>
    simp only [List.all_cons, Bool.and_eq_true] at h
    simp only [List.map_cons, List.foldr_cons]
    rw [ih h.2]
    rw [pieceParse_print_sp h.1]
    rfl

theorem paramsParse_print {ps : List Param} (h : ps.all wfParam = true) :
    paramsParse (joinParams ps) = some (ps, false) := by
  cases ps with
  | nil => rfl
  | cons q qs =>
    simp only [List.all_cons, Bool.and_eq_true] at h
    obtain ⟨hq, hqs⟩ := h
    unfold paramsParse
    rw [if_neg (fun hh => by rw [joinParams_trimC_ne hq qs] at hh; cases hh)]
    rw [splitTop_join qs q (by simp [hq, hqs])]
    rw [List.foldr_cons]
    rw [foldr_pieces hqs]
    rw [pieceParse_print hq]
    rfl

theorem takeTsTags {rt : TypeSpec} (hrt : wfTS rt = true) (tags : List Tag) :
    takeWhileNotC [' '] (tsPrint rt ++ tagsPrint tags) =
      (tsPrint rt, tagsPrint tags) := by
  cases tags with
  | nil =>
    rw [show tagsPrint [] = [] from rfl, List.append_nil]
    exact takeWhileNotC_all (fun c hc => by
      simpa using tsPrint_ne hrt (by decide) (by decide) (by decide) (by decide)
        (by decide) c hc)
  | cons t ts =>
    have hform : tagsPrint (t :: ts) =
        ' ' :: ('[' :: (tagContent t ++ [']']) ++ tagsPrint ts) := by
      simp [tagsPrint, tagPrintC]
    rw [hform]
    exact takeWhileNotC_append_stop (fun c hc => by
      simpa using tsPrint_ne hrt (by decide) (by decide) (by decide) (by decide)
        (by decide) c hc) (by decide) _

theorem procFun_print (ln : Nat) (c : FormatConfig) (f : Func)
    (hf : wfFunc f = true) (st : PState) :
    procFun ln (funcLineC c f) st =
      .ok { st with funcs := st.funcs ++ [f] } := by
  obtain ⟨nm, ps, rt, tags⟩ := f
  simp only [wfFunc, Bool.and_eq_true] at hf
  obtain ⟨⟨⟨hnm, hps⟩, hrt⟩, htags⟩ := hf
  have hnm2 : identL (chars nm) = true := hnm
  unfold procFun
  have hdrop : listDrop 2 (funcLineC c ⟨nm, ps, rt, tags⟩) =
      chars nm ++ '(' :: (joinParams ps ++ [')'] ++
        ' ' :: (arrowC c ++ ' ' :: (tsPrint rt ++ tagsPrint tags))) := by
    rfl
  rw [hdrop]
  rw [takeWhileNotC_append_stop (ident_notin_stops hnm2 (by decide)) (by decide)]
  simp only []
  rw [if_pos hnm2]
  rw [show joinParams ps ++ [')'] ++
        ' ' :: (arrowC c ++ ' ' :: (tsPrint rt ++ tagsPrint tags)) =
      joinParams ps ++ ')' ::
        (' ' :: (arrowC c ++ ' ' :: (tsPrint rt ++ tagsPrint tags))) from by simp]
  rw [takeUntilChar_append (fun hm =>
    joinParams_ne hps (by decide) (by decide) (by decide) (by decide) (by decide)
      (by decide) (by decide) ')' hm rfl)]
  simp only []
  rw [paramsParse_print hps]
  simp only []
  rw [trimL_space]
  rcases htp : tsPrint rt with _ | ⟨x, xs⟩
  · cases tsPrint_ne_nil hrt htp
  have hx : x ≠ ' ' :=
    tsPrint_ne hrt (by decide) (by decide) (by decide) (by decide)
      (by decide) x (by rw [htp]; exact List.mem_cons_self _ _)
  rw [← htp]
  have hei : (tsPrint rt).isEmpty = false := isEmpty_false_of_ne_nil (tsPrint_ne_nil hrt)
  by_cases hpu : c.preferUnicode = true
  · rw [show arrowC c = ['→'] from by unfold arrowC; rw [if_pos hpu]]
    simp only [List.cons_append, List.nil_append]
    rw [trimL_noHead (by simp)]
    rw [show arrowLead ('→' :: (' ' :: (tsPrint rt ++ tagsPrint tags))) =
          some (' ' :: (tsPrint rt ++ tagsPrint tags)) from rfl]
    simp only []
    rw [trimL_space]
    rw [trimL_noHead (by rw [htp]; simp [hx])]
    rw [takeTsTags hrt tags]
    simp only []
    rw [if_neg (fun hh => by rw [hei] at hh; cases hh)]
    rw [parseTags_print htags]
    simp only []
    rw [tsParse_print hrt]
    simp only []
    rw [show str (chars nm) = nm from str_chars nm]
    simp
  · rw [show arrowC c = ['-', '>'] from by
      unfold arrowC
      rw [if_neg hpu]]
    simp only [List.cons_append, List.nil_append]
    rw [trimL_noHead (by simp)]
    rw [show arrowLead ('-' :: ('>' :: (' ' :: (tsPrint rt ++ tagsPrint tags)))) =
          some (' ' :: (tsPrint rt ++ tagsPrint tags)) from rfl]
    simp only []
    rw [trimL_space]
    rw [trimL_noHead (by rw [htp]; simp [hx])]
    rw [takeTsTags hrt tags]
    simp only []
    rw [if_neg (fun hh => by rw [hei] at hh; cases hh)]
    rw [parseTags_print htags]
    simp only []
    rw [tsParse_print hrt]
    simp only []
    rw [show str (chars nm) = nm from str_chars nm]
    simp

theorem procLine_fun (ln : Nat) (c : FormatConfig) (f : Func)
    (hf : wfFunc f = true) (st : PState) :
    procLine ln (funcLineC c f) st =
      .ok { closeCur st with funcs := (closeCur st).funcs ++ [f] } := by
  have hline : funcLineC c f =
      'F' :: (':' :: (chars f.name ++ '(' :: (joinParams f.params ++ [')'] ++
        ' ' :: (arrowC c ++ ' ' :: (tsPrint f.returnType ++ tagsPrint f.tags))))) := by
    unfold funcLineC funMarker tagsPrint
    simp
  have hblank : isBlankL (funcLineC c f) = false := by
    rw [hline]
    exact isBlankL_false (List.mem_cons_self _ _) (by decide)
  have hcomm : isCommentL (funcLineC c f) = false := by
    rw [hline]
    exact isCommentL_cons (by decide) (by decide) (by decide) _
  unfold procLine
  rw [hblank, hcomm]
  simp only [Bool.false_eq_true, if_false]
  rw [hline]
  simp only []
  rw [if_neg (by decide : ¬ ('F' : Char) = ' ')]
  have hent : listHasLead entMarker ('F' :: (':' :: (chars f.name ++ '(' ::
      (joinParams f.params ++ [')'] ++ ' ' :: (arrowC c ++
        ' ' :: (tsPrint f.returnType ++ tagsPrint f.tags)))))) = false := by
    simp [entMarker, listHasLead]
  rw [hent]
  simp only [Bool.false_eq_true, if_false]
  have hfun : listHasLead funMarker ('F' :: (':' :: (chars f.name ++ '(' ::
      (joinParams f.params ++ [')'] ++ ' ' :: (arrowC c ++
        ' ' :: (tsPrint f.returnType ++ tagsPrint f.tags)))))) = true := by
    simp [funMarker, listHasLead]
  rw [hfun]
  simp only [if_true]
  rw [← hline]
  exact procFun_print ln c f hf (closeCur st)

theorem findSub_cons (pat : List Char) (c : Char) (rest : List Char) :
    findSub pat (c :: rest) =
      if listHasLead pat (c :: rest) then some (listDrop pat.length (c :: rest))
      else findSub pat rest := rfl

theorem findSub_step {pat : List Char} {c : Char} {rest : List Char}
    (h : listHasLead pat (c :: rest) = false) :
    findSub pat (c :: rest) = findSub pat rest := by
  rw [findSub_cons, h]
  simp

theorem findSub_meta (r : List Char) :
    findSub metaMarker (metaMarker ++ r) = some r := by
  rw [show metaMarker ++ r = '[' :: ('M' :: (':' :: r)) from rfl]
  unfold findSub
  rw [if_pos (by exact listHasLead_append metaMarker r)]
  rfl

theorem findSub_role (r : List Char) :
    findSub roleMarker (roleMarker ++ r) = some r := by
  rw [show roleMarker ++ r =
        '[' :: ('R' :: ('o' :: ('l' :: ('e' :: (':' :: r))))) from rfl]
  unfold findSub
  rw [if_pos (by exact listHasLead_append roleMarker r)]
  rfl

theorem metaParse_print (md : Metadata)
    (h1 : identStr md.moduleName = true)
    (h2 : (match md.role with
           | none => true
           | some r => identStr r) = true) :
    metaParse (metaLineC md) = some md := by
  obtain ⟨mn, role⟩ := md
  have hmn : identL (chars mn) = true := h1
  cases role with
  | none =>
    have hline : metaLineC ⟨mn, none⟩ =
        '#' :: (' ' :: (metaMarker ++ (chars mn ++ [']']))) := by
      unfold metaLineC
      simp
    rw [hline]
    unfold metaParse
    have hs1 : findSub metaMarker
        ('#' :: (' ' :: (metaMarker ++ (chars mn ++ [']'])))) =
        findSub metaMarker (' ' :: (metaMarker ++ (chars mn ++ [']']))) :=
      findSub_step (by simp [metaMarker, listHasLead])
    have hs2 : findSub metaMarker (' ' :: (metaMarker ++ (chars mn ++ [']']))) =
        findSub metaMarker (metaMarker ++ (chars mn ++ [']'])) :=
      findSub_step (by simp [metaMarker, listHasLead])
    rw [hs1, hs2, findSub_meta]
    simp only []
    rw [show takeUntilChar ']' (chars mn ++ [']']) = some (chars mn, []) from
      takeUntilChar_append (identL_not_mem hmn (by decide)) []]
    simp only []
    rw [if_pos hmn]
    rw [show findSub roleMarker [] = none from rfl]
    rw [show str (chars mn) = mn from str_chars mn]
  | some r =>
    simp only [] at h2
    have hr : identL (chars r) = true := h2
    have hline : metaLineC ⟨mn, some r⟩ =
        '#' :: (' ' :: (metaMarker ++ (chars mn ++ ']' ::
          (' ' :: (roleMarker ++ (chars r ++ [']'])))))) := by
      unfold metaLineC
      simp
    rw [hline]
    unfold metaParse
    have hs1 : findSub metaMarker ('#' :: (' ' :: (metaMarker ++ (chars mn ++ ']' ::
        (' ' :: (roleMarker ++ (chars r ++ [']']))))))) =
        findSub metaMarker (' ' :: (metaMarker ++ (chars mn ++ ']' ::
          (' ' :: (roleMarker ++ (chars r ++ [']'])))))) :=
      findSub_step (by simp [metaMarker, listHasLead])
    have hs2 : findSub metaMarker (' ' :: (metaMarker ++ (chars mn ++ ']' ::
        (' ' :: (roleMarker ++ (chars r ++ [']'])))))) =
        findSub metaMarker (metaMarker ++ (chars mn ++ ']' ::
          (' ' :: (roleMarker ++ (chars r ++ [']']))))) :=
      findSub_step (by simp [metaMarker, listHasLead])
    rw [hs1, hs2, findSub_meta]
    simp only []
    rw [takeUntilChar_append (identL_not_mem hmn (by decide))]
    simp only []
    rw [if_pos hmn]
    have hs3 : findSub roleMarker (' ' :: (roleMarker ++ (chars r ++ [']']))) =
        findSub roleMarker (roleMarker ++ (chars r ++ [']'])) :=
      findSub_step (by simp [roleMarker, listHasLead])
    rw [hs3, findSub_role]
    simp only []
    rw [show takeUntilChar ']' (chars r ++ [']']) = some (chars r, []) from
      takeUntilChar_append (identL_not_mem hr (by decide)) []]
    simp only []
    rw [if_pos hr]
    rw [show str (chars mn) = mn from str_chars mn,
        show str (chars r) = r from str_chars r]

theorem findMeta_print (md : Metadata)
    (h1 : identStr md.moduleName = true)
    (h2 : (match md.role with
           | none => true
           | some r => identStr r) = true)
    (rest : List (List Char)) (ln : Nat) :
    findMeta (metaLineC md :: rest) ln = .ok (md, rest, ln + 1) := by
  have hline : ∃ t, metaLineC md = '#' :: (' ' :: t) := by
    unfold metaLineC
    exact ⟨_, rfl⟩
  obtain ⟨t, ht⟩ := hline
  have hblank : isBlankL (metaLineC md) = false := by
    rw [ht]
    exact isBlankL_false (List.mem_cons_self _ _) (by decide)
  have hcomm : isCommentL (metaLineC md) = true := by
    rw [ht]
    unfold isCommentL
    rw [trimL_noHead (by simp)]
    simp [listHasLead]
  unfold findMeta
  rw [hblank, hcomm]
  simp only [Bool.false_eq_true, if_false, if_true]
  rw [metaParse_print md h1 h2]

theorem procLines_cons (l : List Char) (ls : List (List Char)) (ln : Nat)
    (st : PState) :
    procLines (l :: ls) ln st =
      match procLine ln l st with
      | .error e => .error e
      | .ok st2 => procLines ls (ln + 1) st2 := rfl

theorem procLines_ok_cons {l : List Char} {ln : Nat} {st st2 : PState}
    (h : procLine ln l st = .ok st2) (ls : List (List Char)) :
    procLines (l :: ls) ln st = procLines ls (ln + 1) st2 := by
  rw [procLines_cons, h]

theorem closeCur_cur (st : PState) : (closeCur st).cur = none := by
  unfold closeCur
  rcases hc : st.cur with _ | a
  · exact hc
  · rfl

theorem closeCur_funcs (st : PState) : (closeCur st).funcs = st.funcs := by
  unfold closeCur
  rcases hc : st.cur with _ | a <;> rfl

theorem closeCur_diags (st : PState) : (closeCur st).diags = st.diags := by
  unfold closeCur
  rcases hc : st.cur with _ | a <;> rfl

theorem closeCur_none {st : PState} (h : st.cur = none) : closeCur st = st := by
  unfold closeCur
  rw [h]

theorem all_insertSV (p : StateVar → Bool) (a : StateVar) (l : List StateVar) :
    (insertSV a l).all p = (p a && l.all p) := by
  induction l with
  | nil => simp [insertSV]
  | cons b m ih =>
    unfold insertSV
    by_cases h : svLe a b = true
    · simp [h]
    · simp only [h, Bool.false_eq_true, if_false, List.all_cons, ih]
      cases p a <;> cases p b <;> simp

theorem all_sortSV (p : StateVar → Bool) (l : List StateVar) :
    (sortSV l).all p = l.all p := by
  induction l with
  | nil => rfl
  | cons a m ih => simp [sortSV, all_insertSV, ih]

theorem all_sortState (c : FormatConfig) (p : StateVar → Bool)
    (l : List StateVar) : (sortState c l).all p = l.all p := by
  unfold sortState
  rcases hsb : c.sortStateBy
  · rfl
  · exact all_sortSV p l
  · rfl

theorem procLines_deps (c : FormatConfig) (hind : 0 < c.indent)
    (deps : List String) :
    ∀ (hdeps : deps.all identStr = true) (rest : List (List Char)) (ln : Nat)
      (acc : EntAcc) (es : List Entity) (fs : List Func) (dg : List Diagnostic),
    procLines (deps.map (depLine c) ++ rest) ln ⟨es, some acc, fs, dg⟩ =
      procLines rest (ln + deps.length)
        ⟨es, some ⟨acc.name, acc.deps ++ deps, acc.svs⟩, fs, dg⟩ := by
  induction deps with
  | nil =>
    intro _ rest ln acc es fs dg
    simp
  | cons d ds ih =>
    intro hdeps rest ln acc es fs dg
    simp only [List.all_cons, Bool.and_eq_true] at hdeps
    rw [List.map_cons, List.cons_append]
    rw [procLines_ok_cons (procLine_dep ln c hind d hdeps.1 acc es fs dg)]
    rw [ih hdeps.2]
    rw [show ln + 1 + ds.length = ln + (d :: ds).length from by simp; omega]
    simp [List.append_assoc]

theorem procLines_svs (c : FormatConfig) (hind : 0 < c.indent) (w : Nat)
    (svs : List StateVar) :
    ∀ (hsvs : svs.all wfSV = true) (rest : List (List Char)) (ln : Nat)
      (acc : EntAcc) (es : List Entity) (fs : List Func) (dg : List Diagnostic),
    procLines (svs.map (svLine c w) ++ rest) ln ⟨es, some acc, fs, dg⟩ =
      procLines rest (ln + svs.length)
        ⟨es, some ⟨acc.name, acc.deps, acc.svs ++ svs⟩, fs, dg⟩ := by
  induction svs with
  | nil =>
    intro _ rest ln acc es fs dg
    simp
  | cons sv rest2 ih =>
    intro hsvs rest ln acc es fs dg
    simp only [List.all_cons, Bool.and_eq_true] at hsvs
    rw [List.map_cons, List.cons_append]
    rw [procLines_ok_cons (procLine_sv ln c hind w sv hsvs.1 acc es fs dg)]
    rw [ih hsvs.2]
    rw [show ln + 1 + rest2.length = ln + (sv :: rest2).length from by simp; omega]
    simp [List.append_assoc]

theorem procLines_entity (c : FormatConfig) (hind : 0 < c.indent)
    (e : Entity) (he : wfEntity e = true) (rest : List (List Char)) (ln : Nat)
    (st : PState) :
    procLines (entityLines c e ++ rest) ln st =
      procLines rest (ln + (entityLines c e).length)
        ⟨(closeCur st).ents, some (entAcc c e), (closeCur st).funcs,
          (closeCur st).diags⟩ := by
  obtain ⟨en, deps, svs⟩ := e
  simp only [wfEntity, Bool.and_eq_true] at he
  obtain ⟨⟨hen, hdeps⟩, hsvs⟩ := he
  rw [show entityLines c ⟨en, deps, svs⟩ = (entMarker ++ chars en ++ [']']) ::
        (deps.map (depLine c) ++ (sortState c svs).map
          (svLine c (if c.alignTypes then maxNameLen (sortState c svs) else 0)))
      from rfl]
  rw [List.cons_append]
  rw [procLines_ok_cons (procLine_header ln en hen st)]
  rw [show ({ closeCur st with cur := some ⟨en, [], []⟩ } : PState) =
        ⟨(closeCur st).ents, some ⟨en, [], []⟩, (closeCur st).funcs,
          (closeCur st).diags⟩ from rfl]
  rw [List.append_assoc]
  rw [procLines_deps c hind deps hdeps]
  rw [procLines_svs c hind _ (sortState c svs)
    (by rw [all_sortState]; exact hsvs)]
  rw [show ln + 1 + deps.length + (sortState c svs).length =
        ln + ((entMarker ++ chars en ++ [']']) ::
          (deps.map (depLine c) ++ (sortState c svs).map
            (svLine c (if c.alignTypes then maxNameLen (sortState c svs) else 0)))).length
      from by simp; omega]
  rw [show entAcc c ⟨en, deps, svs⟩ = ⟨en, deps, sortState c svs⟩ from rfl]
  simp

theorem procLines_funcs (c : FormatConfig) (f : Func) (fsl : List Func) :
    ∀ (hfs : (f :: fsl).all wfFunc = true) (ln : Nat) (st : PState),
    procLines ((f :: fsl).map (funcLineC c)) ln st =
      .ok { closeCur st with funcs := (closeCur st).funcs ++ (f :: fsl) } := by
  induction fsl generalizing f with
  | nil =>
    intro hfs ln st
    simp only [List.all_cons, Bool.and_eq_true, List.all_nil, and_true] at hfs
    rw [List.map_cons, List.map_nil]
    rw [procLines_ok_cons (procLine_fun ln c f hfs st)]
    rfl
  | cons g gs ih =>
    intro hfs ln st
    simp only [List.all_cons, Bool.and_eq_true] at hfs
    obtain ⟨hf, hg, hgs⟩ := hfs
    rw [List.map_cons]
    rw [procLines_ok_cons (procLine_fun ln c f hf st)]
    rw [ih g (by simp [hg, hgs]) (ln + 1) _]
    rw [closeCur_none (show ({ closeCur st with
          funcs := (closeCur st).funcs ++ [f] } : PState).cur = none from
        closeCur_cur st)]
    simp

theorem procLines_body (c : FormatConfig) (hind : 0 < c.indent)
    (ents : List Entity) (fsl : List Func) :
    ∀ (hents : ents.all wfEntity = true) (hfs : fsl.all wfFunc = true)
      (ln : Nat) (st : PState),
    ∃ st2, procLines ((ents.map (fun e => [] :: entityLines c e)).flatten ++
        (if fsl.isEmpty then [] else [] :: fsl.map (funcLineC c))) ln st = .ok st2 ∧
      (closeCur st2).ents = (closeCur st).ents ++ ents.map (roundEnt c) ∧
      (closeCur st2).funcs = st.funcs ++ fsl ∧
      (closeCur st2).diags = st.diags := by
  induction ents with
  | nil =>
    intro _ hfs ln st
    cases fsl with
    | nil =>
      refine ⟨st, ?_, by simp, by simp [closeCur_funcs], by simp [closeCur_diags]⟩
      rfl
    | cons f fs2 =>
      refine ⟨{ closeCur st with funcs := (closeCur st).funcs ++ (f :: fs2) },
        ?_, ?_, ?_, ?_⟩
      · simp only [List.map_nil, List.flatten_nil, List.nil_append,
          List.isEmpty_cons, Bool.false_eq_true, if_false]
        rw [procLines_ok_cons (procLine_blank ln st)]
        exact procLines_funcs c f fs2 hfs (ln + 1) st
      · rw [closeCur_none (show ({ closeCur st with
            funcs := (closeCur st).funcs ++ (f :: fs2) } : PState).cur = none from
          closeCur_cur st)]
        simp
      · rw [closeCur_none (show ({ closeCur st with
            funcs := (closeCur st).funcs ++ (f :: fs2) } : PState).cur = none from
          closeCur_cur st)]
        simp [closeCur_funcs]
      · rw [closeCur_none (show ({ closeCur st with
            funcs := (closeCur st).funcs ++ (f :: fs2) } : PState).cur = none from
          closeCur_cur st)]
        simp [closeCur_diags]
  | cons e es ih =>
    intro hents hfs ln st
    simp only [List.all_cons, Bool.and_eq_true] at hents
    obtain ⟨he, hes⟩ := hents
    rw [List.map_cons, List.flatten_cons]
    rw [List.cons_append, List.cons_append, List.append_assoc]
    rw [procLines_ok_cons (procLine_blank ln st)]
    rw [procLines_entity c hind e he _ (ln + 1) st]
    obtain ⟨st2, hrun, hents2, hfuncs2, hdiags2⟩ :=
      ih hes hfs (ln + 1 + (entityLines c e).length)
        ⟨(closeCur st).ents, some (entAcc c e), (closeCur st).funcs,
          (closeCur st).diags⟩
    refine ⟨st2, hrun, ?_, ?_, ?_⟩
    · rw [hents2]
      rw [show closeCur ⟨(closeCur st).ents, some (entAcc c e),
            (closeCur st).funcs, (closeCur st).diags⟩ =
          ⟨(closeCur st).ents ++ [roundEnt c e], none, (closeCur st).funcs,
            (closeCur st).diags⟩ from rfl]
      simp [roundEnt]
    · rw [hfuncs2]
      rw [show (⟨(closeCur st).ents, some (entAcc c e), (closeCur st).funcs,
            (closeCur st).diags⟩ : PState).funcs = (closeCur st).funcs from rfl]
      rw [closeCur_funcs]
    · rw [hdiags2]
      rw [show (⟨(closeCur st).ents, some (entAcc c e), (closeCur st).funcs,
            (closeCur st).diags⟩ : PState).diags = (closeCur st).diags from rfl]
      rw [closeCur_diags]

theorem sepC_no_nl (c : FormatConfig) : '\n' ∉ sepC c := by
  unfold sepC
  split <;> decide

theorem arrowC_no_nl (c : FormatConfig) : '\n' ∉ arrowC c := by
  unfold arrowC
  split <;> decide

theorem tagsPrint_no_nl {tags : List Tag} (htags : tags.all wfTag = true) :
    '\n' ∉ tagsPrint tags := by
  intro h
  unfold tagsPrint at h
  obtain ⟨l, hl, hnl⟩ := List.mem_flatten.mp h
  obtain ⟨t, ht, rfl⟩ := List.mem_map.mp hl
  have hwt : wfTag t = true := List.all_eq_true.mp htags t ht
  rcases List.mem_cons.mp hnl with he | h2
  · cases he
  · unfold tagPrintC at h2
    rcases List.mem_cons.mp h2 with he | h3
    · cases he
    · rcases List.mem_append.mp h3 with h4 | h5
      · exact (tagContent_ok hwt '\n' h4).2 rfl
      · rcases List.mem_cons.mp h5 with he | h6
        · cases he
        · cases h6

theorem not_mem_append {c : Char} {a b : List Char} (ha : c ∉ a)
    (hb : c ∉ b) : c ∉ a ++ b :=
  fun h => (List.mem_append.mp h).elim ha hb

theorem not_mem_cons {c d : Char} {xs : List Char} (h1 : c ≠ d)
    (h2 : c ∉ xs) : c ∉ d :: xs := by
  intro h
  rcases List.mem_cons.mp h with he | hm
  · exact h1 he
  · exact h2 hm

theorem not_mem_ts {T : TypeSpec} (h : wfTS T = true) : '\n' ∉ tsPrint T :=
  fun hm => tsPrint_ne h (by decide) (by decide) (by decide) (by decide)
    (by decide) '\n' hm rfl

theorem not_mem_rep (k : Nat) : '\n' ∉ List.replicate k ' ' := by
  simp [List.mem_replicate]

theorem metaLineC_no_nl (md : Metadata) (h1 : identStr md.moduleName = true)
    (h2 : (match md.role with
           | none => true
           | some r => identStr r) = true) :
    '\n' ∉ metaLineC md := by
  obtain ⟨mn, role⟩ := md
  have hmn : identL (chars mn) = true := h1
  cases role with
  | none =>
    rw [show metaLineC ⟨mn, none⟩ =
        '#' :: (' ' :: (metaMarker ++ (chars mn ++ [']']))) from by
      unfold metaLineC; simp]
    exact not_mem_cons (by decide) (not_mem_cons (by decide)
      (not_mem_append (by decide)
        (not_mem_append (identL_not_mem hmn (by decide)) (by decide))))
  | some r =>
    simp only [] at h2
    have hr : identL (chars r) = true := h2
    rw [show metaLineC ⟨mn, some r⟩ =
        '#' :: (' ' :: (metaMarker ++ (chars mn ++ ']' ::
          (' ' :: (roleMarker ++ (chars r ++ [']'])))))) from by
      unfold metaLineC; simp]
    exact not_mem_cons (by decide) (not_mem_cons (by decide)
      (not_mem_append (by decide)
        (not_mem_append (identL_not_mem hmn (by decide))
          (not_mem_cons (by decide) (not_mem_cons (by decide)
            (not_mem_append (by decide)
              (not_mem_append (identL_not_mem hr (by decide)) (by decide))))))))

theorem entityLines_no_nl (c : FormatConfig) (e : Entity)
    (he : wfEntity e = true) : ∀ l ∈ entityLines c e, '\n' ∉ l := by
  obtain ⟨en, deps, svs⟩ := e
  simp only [wfEntity, Bool.and_eq_true] at he
  obtain ⟨⟨hen, hdeps⟩, hsvs⟩ := he
  have hen2 : identL (chars en) = true := hen
  intro l hl
  rcases List.mem_cons.mp hl with rfl | h2
  · exact not_mem_append
      (not_mem_append (by decide) (identL_not_mem hen2 (by decide))) (by decide)
  · rcases List.mem_append.mp h2 with h3 | h4
    · obtain ⟨n, hn, rfl⟩ := List.mem_map.mp h3
      have hn2 : identL (chars n) = true := List.all_eq_true.mp hdeps n hn
      unfold depLine
      exact not_mem_append
        (not_mem_append (not_mem_append (not_mem_rep _) (by decide))
          (identL_not_mem hn2 (by decide))) (by decide)
    · obtain ⟨sv, hsv, rfl⟩ := List.mem_map.mp h4
      have hsv2 : wfSV sv = true :=
        List.all_eq_true.mp ((all_sortState c wfSV svs).symm ▸ hsvs) sv hsv
      obtain ⟨nm, ts⟩ := sv
      simp only [wfSV, Bool.and_eq_true] at hsv2
      obtain ⟨hnm, hts⟩ := hsv2
      have hnm2 : identL (chars nm) = true := hnm
      unfold svLine
      exact not_mem_append
        (not_mem_append
          (not_mem_append (not_mem_rep _) (identL_not_mem hnm2 (by decide)))
          (not_mem_rep _))
        (not_mem_cons (by decide)
          (not_mem_append (sepC_no_nl c)
            (not_mem_cons (by decide) (not_mem_ts hts))))

theorem funcLineC_no_nl (c : FormatConfig) (f : Func)
    (hf : wfFunc f = true) : '\n' ∉ funcLineC c f := by
  obtain ⟨nm, ps, rt, tags⟩ := f
  simp only [wfFunc, Bool.and_eq_true] at hf
  obtain ⟨⟨⟨hnm, hps⟩, hrt⟩, htags⟩ := hf
  have hnm2 : identL (chars nm) = true := hnm
  have hjp : '\n' ∉ joinParams ps := fun hm =>
    joinParams_ne hps (by decide) (by decide) (by decide) (by decide)
      (by decide) (by decide) (by decide) '\n' hm rfl
  rw [show funcLineC c ⟨nm, ps, rt, tags⟩ =
      funMarker ++ (chars nm ++ '(' :: (joinParams ps ++ ([')'] ++
        ' ' :: (arrowC c ++ ' ' :: (tsPrint rt ++ tagsPrint tags))))) from by
    unfold funcLineC tagsPrint; simp]
  exact not_mem_append (by decide)
    (not_mem_append (identL_not_mem hnm2 (by decide))
      (not_mem_cons (by decide)
        (not_mem_append hjp
          (not_mem_cons (by decide)
            (not_mem_cons (by decide)
              (not_mem_append (arrowC_no_nl c)
                (not_mem_cons (by decide)
                  (not_mem_append (not_mem_ts hrt)
                    (tagsPrint_no_nl htags)))))))))

theorem docLines_no_nl (D : Document) (c : FormatConfig)
    (hwf : wfDoc D = true) : ∀ l ∈ docLines D c, '\n' ∉ l := by
  obtain ⟨md, ents, fns, dgs⟩ := D
  simp only [wfDoc, Bool.and_eq_true] at hwf
  obtain ⟨⟨⟨hmn, hrole⟩, hents⟩, hfns⟩ := hwf
  intro l hl
  unfold docLines at hl
  rcases List.mem_cons.mp hl with rfl | h2
  · exact metaLineC_no_nl md hmn hrole
  · rcases List.mem_append.mp h2 with h3 | h4
    · obtain ⟨bl, hbl, hlbl⟩ := List.mem_flatten.mp h3
      obtain ⟨e, he, rfl⟩ := List.mem_map.mp hbl
      rcases List.mem_cons.mp hlbl with rfl | h5
      · intro h
        cases h
      · exact entityLines_no_nl c e (List.all_eq_true.mp hents e he) l h5
    · rcases hfe : fns.isEmpty with _ | _
      · rw [hfe] at h4
        simp only [Bool.false_eq_true, if_false] at h4
        rcases List.mem_cons.mp h4 with rfl | h5
        · intro h
          cases h
        · obtain ⟨f, hfm, rfl⟩ := List.mem_map.mp h5
          exact funcLineC_no_nl c f (List.all_eq_true.mp hfns f hfm)
      · rw [hfe] at h4
        simp only [if_true] at h4
        cases h4

theorem parse_print (D : Document) (c : FormatConfig) (hind : 0 < c.indent)
    (hwf : wfDoc D = true) :
    parse (formatDoc D c) = .ok (roundDoc c D) := by
  have hnl := docLines_no_nl D c hwf
  obtain ⟨md, ents, fns, dgs⟩ := D
  simp only [wfDoc, Bool.and_eq_true] at hwf
  obtain ⟨⟨⟨hmn, hrole⟩, hents⟩, hfns⟩ := hwf
  unfold parse formatDoc
  rw [chars_str]
  rw [splitChar_join (by
      unfold docLines
      simp)
    (fun p hp hm => hnl p hp hm)]
  rw [show docLines ⟨md, ents, fns, dgs⟩ c =
      metaLineC md :: ((ents.map (fun e => [] :: entityLines c e)).flatten ++
        (if fns.isEmpty then [] else [] :: fns.map (funcLineC c))) from rfl]
  rw [findMeta_print md hmn hrole]
  simp only []
  obtain ⟨st2, hrun, hE, hF, hG⟩ :=
    procLines_body c hind ents fns hents hfns 2 ⟨[], none, [], []⟩
  rw [hrun]
  simp only []
  rw [hE, hF, hG]
  unfold roundDoc roundEnt
  simp [closeCur]

theorem insertSV_cons (a b : StateVar) (l : List StateVar) :
    insertSV a (b :: l) =
      if svLe a b then a :: b :: l else b :: insertSV a l := rfl

theorem chain_insertSV (a : StateVar) :
    ∀ (l : List StateVar),
    List.Chain' (fun x y => svLe x y = true) l →
    List.Chain' (fun x y => svLe x y = true) (insertSV a l) ∧
    (∀ z, (insertSV a l).head? = some z → z = a ∨ l.head? = some z) := by
  intro l
  induction l with
  | nil =>
    intro _
    constructor
    · simp [insertSV]
    · intro z hz
      simp [insertSV] at hz
      exact Or.inl hz.symm
  | cons b m ih =>
    intro h
    by_cases hle : svLe a b = true
    · rw [insertSV_cons, if_pos hle]
      constructor
      · exact List.chain'_cons.mpr ⟨hle, h⟩
      · intro z hz
        simp at hz
        exact Or.inl hz.symm
    · rw [insertSV_cons, if_neg hle]
      obtain ⟨hc, hh⟩ := ih h.tail
      constructor
      · apply List.chain'_cons'.mpr
        refine ⟨?_, hc⟩
        intro y hy
        rcases hh y hy with rfl | hym
        · unfold svLe
          rcases charsLe_total (chars b.name) (chars y.name) with h1 | h1
          · exact h1
          · exact absurd h1 hle
        · exact (List.chain'_cons'.mp h).1 y hym
      · intro z hz
        simp at hz
        exact Or.inr (by simp [hz])

theorem sortSV_chain (l : List StateVar) :
    List.Chain' (fun x y => svLe x y = true) (sortSV l) := by
  induction l with
  | nil => simp [sortSV]
  | cons a m ih => exact (chain_insertSV a (sortSV m) ih).1

theorem sortSV_sorted_id :
    ∀ {l : List StateVar}, List.Chain' (fun x y => svLe x y = true) l →
    sortSV l = l := by
  intro l
  induction l with
  | nil => intro _; rfl
  | cons a m ih =>
    intro h
    rw [show sortSV (a :: m) = insertSV a (sortSV m) from rfl]
    rw [ih h.tail]
    cases m with
    | nil => rfl
    | cons b m2 =>
      have hab : svLe a b = true := (List.chain'_cons.mp h).1
      rw [insertSV_cons, if_pos hab]

theorem sortSV_idem (l : List StateVar) : sortSV (sortSV l) = sortSV l :=
  sortSV_sorted_id (sortSV_chain l)

theorem sortState_idem (c : FormatConfig) (l : List StateVar) :
    sortState c (sortState c l) = sortState c l := by
  unfold sortState
  rcases hsb : c.sortStateBy
  · rfl
  · exact sortSV_idem l
  · rfl

theorem entityLines_round (c : FormatConfig) (e : Entity) :
    entityLines c ⟨e.name, e.dependencies, sortState c e.state⟩ =
      entityLines c e := by
  unfold entityLines
  simp [sortState_idem]

theorem formatDoc_round (D : Document) (c : FormatConfig) :
    formatDoc (roundDoc c D) c = formatDoc D c := by
  unfold formatDoc
  congr 1
  unfold docLines roundDoc
  simp only [List.map_map, Function.comp_def]
  congr 1
  simp [entityLines_round]

theorem structEq_round (D : Document) (c : FormatConfig)
    (h : c.sortStateBy ≠ SortBy.name) : structEq (roundDoc c D) D = true := by
  unfold structEq roundDoc sortState
  rcases hsb : c.sortStateBy
  · simp
  · cases h hsb
  · simp

theorem splitChar_cons (sep c : Char) (rest : List Char) :
    splitChar sep (c :: rest) =
      if c = sep then [] :: splitChar sep rest
      else
        match splitChar sep rest with
        | [] => [[c]]
        | p :: ps => (c :: p) :: ps := rfl

theorem splitChar_pieces {sep : Char} : ∀ {cs p : List Char},
    p ∈ splitChar sep cs → sep ∉ p ∧ ∀ c ∈ p, c ∈ cs := by
  intro cs
  induction cs with
  | nil =>
    intro p hp
    simp [splitChar] at hp
    subst hp
    exact ⟨by simp, by simp⟩
  | cons c rest ih =>
    intro p hp
    by_cases hc : c = sep
    · rw [splitChar_cons, if_pos hc] at hp
      rcases List.mem_cons.mp hp with rfl | h2
      · exact ⟨by simp, by simp⟩
      · obtain ⟨h3, h4⟩ := ih h2
        exact ⟨h3, fun x hx => List.mem_cons_of_mem c (h4 x hx)⟩
    · rw [splitChar_cons, if_neg hc] at hp
      rcases hs : splitChar sep rest with _ | ⟨p1, ps⟩
      · cases splitChar_ne_nil sep rest hs
      · rw [hs] at hp
        simp only [] at hp
        rcases List.mem_cons.mp hp with rfl | h2
        · obtain ⟨h3, h4⟩ := ih (by rw [hs]; exact List.mem_cons_self p1 ps)
          constructor
          · exact not_mem_cons (fun he => hc he.symm) h3
          · intro x hx
            rcases List.mem_cons.mp hx with rfl | h5
            · exact List.mem_cons_self _ _
            · exact List.mem_cons_of_mem c (h4 x h5)
        · obtain ⟨h3, h4⟩ := ih (by rw [hs]; exact List.mem_cons_of_mem p1 h2)
          exact ⟨h3, fun x hx => List.mem_cons_of_mem c (h4 x hx)⟩

theorem splitChar_singleton {sep : Char} : ∀ {cs p : List Char},
    splitChar sep cs = [p] → cs = p := by
  intro cs
  induction cs with
  | nil =>
    intro p h
    simp [splitChar] at h
    exact h.symm
  | cons c rest ih =>
    intro p h
    by_cases hc : c = sep
    · rw [splitChar_cons, if_pos hc] at h
      obtain ⟨h1, h2⟩ := List.cons.injEq _ _ _ _ ▸ h
      cases splitChar_ne_nil sep rest h2
    · rw [splitChar_cons, if_neg hc] at h
      rcases hs : splitChar sep rest with _ | ⟨p1, ps⟩
      · cases splitChar_ne_nil sep rest hs
      · rw [hs] at h
        simp only [] at h
        obtain ⟨h1, h2⟩ := List.cons.injEq _ _ _ _ ▸ h
        subst h2
        rw [ih hs]
        exact h1

theorem splitTagContent_parts : ∀ {cs content rem : List Char},
    splitTagContent cs = some (content, rem) →
    (∀ c ∈ content, c ∈ cs) ∧ (∀ c ∈ rem, c ∈ cs) ∧ ']' ∉ content := by
  intro cs
  induction cs with
  | nil => intro content rem h; cases h
  | cons c rest ih =>
    intro content rem h
    unfold splitTagContent at h
    by_cases hc : c = ']'
    · rw [if_pos hc] at h
      obtain ⟨rfl, rfl⟩ : ([] : List Char) = content ∧ rest = rem := by
        simpa using h
      exact ⟨fun x hx => absurd hx (List.not_mem_nil x),
        fun x hx => List.mem_cons_of_mem c hx, List.not_mem_nil ']'⟩
    · rw [if_neg hc] at h
      rcases hs : splitTagContent rest with _ | ⟨p1, p2⟩
      · rw [hs] at h
        cases h
      · rw [hs] at h
        simp only [Option.map] at h
        obtain ⟨rfl, rfl⟩ : c :: p1 = content ∧ p2 = rem := by simpa using h
        obtain ⟨ha, hb, hcc⟩ := ih hs
        refine ⟨?_, fun x hx => List.mem_cons_of_mem c (hb x hx), ?_⟩
        · intro x hx
          rcases List.mem_cons.mp hx with rfl | h2
          · exact List.mem_cons_self _ _
          · exact List.mem_cons_of_mem c (ha x h2)
        · intro hx
          rcases List.mem_cons.mp hx with he | h2
          · exact hc he.symm
          · exact hcc h2

theorem mem_listDrop : ∀ {n : Nat} {cs : List Char} {c : Char},
    c ∈ listDrop n cs → c ∈ cs := by
  intro n
  induction n with
  | zero => intro cs c h; exact h
  | succ m ih =>
    intro cs c h
    cases cs with
    | nil => cases h
    | cons a rest => exact List.mem_cons_of_mem a (ih h)

theorem mem_takeWhileNotC : ∀ {stops cs a b : List Char},
    takeWhileNotC stops cs = (a, b) →
    (∀ c ∈ a, c ∈ cs) ∧ (∀ c ∈ b, c ∈ cs) := by
  intro stops cs
  induction cs with
  | nil =>
    intro a b h
    unfold takeWhileNotC at h
    obtain ⟨rfl, rfl⟩ : ([] : List Char) = a ∧ ([] : List Char) = b := by
      simpa using h
    simp
  | cons c rest ih =>
    intro a b h
    unfold takeWhileNotC at h
    by_cases hc : c ∈ stops
    · rw [if_pos hc] at h
      obtain ⟨rfl, rfl⟩ : ([] : List Char) = a ∧ c :: rest = b := by simpa using h
      exact ⟨by simp, fun x hx => hx⟩
    · rw [if_neg hc] at h
      rcases hs : takeWhileNotC stops rest with ⟨a2, b2⟩
      rw [hs] at h
      simp only [] at h
      obtain ⟨rfl, rfl⟩ : c :: a2 = a ∧ b2 = b := by simpa using h
      obtain ⟨h1, h2⟩ := ih hs
      refine ⟨?_, fun x hx => List.mem_cons_of_mem c (h2 x hx)⟩
      intro x hx
      rcases List.mem_cons.mp hx with rfl | h3
      · exact List.mem_cons_self _ _
      · exact List.mem_cons_of_mem c (h1 x h3)

theorem mem_takeUntilChar : ∀ {stop : Char} {cs a b : List Char},
    takeUntilChar stop cs = some (a, b) →
    (∀ c ∈ a, c ∈ cs) ∧ (∀ c ∈ b, c ∈ cs) := by
  intro stop cs
  induction cs with
  | nil => intro a b h; cases h
  | cons c rest ih =>
    intro a b h
    unfold takeUntilChar at h
    by_cases hc : c = stop
    · rw [if_pos hc] at h
      obtain ⟨rfl, rfl⟩ : ([] : List Char) = a ∧ rest = b := by simpa using h
      exact ⟨by simp, fun x hx => List.mem_cons_of_mem c hx⟩
    · rw [if_neg hc] at h
      rcases hs : takeUntilChar stop rest with _ | ⟨p⟩
      · rw [hs] at h
        cases h
      · rw [hs] at h
        simp only [Option.map] at h
        obtain ⟨rfl, rfl⟩ : c :: p.1 = a ∧ p.2 = b := by
          rcases p with ⟨p1, p2⟩
          simpa using h
        obtain ⟨h1, h2⟩ := ih hs
        refine ⟨?_, fun x hx => List.mem_cons_of_mem c (h2 x hx)⟩
        intro x hx
        rcases List.mem_cons.mp hx with rfl | h3
        · exact List.mem_cons_self _ _
        · exact List.mem_cons_of_mem c (h1 x h3)

theorem mem_trimL2 : ∀ {cs : List Char} {c : Char}, c ∈ trimL cs → c ∈ cs := by
  intro cs
  induction cs with
  | nil => intro c h; cases h
  | cons a rest ih =>
    intro c h
    unfold trimL at h
    by_cases ha : a = ' '
    · rw [if_pos ha] at h
      exact List.mem_cons_of_mem a (ih h)
    · rw [if_neg ha] at h
      exact h

theorem mem_arrowLead : ∀ {cs r : List Char}, arrowLead cs = some r →
    ∀ c ∈ r, c ∈ cs := by
  intro cs r h
  unfold arrowLead at h
  cases cs with
  | nil => cases h
  | cons c rest =>
    simp only [] at h
    by_cases hc : c = '→'
    · rw [if_pos hc] at h
      obtain rfl : rest = r := by simpa using h
      exact fun x hx => List.mem_cons_of_mem c hx
    · rw [if_neg hc] at h
      by_cases hd : c = '-'
      · rw [if_pos hd] at h
        cases rest with
        | nil => cases h
        | cons c2 r2 =>
          simp only [] at h
          by_cases he : c2 = '>'
          · rw [if_pos he] at h
            obtain rfl : r2 = r := by simpa using h
            exact fun x hx =>
              List.mem_cons_of_mem c (List.mem_cons_of_mem c2 hx)
          · rw [if_neg he] at h
            cases h
      · rw [if_neg hd] at h
        cases h

theorem pieceParse_wf {pc : List Char} {p : Param} {d : Bool}
    (h : pieceParse pc = some (p, d)) : wfParam p = true := by
  unfold pieceParse at h
  rcases ht : takeUntilChar ':' pc with _ | ⟨nraw, rest⟩
  · rw [ht] at h
    cases h
  · rw [ht] at h
    simp only [] at h
    by_cases hc : (identL (trimC nraw) && !(trimC rest).isEmpty &&
        (trimC rest).all (fun c => c ≠ ' ')) = true
    · rw [if_pos hc] at h
      simp only [Bool.and_eq_true] at hc
      rcases hts : tsParse (trimC rest) with _ | ts
      · rw [hts] at h
        obtain ⟨rfl, rfl⟩ :
            (⟨str (trimC nraw), unknownTS⟩ : Param) = p ∧ true = d := by
          simpa using h
        simp only [wfParam, Bool.and_eq_true]
        exact ⟨hc.1.1, wfTS_unknown⟩
      · rw [hts] at h
        obtain ⟨rfl, rfl⟩ :
            (⟨str (trimC nraw), ts⟩ : Param) = p ∧ false = d := by
          simpa using h
        simp only [wfParam, Bool.and_eq_true]
        exact ⟨hc.1.1, tsParse_wf hts⟩
    · rw [if_neg hc] at h
      cases h

theorem pieces_fold_wf : ∀ (L : List (List Char)) {ps : List Param} {d : Bool},
    L.foldr
      (fun pc acc =>
        match acc, pieceParse pc with
        | some (ps, d), some (p, d2) => some (p :: ps, d || d2)
        | _, _ => none)
      (some ([], false)) = some (ps, d) →
    ps.all wfParam = true := by
  intro L
  induction L with
  | nil =>
    intro ps d h
    simp only [List.foldr_nil] at h
    obtain ⟨rfl, rfl⟩ : ([] : List Param) = ps ∧ false = d := by simpa using h
    rfl
  | cons pc L2 ih =>
    intro ps d h
    rw [List.foldr_cons] at h
    generalize hT : L2.foldr
      (fun pc acc =>
        match acc, pieceParse pc with
        | some (ps, d), some (p, d2) => some (p :: ps, d || d2)
        | _, _ => none)
      (some ([], false)) = T at h
    rcases T with _ | ⟨ps2, d2⟩
    · rcases hP : pieceParse pc with _ | q <;> rw [hP] at h <;>
        simp only [] at h <;> cases h
    · rcases hP : pieceParse pc with _ | ⟨p, d3⟩
      · rw [hP] at h
        simp only [] at h
        cases h
      · rw [hP] at h
        simp only [] at h
        obtain ⟨rfl, rfl⟩ : p :: ps2 = ps ∧ (d2 || d3) = d := by simpa using h
        simp only [List.all_cons, Bool.and_eq_true]
        exact ⟨pieceParse_wf hP, ih hT⟩

theorem paramsParse_wf {cs : List Char} {ps : List Param} {d : Bool}
    (h : paramsParse cs = some (ps, d)) : ps.all wfParam = true := by
  unfold paramsParse at h
  by_cases he : (trimC cs).isEmpty = true
  · rw [if_pos he] at h
    obtain ⟨rfl, rfl⟩ : ([] : List Param) = ps ∧ false = d := by simpa using h
    rfl
  · rw [if_neg he] at h
    exact pieces_fold_wf _ h

theorem routeTry_decomp {m : String} {cs : List Char} {mv pv : String}
    (h : routeTry m cs = some (mv, pv)) :
    mv = m ∧ leadSlash pv = true ∧ cs = chars mv ++ chars pv := by
  unfold routeTry at h
  by_cases hl : listHasLead (chars m) cs = true
  · rw [if_pos hl] at h
    rcases hd : listDrop (chars m).length cs with _ | ⟨c, rest⟩ <;> rw [hd] at h
    · cases h
    · simp only [] at h
      by_cases hc : c = '/'
      · rw [if_pos hc] at h
        obtain ⟨rfl, rfl⟩ : m = mv ∧ str (c :: rest) = pv := by simpa using h
        refine ⟨rfl, ?_, ?_⟩
        · unfold leadSlash
          rw [chars_str]
          simp [hc]
        · have h2 := listHasLead_decomp hl
          rw [hd] at h2
          rw [h2]
          rfl
      · rw [if_neg hc] at h
        cases h
  · rw [if_neg hl] at h
    cases h

theorem routeSplit_decomp {cs : List Char} {mv pv : String}
    (h : routeSplit cs = some (mv, pv)) :
    mv ∈ httpMethods ∧ leadSlash pv = true ∧ cs = chars mv ++ chars pv := by
  unfold routeSplit at h
  rcases hg : routeTry "GET" cs with _ | r
  · rw [hg] at h
    rcases hp : routeTry "POST" cs with _ | r
    · rw [hp] at h
      rcases hu : routeTry "PUT" cs with _ | r
      · rw [hu] at h
        rcases hd : routeTry "DELETE" cs with _ | r
        · rw [hd] at h
          obtain ⟨h1, h2, h3⟩ := routeTry_decomp h
          exact ⟨by simp [httpMethods, h1], h2, h3⟩
        · rw [hd] at h
          obtain ⟨rfl⟩ := h
          obtain ⟨h1, h2, h3⟩ := routeTry_decomp hd
          exact ⟨by simp [httpMethods, h1], h2, h3⟩
      · rw [hu] at h
        obtain ⟨rfl⟩ := h
        obtain ⟨h1, h2, h3⟩ := routeTry_decomp hu
        exact ⟨by simp [httpMethods, h1], h2, h3⟩
    · rw [hp] at h
      obtain ⟨rfl⟩ := h
      obtain ⟨h1, h2, h3⟩ := routeTry_decomp hp
      exact ⟨by simp [httpMethods, h1], h2, h3⟩
  · rw [hg] at h
    obtain ⟨rfl⟩ := h
    obtain ⟨h1, h2, h3⟩ := routeTry_decomp hg
    exact ⟨by simp [httpMethods, h1], h2, h3⟩

theorem str_eq_empty {p : List Char} (h : str p = "") : p = [] := by
  have : chars (str p) = chars "" := by rw [h]
  simpa using this

theorem classifyFrags_wf {content : List Char} {t : Tag}
    (hnb : ']' ∉ content) (hnn : '\n' ∉ content) (hne : content ≠ [])
    (h : classifyFrags ((splitChar ':' content).map str) = .ok t) :
    wfTag t = true := by
  rcases hsp : splitChar ':' content with _ | ⟨p0, ps⟩
  · cases splitChar_ne_nil ':' content hsp
  · rw [hsp, List.map_cons] at h
    unfold classifyFrags at h
    simp only [] at h
    have hfragsub : ∀ q ∈ splitChar ':' content, fragOk (str q) = true := by
      intro q hq
      obtain ⟨hq1, hq2⟩ := splitChar_pieces hq
      unfold fragOk fragOkL
      rw [chars_str]
      rw [List.all_eq_true]
      intro x hx
      simp only [Bool.and_eq_true, decide_eq_true_eq]
      exact ⟨⟨fun he => hq1 (he ▸ hx), fun he => hnb (he ▸ hq2 x hx)⟩,
        fun he => hnn (he ▸ hq2 x hx)⟩
    have hp0 : fragOk (str p0) = true :=
      hfragsub p0 (by rw [hsp]; exact List.mem_cons_self _ _)
    have hps : (ps.map str).all fragOk = true := by
      rw [List.all_eq_true]
      intro f hf
      obtain ⟨q, hq, rfl⟩ := List.mem_map.mp hf
      exact hfragsub q (by rw [hsp]; exact List.mem_cons_of_mem p0 hq)
    by_cases hcx : isComplexityPattern (str p0) = true
    · rw [if_pos hcx] at h
      unfold Tag.make at h
      rw [if_pos hcx] at h
      obtain rfl : (⟨str p0, [], .complexity, none, none⟩ : Tag) = t := by
        simpa using h
      simp [wfTag, hp0, hcx]
    · rw [if_neg hcx] at h
      rcases hrt : routeSplit (chars (str p0)) with _ | ⟨m2, p2⟩ <;> rw [hrt] at h
      · simp only [] at h
        by_cases hdv : str p0 ∈ decoratorVocab
        · rw [if_pos hdv] at h
          unfold Tag.make at h
          rw [if_pos hdv] at h
          obtain rfl : (⟨str p0, ps.map str, .decorator, none, none⟩ : Tag) = t := by
            simpa using h
          simp [wfTag, hdv, hps]
        · rw [if_neg hdv] at h
          unfold Tag.make at h
          obtain rfl : (⟨str p0, ps.map str, .operation, none, none⟩ : Tag) = t := by
            simpa using h
          have hcx2 : isComplexityPattern (str p0) = false :=
            Bool.eq_false_iff.mpr hcx
          have hdv2 : decide (str p0 ∈ decoratorVocab) = false :=
            decide_eq_false hdv
          have hne2 : (decide (str p0 = "") && (List.map str ps).isEmpty) = false := by
            cases ps with
            | cons q qs => simp
            | nil =>
              have hc2 : content = p0 := splitChar_singleton hsp
              have h6 : ¬ (str p0 = "") :=
                fun he => hne (by rw [hc2]; exact str_eq_empty he)
              simp [h6]
          have hrt2 : routeSplit p0 = none := by
            rw [← chars_str p0]
            exact hrt
          simp [wfTag, hp0, hps, hcx2, hrt2, hdv2, hne2]
      · simp only [] at h
        unfold Tag.make at h
        simp only [] at h
        obtain ⟨hmem, hlead, hdec⟩ := routeSplit_decomp hrt
        rw [if_pos hmem, if_pos hlead] at h
        obtain rfl : (⟨str p0, [], .httpRoute, some m2, some p2⟩ : Tag) = t := by
          simpa using h
        have hp2sub : fragOk p2 = true := by
          unfold fragOk fragOkL
          rw [List.all_eq_true]
          intro x hx
          have hxp0 : x ∈ p0 := by
            have : chars (str p0) = p0 := chars_str p0
            rw [this] at hdec
            rw [hdec]
            exact List.mem_append.mpr (Or.inr hx)
          have := hfragsub p0 (by rw [hsp]; exact List.mem_cons_self _ _)
          unfold fragOk fragOkL at this
          rw [chars_str, List.all_eq_true] at this
          exact this x hxp0
        have hbase : str p0 = m2 ++ p2 := by
          have h5 : chars (str p0) = p0 := chars_str p0
          rw [h5] at hdec
          rw [show str p0 = str p0 from rfl]
          calc str p0 = str (chars m2 ++ chars p2) := by rw [← hdec]
            _ = m2 ++ p2 := by rw [str_append_chars, str_chars, str_chars]
        simp only [wfTag]
        simp only [Bool.and_eq_true, decide_eq_true_eq, List.isEmpty_nil]
        exact ⟨⟨⟨⟨hmem, hlead⟩, hp2sub⟩, trivial⟩, hbase⟩

theorem except_ok_inj {α ε : Type} {a b : α}
    (h : (Except.ok a : Except ε α) = Except.ok b) : a = b := by
  cases h
  rfl

theorem parseTagsF_cons (f : Nat) (c : Char) (rest : List Char) :
    parseTagsF (f + 1) (c :: rest) =
      if c = ' ' then parseTagsF f rest
      else if c = '[' then
        match splitTagContent rest with
        | none => .error "Unterminated tag"
        | some (content, rem) =>
          if content.isEmpty then .error "Empty tag"
          else
            match classifyFrags ((splitChar ':' content).map str) with
            | .error e => .error e
            | .ok t => (parseTagsF f rem).map (fun ts => t :: ts)
      else .ok [] := rfl

theorem parseTagsF_wf : ∀ (fuel : Nat) {cs : List Char} {tags : List Tag},
    '\n' ∉ cs → parseTagsF fuel cs = .ok tags → tags.all wfTag = true := by
  intro fuel
  induction fuel with
  | zero =>
    intro cs tags _ h
    obtain rfl : ([] : List Tag) = tags := except_ok_inj h
    rfl
  | succ f ih =>
    intro cs tags hnn h
    cases cs with
    | nil =>
      obtain rfl : ([] : List Tag) = tags := except_ok_inj h
      rfl
    | cons c rest =>
      rw [parseTagsF_cons] at h
      by_cases hsp : c = ' '
      · rw [if_pos hsp] at h
        exact ih (fun hx => hnn (List.mem_cons_of_mem c hx)) h
      · rw [if_neg hsp] at h
        by_cases hbr : c = '['
        · rw [if_pos hbr] at h
          rcases hsc : splitTagContent rest with _ | ⟨content, rem⟩ <;>
            rw [hsc] at h
          · cases h
          · simp only [] at h
            by_cases hemp : content.isEmpty = true
            · rw [if_pos hemp] at h
              cases h
            · rw [if_neg hemp] at h
              rcases hcf : classifyFrags ((splitChar ':' content).map str)
                with e | t0 <;> rw [hcf] at h
              · cases h
              · simp only [] at h
                rcases hrec : parseTagsF f rem with e2 | ts2 <;> rw [hrec] at h
                · cases h
                · obtain rfl : t0 :: ts2 = tags := except_ok_inj h
                  obtain ⟨hsub1, hsub2, hnbk⟩ := splitTagContent_parts hsc
                  have hcont_nn : '\n' ∉ content :=
                    fun hx => hnn (List.mem_cons_of_mem _ (hsub1 _ hx))
                  have hrem_nn : '\n' ∉ rem :=
                    fun hx => hnn (List.mem_cons_of_mem _ (hsub2 _ hx))
                  have hcne : content ≠ [] :=
                    fun he => hemp (by rw [he]; rfl)
                  simp only [List.all_cons, Bool.and_eq_true]
                  exact ⟨classifyFrags_wf hnbk hcont_nn hcne hcf, ih hrem_nn hrec⟩
        · rw [if_neg hbr] at h
          obtain rfl : ([] : List Tag) = tags := except_ok_inj h
          rfl

theorem parseTags_wf {cs : List Char} {tags : List Tag} (hnn : '\n' ∉ cs)
    (h : parseTags cs = .ok tags) : tags.all wfTag = true :=
  parseTagsF_wf cs.length hnn h

theorem wfSt_addDiag {st : PState} (h : wfSt st = true) (ln : Nat)
    (m : String) : wfSt (addDiag st ln m) = true := h

theorem wfSt_closeCur {st : PState} (h : wfSt st = true) :
    wfSt (closeCur st) = true := by
  unfold wfSt at h ⊢
  unfold closeCur
  rcases hc : st.cur with _ | a
  · exact h
  · simp only [Bool.and_eq_true] at h ⊢
    obtain ⟨⟨hents, hacc⟩, hfuncs⟩ := h
    rw [hc] at hacc
    have hacc2 : wfAcc a = true := hacc
    refine ⟨⟨?_, by trivial⟩, hfuncs⟩
    rw [List.all_append]
    simp only [Bool.and_eq_true, List.all_cons, List.all_nil, and_true]
    exact ⟨hents, hacc2⟩

theorem procBody_wf (ln : Nat) (t : List Char) (acc : EntAcc) (st : PState)
    (hents : st.ents.all wfEntity = true) (hfuncs : st.funcs.all wfFunc = true)
    (hacc : wfAcc acc = true) (hcur : st.cur = some acc) :
    wfSt (procBody ln t acc st) = true := by
  have hwfst : wfSt st = true := by
    unfold wfSt
    rw [hcur]
    simp [hents, hfuncs, hacc]
  have hacc2 := hacc
  unfold wfAcc at hacc2
  simp only [Bool.and_eq_true] at hacc2
  obtain ⟨⟨han, had⟩, has⟩ := hacc2
  unfold procBody
  by_cases hdep : listHasLead depMarker t = true
  · rw [if_pos hdep]
    rcases htu : takeUntilChar ']' (listDrop 7 t) with _ | ⟨n, r⟩
    · exact hwfst
    · simp only []
      by_cases hn : identL n = true
      · rw [if_pos hn]
        unfold wfSt
        simp only [Bool.and_eq_true]
        refine ⟨⟨hents, ?_⟩, hfuncs⟩
        unfold wfAcc
        simp only [Bool.and_eq_true]
        refine ⟨⟨han, ?_⟩, has⟩
        rw [List.all_append]
        simp [had, identStr, hn]
      · rw [if_neg hn]
        exact hwfst
  · rw [if_neg hdep]
    rcases hsw : splitWords t with _ | ⟨n, L1⟩
    · exact hwfst
    · rcases L1 with _ | ⟨sep, L2⟩
      · exact hwfst
      · rcases L2 with _ | ⟨w, L3⟩
        · exact hwfst
        · rcases L3 with _ | ⟨x, L4⟩
          · simp only []
            by_cases hcond : ((sep = ['∈'] || sep = ['i', 'n']) && identL n) = true
            · rw [if_pos hcond]
              simp only [Bool.and_eq_true] at hcond
              rcases hts : tsParse w with _ | ts
              · unfold wfSt
                simp only [Bool.and_eq_true]
                refine ⟨⟨hents, ?_⟩, hfuncs⟩
                unfold wfAcc
                simp only [Bool.and_eq_true]
                refine ⟨⟨han, had⟩, ?_⟩
                rw [List.all_append]
                simp [has, wfSV, identStr, hcond.2, wfTS_unknown]
              · unfold wfSt
                simp only [Bool.and_eq_true]
                refine ⟨⟨hents, ?_⟩, hfuncs⟩
                unfold wfAcc
                simp only [Bool.and_eq_true]
                refine ⟨⟨han, had⟩, ?_⟩
                rw [List.all_append]
                simp [has, wfSV, identStr, hcond.2, tsParse_wf hts]
            · rw [if_neg hcond]
              exact hwfst
          · exact hwfst

theorem procFun_wf {ln : Nat} {cs : List Char} {st st2 : PState}
    (h : procFun ln cs st = .ok st2) (hnn : '\n' ∉ cs)
    (hwf : wfSt st = true) : wfSt st2 = true := by
  have hwf2 := hwf
  unfold wfSt at hwf2
  simp only [Bool.and_eq_true] at hwf2
  obtain ⟨⟨hents, hcur⟩, hfuncs⟩ := hwf2
  unfold procFun at h
  rcases htw : takeWhileNotC ['('] (listDrop 2 cs) with ⟨nm, r1⟩
  rw [htw] at h
  simp only [] at h
  rcases r1 with _ | ⟨c1, r2⟩
  · obtain rfl := except_ok_inj h
    exact hwf
  · simp only [] at h
    by_cases hid : identL nm = true
    · rw [if_pos hid] at h
      rcases htu : takeUntilChar ')' r2 with _ | ⟨pcs, r3⟩
      · rw [htu] at h
        obtain rfl := except_ok_inj h
        exact hwf
      · rw [htu] at h
        simp only [] at h
        rcases hpp : paramsParse pcs with _ | ⟨ps, pdiag⟩
        · rw [hpp] at h
          obtain rfl := except_ok_inj h
          exact hwf
        · rw [hpp] at h
          simp only [] at h
          rcases hal : arrowLead (trimL r3) with _ | r4
          · rw [hal] at h
            obtain rfl := except_ok_inj h
            exact hwf
          · rw [hal] at h
            simp only [] at h
            rcases htw2 : takeWhileNotC [' '] (trimL r4) with ⟨rw2, r5⟩
            rw [htw2] at h
            simp only [] at h
            by_cases hre : rw2.isEmpty = true
            · rw [if_pos hre] at h
              obtain rfl := except_ok_inj h
              exact hwf
            · rw [if_neg hre] at h
              rcases hpt : parseTags r5 with e | tags
              · rw [hpt] at h
                cases h
              · rw [hpt] at h
                simp only [] at h
                have hr5nn : '\n' ∉ r5 := by
                  intro hx
                  apply hnn
                  apply mem_listDrop (n := 2)
                  apply (mem_takeWhileNotC htw).2
                  apply List.mem_cons_of_mem c1
                  apply (mem_takeUntilChar htu).2
                  apply mem_trimL2
                  apply mem_arrowLead hal
                  apply mem_trimL2
                  exact (mem_takeWhileNotC htw2).2 '\n' hx
                have htags := parseTags_wf hr5nn hpt
                have hfn : ∀ ts2, wfTS ts2 = true →
                    (st.funcs ++ [(⟨str nm, ps, ts2, tags⟩ : Func)]).all wfFunc = true := by
                  intro ts2 hts2
                  rw [List.all_append]
                  simp only [Bool.and_eq_true]
                  refine ⟨hfuncs, ?_⟩
                  simp only [List.all_cons, List.all_nil, Bool.and_eq_true,
                    and_true]
                  simp [wfFunc, identStr, hid, paramsParse_wf hpp, hts2, htags]
                cases pdiag
                · rcases hts : tsParse rw2 with _ | ts
                  · rw [hts] at h
                    simp only [] at h
                    obtain rfl := except_ok_inj h
                    unfold wfSt
                    simp only [Bool.and_eq_true]
                    exact ⟨⟨hents, hcur⟩, hfn unknownTS wfTS_unknown⟩
                  · rw [hts] at h
                    simp only [] at h
                    obtain rfl := except_ok_inj h
                    unfold wfSt
                    simp only [Bool.and_eq_true]
                    exact ⟨⟨hents, hcur⟩, hfn ts (tsParse_wf hts)⟩
                · rcases hts : tsParse rw2 with _ | ts
                  · rw [hts] at h
                    simp only [] at h
                    obtain rfl := except_ok_inj h
                    unfold wfSt
                    simp only [Bool.and_eq_true]
                    exact ⟨⟨hents, hcur⟩, hfn unknownTS wfTS_unknown⟩
                  · rw [hts] at h
                    simp only [] at h
                    obtain rfl := except_ok_inj h
                    unfold wfSt
                    simp only [Bool.and_eq_true]
                    exact ⟨⟨hents, hcur⟩, hfn ts (tsParse_wf hts)⟩
    · rw [if_neg hid] at h
      obtain rfl := except_ok_inj h
      exact hwf

theorem procLine_wf {ln : Nat} {l : List Char} {st st2 : PState}
    (h : procLine ln l st = .ok st2) (hnn : '\n' ∉ l)
    (hwf : wfSt st = true) : wfSt st2 = true := by
  unfold procLine at h
  by_cases hb : isBlankL l = true
  · rw [if_pos hb] at h
    obtain rfl := except_ok_inj h
    exact hwf
  · rw [if_neg hb] at h
    by_cases hcm : isCommentL l = true
    · rw [if_pos hcm] at h
      obtain rfl := except_ok_inj h
      exact hwf
    · rw [if_neg hcm] at h
      cases l with
      | nil =>
        obtain rfl := except_ok_inj h
        exact hwf
      | cons c rest =>
        simp only [] at h
        by_cases hsp : c = ' '
        · rw [if_pos hsp] at h
          rcases hc : st.cur with _ | acc
          · rw [hc] at h
            obtain rfl := except_ok_inj h
            exact hwf
          · rw [hc] at h
            simp only [] at h
            obtain rfl := except_ok_inj h
            have hwf2 := hwf
            unfold wfSt at hwf2
            simp only [Bool.and_eq_true] at hwf2
            obtain ⟨⟨hents, hcur⟩, hfuncs⟩ := hwf2
            rw [hc] at hcur
            have hacc : wfAcc acc = true := hcur
            exact procBody_wf ln (trimL (c :: rest)) acc st hents hfuncs hacc hc
        · rw [if_neg hsp] at h
          by_cases hent : listHasLead entMarker (c :: rest) = true
          · rw [if_pos hent] at h
            rcases htu : takeUntilChar ']' (listDrop 3 (c :: rest)) with _ | ⟨n, r⟩
            · rw [htu] at h
              obtain rfl := except_ok_inj h
              exact wfSt_closeCur hwf
            · rw [htu] at h
              simp only [] at h
              by_cases hn : identL n = true
              · rw [if_pos hn] at h
                obtain rfl := except_ok_inj h
                have hcc := wfSt_closeCur hwf
                unfold wfSt at hcc ⊢
                simp only [Bool.and_eq_true] at hcc ⊢
                obtain ⟨⟨h1, h2⟩, h3⟩ := hcc
                refine ⟨⟨h1, ?_⟩, h3⟩
                show wfAcc ⟨str n, [], []⟩ = true
                simp [wfAcc, identStr, hn]
              · rw [if_neg hn] at h
                obtain rfl := except_ok_inj h
                exact wfSt_closeCur hwf
          · rw [if_neg hent] at h
            by_cases hfn : listHasLead funMarker (c :: rest) = true
            · rw [if_pos hfn] at h
              exact procFun_wf h hnn (wfSt_closeCur hwf)
            · rw [if_neg hfn] at h
              obtain rfl := except_ok_inj h
              exact wfSt_closeCur hwf

theorem procLines_wf : ∀ (ls : List (List Char)) {ln : Nat} {st st2 : PState},
    procLines ls ln st = .ok st2 → (∀ l ∈ ls, '\n' ∉ l) →
    wfSt st = true → wfSt st2 = true := by
  intro ls
  induction ls with
  | nil =>
    intro ln st st2 h _ hwf
    obtain rfl := except_ok_inj h
    exact hwf
  | cons l ls2 ih =>
    intro ln st st2 h hnl hwf
    rw [procLines_cons] at h
    rcases hp : procLine ln l st with e | stm
    · rw [hp] at h
      cases h
    · rw [hp] at h
      simp only [] at h
      exact ih h (fun x hx => hnl x (List.mem_cons_of_mem l hx))
        (procLine_wf hp (hnl l (List.mem_cons_self l ls2)) hwf)

theorem metaParse_wf {l : List Char} {md : Metadata}
    (h : metaParse l = some md) :
    identStr md.moduleName = true ∧
    (match md.role with
     | none => true
     | some r => identStr r) = true := by
  unfold metaParse at h
  rcases hf : findSub metaMarker l with _ | r1
  · rw [hf] at h
    cases h
  · rw [hf] at h
    simp only [] at h
    rcases ht : takeUntilChar ']' r1 with _ | ⟨n, r2⟩
    · rw [ht] at h
      cases h
    · rw [ht] at h
      simp only [] at h
      by_cases hn : identL n = true
      · rw [if_pos hn] at h
        injection h with h2
        subst h2
        refine ⟨hn, ?_⟩
        simp only []
        rcases hr : findSub roleMarker r2 with _ | r3
        · rfl
        · simp only []
          rcases htu2 : takeUntilChar ']' r3 with _ | ⟨rn, r4⟩
          · rfl
          · simp only []
            by_cases hrn : identL rn = true
            · rw [if_pos hrn]
              exact hrn
            · rw [if_neg hrn]
      · rw [if_neg hn] at h
        cases h

theorem findMeta_wf : ∀ (ls : List (List Char)) {ln : Nat} {md : Metadata}
    {rest : List (List Char)} {ln2 : Nat},
    findMeta ls ln = .ok (md, rest, ln2) →
    (identStr md.moduleName = true ∧
     (match md.role with
      | none => true
      | some r => identStr r) = true) ∧
    ∀ l ∈ rest, l ∈ ls := by
  intro ls
  induction ls with
  | nil =>
    intro ln md rest ln2 h
    cases h
  | cons l ls2 ih =>
    intro ln md rest ln2 h
    unfold findMeta at h
    by_cases hb : isBlankL l = true
    · rw [if_pos hb] at h
      obtain ⟨h1, h2⟩ := ih h
      exact ⟨h1, fun x hx => List.mem_cons_of_mem l (h2 x hx)⟩
    · rw [if_neg hb] at h
      by_cases hcm : isCommentL l = true
      · rw [if_pos hcm] at h
        rcases hm : metaParse l with _ | md2
        · rw [hm] at h
          cases h
        · rw [hm] at h
          simp only [] at h
          obtain ⟨rfl, rfl, rfl⟩ : md2 = md ∧ ls2 = rest ∧ ln + 1 = ln2 := by
            have h5 := except_ok_inj h
            simpa using h5
          exact ⟨metaParse_wf hm, fun x hx => List.mem_cons_of_mem l hx⟩
      · rw [if_neg hcm] at h
        cases h

theorem parse_wf {t : String} {D : Document} (h : parse t = .ok D) :
    wfDoc D = true := by
  unfold parse at h
  rcases hfm : findMeta (splitChar '\n' (chars t)) 1 with e | ⟨md, rest, ln⟩
  · rw [hfm] at h
    cases h
  · rw [hfm] at h
    simp only [] at h
    rcases hpl : procLines rest ln ⟨[], none, [], []⟩ with e2 | stf
    · rw [hpl] at h
      cases h
    · rw [hpl] at h
      simp only [] at h
      obtain rfl := except_ok_inj h
      obtain ⟨⟨hmd1, hmd2⟩, hsub⟩ := findMeta_wf _ hfm
      have hnl : ∀ l ∈ rest, '\n' ∉ l := by
        intro l hl
        exact (splitChar_pieces (hsub l hl)).1
      have hwf0 : wfSt ⟨[], none, [], []⟩ = true := rfl
      have hwf2 := procLines_wf rest hpl hnl hwf0
      have hwf3 := wfSt_closeCur hwf2
      unfold wfSt at hwf3
      simp only [Bool.and_eq_true] at hwf3
      obtain ⟨⟨hents, h9⟩, hfuncs⟩ := hwf3
      unfold wfDoc
      simp only [Bool.and_eq_true]
      exact ⟨⟨⟨hmd1, hmd2⟩, hents⟩, hfuncs⟩

/-- C1: the corrected round-trip contract.  For every input text that
parses and every configuration with positive indentation, formatting is
idempotent (re-parsing the formatted output and formatting again
reproduces it exactly), and re-parsing the formatted output yields the
parsed document up to the configured state-variable order: it is
structurally equal to the original whenever `sort_state_by` is not
`name` (`c1_roundtrip_counterexample` shows equality genuinely fails for
`sort_state_by = name`, and diagnostics are never preserved). -/
theorem c1_roundtrip_amended (t : String) (c : FormatConfig) (D : Document)
    (hind : 0 < c.indent) (hp : parse t = .ok D) :
    formatText (formatDoc D c) c = .ok (formatDoc D c) ∧
    parse (formatDoc D c) = .ok (roundDoc c D) ∧
    (c.sortStateBy ≠ SortBy.name → structEq (roundDoc c D) D = true) := by
  have hwf : wfDoc D = true := parse_wf hp
  refine ⟨?_, parse_print D c hind hwf, fun h2 => structEq_round D c h2⟩
  unfold formatText
  rw [parse_print D c hind hwf]
  rw [show (Except.map (fun D2 => formatDoc D2 c)
        (Except.ok (roundDoc c D)) : Except ParseErr String) =
      Except.ok (formatDoc (roundDoc c D) c) from rfl]
  rw [formatDoc_round]

/-- Closed witness for `c1_roundtrip_amended` on a concrete document and
the default configuration. -/
theorem c1_roundtrip_amended_witness :
    0 < (⟨2, true, true, SortBy.location, 100⟩ : FormatConfig).indent ∧
    parse "# [M:Test]\n[C:A]\n  a ∈ i32" =
      .ok ⟨⟨"Test", none⟩,
        [⟨"A", [], [⟨"a", ⟨"i32", none, none⟩⟩]⟩], [], []⟩ ∧
    (formatText
        (formatDoc ⟨⟨"Test", none⟩,
          [⟨"A", [], [⟨"a", ⟨"i32", none, none⟩⟩]⟩], [], []⟩
          ⟨2, true, true, SortBy.location, 100⟩)
        ⟨2, true, true, SortBy.location, 100⟩ =
      .ok (formatDoc ⟨⟨"Test", none⟩,
          [⟨"A", [], [⟨"a", ⟨"i32", none, none⟩⟩]⟩], [], []⟩
          ⟨2, true, true, SortBy.location, 100⟩) ∧
     parse (formatDoc ⟨⟨"Test", none⟩,
          [⟨"A", [], [⟨"a", ⟨"i32", none, none⟩⟩]⟩], [], []⟩
          ⟨2, true, true, SortBy.location, 100⟩) =
      .ok (roundDoc ⟨2, true, true, SortBy.location, 100⟩
        ⟨⟨"Test", none⟩, [⟨"A", [], [⟨"a", ⟨"i32", none, none⟩⟩]⟩], [], []⟩) ∧
     ((⟨2, true, true, SortBy.location, 100⟩ : FormatConfig).sortStateBy ≠
        SortBy.name →
      structEq
        (roundDoc ⟨2, true, true, SortBy.location, 100⟩
          ⟨⟨"Test", none⟩, [⟨"A", [], [⟨"a", ⟨"i32", none, none⟩⟩]⟩], [], []⟩)
        ⟨⟨"Test", none⟩, [⟨"A", [], [⟨"a", ⟨"i32", none, none⟩⟩]⟩], [], []⟩ =
        true)) :=
  ⟨by decide, by rfl,
    c1_roundtrip_amended "# [M:Test]\n[C:A]\n  a ∈ i32"
      ⟨2, true, true, SortBy.location, 100⟩
      ⟨⟨"Test", none⟩, [⟨"A", [], [⟨"a", ⟨"i32", none, none⟩⟩]⟩], [], []⟩
      (by decide) (by rfl)⟩

end PyShort
